import Mathlib

/-!
Verification of the kitty truth-table operation core
(src/include/kitty/operations.hpp) and the unate checks of
src/include/kitty/threshold_identification.hpp.

A truth table over num_vars variables is a dense bit-vector of 2^num_vars
bits, stored as a list of 64-bit words (one word when num_vars <= 6,
2^(num_vars-6) words otherwise).  Words are modelled as natural numbers;
every C++ uint64 operation that can overflow (left shift, increment) is
followed by an explicit reduction modulo 2^64.  In-place operations are
modelled as pure functions returning the updated table.
-/

namespace Kitty

/-- All 64-bit words have values below this bound. -/
def W : Nat := 2 ^ 64

/-- Generic bit mask: the number whose bit p (for p < n) is set iff P p. -/
def maskOf (P : Nat → Bool) : Nat → Nat
  | 0 => 0
  | n + 1 => maskOf P n + (if P n then 2 ^ n else 0)

/-- Modelled from the spec (§4.1 constant mask tables; the file defining
detail::projections is not under src/): the projection mask selecting all
bit positions of a 64-bit word where variable i is 1. -/
def projections (i : Nat) : Nat := maskOf (fun p => p.testBit i) 64

/-- Modelled from the spec (§4.1): the projection mask selecting all bit
positions of a 64-bit word where variable i is 0. -/
def projections_neg (i : Nat) : Nat := maskOf (fun p => !p.testBit i) 64

/-- Modelled from the spec (§4.1 permutation mask triple for a pair of
variable indices): partition of a word into untouched, move-up and
move-down groups for swapping variables i and j (i < j). -/
def ppermutation_masks (i j : Nat) : Nat × Nat × Nat :=
  (maskOf (fun p => p.testBit i == p.testBit j) 64,
   maskOf (fun p => p.testBit i && !p.testBit j) 64,
   maskOf (fun p => !p.testBit i && p.testBit j) 64)

/-- Modelled from the spec (§4.1): the permutation mask triple used by the
adjacent swap of variables i and i+1. -/
def permutation_masks (i : Nat) : Nat × Nat × Nat := ppermutation_masks i (i + 1)

/-- Bitwise complement of a 64-bit word (C++ operator~ on uint64_t). -/
def compl64 (x : Nat) : Nat := (W - 1) ^^^ x

/-- A truth table: the number of variables and the backing words
(dynamic_truth_table's num_vars and _bits fields). -/
structure TruthTable where
  num_vars : Nat
  bits : List Nat
deriving DecidableEq, Repr

/-- Modelled from the spec (invariant I3; dynamic_truth_table.hpp is not
under src/): number of backing words of a table. -/
def num_blocks (nv : Nat) : Nat := if nv ≤ 6 then 1 else 2 ^ (nv - 6)

/-- Modelled from the spec (§3 data model): number of logical bits. -/
def num_bits (nv : Nat) : Nat := 2 ^ nv

/-- Well-formedness of the storage: the block count matches invariant I3 and
every word fits in 64 bits (the C++ words are uint64_t by type). -/
def TruthTable.wf (t : TruthTable) : Prop :=
  t.bits.length = num_blocks t.num_vars ∧ ∀ w ∈ t.bits, w < W

instance (t : TruthTable) : Decidable t.wf := by
  unfold TruthTable.wf; infer_instance

/-- Modelled from the spec (invariant I1; dynamic_truth_table::mask_bits is
not under src/): clear the bit positions at or above 2^num_vars, which only
exist inside the single word backing a table with fewer than 6 variables. -/
def mask_bits (t : TruthTable) : TruthTable :=
  if t.num_vars < 6 then
    { t with bits := t.bits.set 0 (t.bits.getD 0 0 &&& (2 ^ 2 ^ t.num_vars - 1)) }
  else t

/-- Modelled from the spec (invariant I2 bit addressing; get_bit lives in
bit_operations.hpp, which is not under src/): the bit of the table at
position x, as 0 or 1. -/
def get_bit (t : TruthTable) (x : Nat) : Nat :=
  (t.bits.getD (x / 64) 0 >>> (x % 64)) &&& 1

/-- Modelled from the spec (operations call kitty::clear, defined outside
src/): set all backing words to zero. -/
def clear (t : TruthTable) : TruthTable :=
  { t with bits := List.replicate t.bits.length 0 }

/-- operations.hpp is_const0: all backing words are zero. -/
def is_const0 (t : TruthTable) : Bool := t.bits.all (fun w => w == 0)

/-- Update the pair of words at the two given positions; the new values are
computed from the two old values (both loop bodies in the source read both
words before writing either result they use). -/
def upd2 (f : Nat → Nat → Nat × Nat) (l : List Nat) (p : Nat × Nat) : List Nat :=
  let va := l.getD p.1 0
  let vb := l.getD p.2 0
  (l.set p.1 (f va vb).1).set p.2 (f va vb).2

/-- Run a block-pair loop: apply the pair update at every index pair, in
loop order. -/
def applyPairs (f : Nat → Nat → Nat × Nat) (l : List Nat) (ps : List (Nat × Nat)) : List Nat :=
  ps.foldl (upd2 f) l

/-- Index pairs visited by the doubly nested block loops of the source
(outer index advancing by 2*step over nb blocks, inner offset j < step,
pairing block i+j with block i+j+step). -/
def pairsDouble (nb step : Nat) : List (Nat × Nat) :=
  (List.range (nb / (2 * step))).flatMap (fun o =>
    (List.range step).map (fun j => (2 * step * o + j, 2 * step * o + j + step)))

/-- Index pairs of the block regime of swap_adjacent_inplace (outer index
advancing by 4*step, pairing block i+step with block i+2*step for i < step). -/
def pairsAdj (nb step : Nat) : List (Nat × Nat) :=
  (List.range (nb / (4 * step))).flatMap (fun o =>
    (List.range step).map (fun j =>
      (4 * step * o + j + step, 4 * step * o + j + 2 * step)))

/-- Index pairs of the fourth regime of swap_inplace (outer index advancing
by 2*step2, middle index advancing by 2*step1 below step2, inner offset
j < step1, pairing block base+j+step1 with block base+j+step2). -/
def pairsR4 (nb step1 step2 : Nat) : List (Nat × Nat) :=
  (List.range (nb / (2 * step2))).flatMap (fun o =>
    (List.range (step2 / (2 * step1))).flatMap (fun m =>
      (List.range step1).map (fun j =>
        (2 * step2 * o + 2 * step1 * m + j + step1,
         2 * step2 * o + 2 * step1 * m + j + step2))))

/-- operations.hpp has_var (line 158): whether the table depends on the
given variable. -/
def has_var (t : TruthTable) (var_index : Nat) : Bool :=
  if t.num_vars ≤ 6 ∨ var_index < 6 then
    t.bits.any (fun word =>
      ((word >>> (1 <<< var_index)) &&& projections_neg var_index) !=
      (word &&& projections_neg var_index))
  else
    let step := 2 ^ (var_index - 6)
    (pairsDouble t.bits.length step).any (fun ab =>
      t.bits.getD ab.1 0 != t.bits.getD ab.2 0)

/-- Word update of next_inplace with carry propagation (the loop of
operations.hpp line 214: increment each word, stop at the first word that
does not overflow to zero). -/
def incWords : List Nat → List Nat
  | [] => []
  | w :: ws =>
    let w' := (w + 1) % W
    if w' = 0 then w' :: incWords ws else w' :: ws

/-- operations.hpp next_inplace (line 205). -/
def next_inplace (t : TruthTable) : TruthTable :=
  if t.num_vars ≤ 6 then
    mask_bits { t with bits := t.bits.set 0 ((t.bits.getD 0 0 + 1) % W) }
  else
    { t with bits := incWords t.bits }

/-- operations.hpp next (line 239), out-of-place variant. -/
def next (t : TruthTable) : TruthTable := next_inplace t

/-- Word transform of cofactor0_inplace in the word-internal regime. -/
def cofactor0_word (var_index w : Nat) : Nat :=
  (((w &&& projections_neg var_index) <<< (1 <<< var_index)) % W) |||
  (w &&& projections_neg var_index)

/-- operations.hpp cofactor0_inplace (line 252). -/
def cofactor0_inplace (t : TruthTable) (var_index : Nat) : TruthTable :=
  if t.num_vars ≤ 6 ∨ var_index < 6 then
    { t with bits := t.bits.map (cofactor0_word var_index) }
  else
    let step := 2 ^ (var_index - 6)
    { t with bits := applyPairs (fun a _b => (a, a)) t.bits (pairsDouble t.bits.length step) }

/-- operations.hpp cofactor0 (line 289), out-of-place variant. -/
def cofactor0 (t : TruthTable) (var_index : Nat) : TruthTable :=
  cofactor0_inplace t var_index

/-- Word transform of cofactor1_inplace in the word-internal regime. -/
def cofactor1_word (var_index w : Nat) : Nat :=
  (w &&& projections var_index) |||
  ((w &&& projections var_index) >>> (1 <<< var_index))

/-- operations.hpp cofactor1_inplace (line 302). -/
def cofactor1_inplace (t : TruthTable) (var_index : Nat) : TruthTable :=
  if t.num_vars ≤ 6 ∨ var_index < 6 then
    { t with bits := t.bits.map (cofactor1_word var_index) }
  else
    let step := 2 ^ (var_index - 6)
    { t with bits := applyPairs (fun _a b => (b, b)) t.bits (pairsDouble t.bits.length step) }

/-- operations.hpp cofactor1 (line 338), out-of-place variant. -/
def cofactor1 (t : TruthTable) (var_index : Nat) : TruthTable :=
  cofactor1_inplace t var_index

/-- Word transform of swap_adjacent_inplace when var_index < 5. -/
def swap_adjacent_word (var_index w : Nat) : Nat :=
  (w &&& (permutation_masks var_index).1) |||
  (((w &&& (permutation_masks var_index).2.1) <<< (1 <<< var_index)) % W) |||
  ((w &&& (permutation_masks var_index).2.2) >>> (1 <<< var_index))

/-- Word-pair transform of swap_adjacent_inplace when var_index = 5
(exchange the upper half of the even word with the lower half of the odd
word). -/
def swap_adjacent_half (a b : Nat) : Nat × Nat :=
  ((a &&& 0xffffffff) ||| ((b <<< 0x20) % W),
   (b &&& 0xffffffff00000000) ||| (a >>> 0x20))

/-- operations.hpp swap_adjacent_inplace (line 355). -/
def swap_adjacent_inplace (t : TruthTable) (var_index : Nat) : TruthTable :=
  if var_index < 5 then
    { t with bits := t.bits.map (swap_adjacent_word var_index) }
  else if var_index = 5 then
    { t with bits := applyPairs swap_adjacent_half t.bits (pairsDouble t.bits.length 1) }
  else
    let step := 2 ^ (var_index - 6)
    { t with bits := applyPairs (fun a b => (b, a)) t.bits (pairsAdj t.bits.length step) }

/-- operations.hpp swap_adjacent (line 422), out-of-place variant. -/
def swap_adjacent (t : TruthTable) (var_index : Nat) : TruthTable :=
  swap_adjacent_inplace t var_index

/-- Word transform of swap_inplace in the word-internal regimes, for the
ordered pair var_index1 < var_index2 <= 5. -/
def swap_word (var_index1 var_index2 w : Nat) : Nat :=
  let pmask := ppermutation_masks var_index1 var_index2
  let shift := 2 ^ var_index2 - 2 ^ var_index1
  (w &&& pmask.1) ||| (((w &&& pmask.2.1) <<< shift) % W) ||| ((w &&& pmask.2.2) >>> shift)

/-- Word-pair transform of the third regime of swap_inplace
(var_index1 <= 5 < var_index2): exchange the projection of variable
var_index1 between the two blocks. -/
def swap_r3_pair (var_index1 : Nat) (a b : Nat) : Nat × Nat :=
  let shift := 1 <<< var_index1
  let low_to_high := (a &&& projections var_index1) >>> shift
  let high_to_low := ((b <<< shift) % W) &&& projections var_index1
  ((a &&& compl64 (projections var_index1)) ||| high_to_low,
   (b &&& projections var_index1) ||| low_to_high)

/-- operations.hpp swap_inplace (line 440). -/
def swap_inplace (t : TruthTable) (var_index1 var_index2 : Nat) : TruthTable :=
  if var_index1 = var_index2 then t
  else
    let i := min var_index1 var_index2
    let j := max var_index1 var_index2
    if t.num_vars ≤ 6 then
      { t with bits := t.bits.set 0 (swap_word i j (t.bits.getD 0 0)) }
    else if j ≤ 5 then
      { t with bits := t.bits.map (swap_word i j) }
    else if i ≤ 5 then
      let step := 2 ^ (j - 6)
      { t with bits := applyPairs (swap_r3_pair i) t.bits (pairsDouble t.bits.length step) }
    else
      let step1 := 2 ^ (i - 6)
      let step2 := 2 ^ (j - 6)
      { t with bits := applyPairs (fun a b => (b, a)) t.bits (pairsR4 t.bits.length step1 step2) }

/-- operations.hpp swap (line 533), out-of-place variant. -/
def swap (t : TruthTable) (var_index1 var_index2 : Nat) : TruthTable :=
  swap_inplace t var_index1 var_index2

/-- operations.hpp swap_inplace for small static truth tables (line 505):
the single-word overload on the raw word. -/
def swap_inplace_static (bits : Nat) (var_index1 var_index2 : Nat) : Nat :=
  if var_index1 = var_index2 then bits
  else swap_word (min var_index1 var_index2) (max var_index1 var_index2) bits

/-- Word transform of flip_inplace in the word-internal regimes. -/
def flip_word (var_index w : Nat) : Nat :=
  (((w <<< (1 <<< var_index)) % W) &&& projections var_index) |||
  ((w &&& projections var_index) >>> (1 <<< var_index))

/-- operations.hpp flip_inplace (line 550). -/
def flip_inplace (t : TruthTable) (var_index : Nat) : TruthTable :=
  if t.bits.length = 1 then
    { t with bits := t.bits.set 0 (flip_word var_index (t.bits.getD 0 0)) }
  else if var_index < 6 then
    { t with bits := t.bits.map (flip_word var_index) }
  else
    let step := 2 ^ (var_index - 6)
    { t with bits := applyPairs (fun a b => (b, a)) t.bits (pairsDouble t.bits.length step) }

/-- operations.hpp flip (line 602), out-of-place variant. -/
def flip (t : TruthTable) (var_index : Nat) : TruthTable :=
  flip_inplace t var_index

/-- One iteration of the min_base_inplace loop (operations.hpp line 631),
over the state (table, next free slot k, support collected so far). -/
def min_base_step (s : TruthTable × Nat × List Nat) (i : Nat) : TruthTable × Nat × List Nat :=
  if has_var s.1 i then
    ((if s.2.1 < i then swap_inplace s.1 s.2.1 i else s.1), s.2.1 + 1, s.2.2 ++ [i])
  else s

/-- operations.hpp min_base_inplace (line 626): compact the support to the
lowest variable indices; returns the updated table and the support list. -/
def min_base_inplace (t : TruthTable) : TruthTable × List Nat :=
  let r := (List.range t.num_vars).foldl min_base_step (t, 0, [])
  (r.1, r.2.2)

/-- operations.hpp expand_inplace (line 657): replay the swaps recorded in
the support list in reverse index order. -/
def expand_inplace (t : TruthTable) (support : List Nat) : TruthTable :=
  ((List.range support.length).reverse).foldl
    (fun acc i => swap_inplace acc i (support.getD i 0)) t

/-- operations.hpp extend_to (line 676): extend a smaller table to
num_vars variables, functionally (the C++ overwrites every word of the
destination, so only its variable count matters). -/
def extend_to (nv : Nat) (t : TruthTable) : TruthTable :=
  if t.num_vars < 6 then
    let mask := (List.range' t.num_vars (min 6 nv - t.num_vars)).foldl
      (fun m i => m ||| ((m <<< (1 <<< i)) % W)) (t.bits.getD 0 0)
    { num_vars := nv, bits := List.replicate (num_blocks nv) mask }
  else
    { num_vars := nv, bits := (List.replicate (num_blocks nv / t.bits.length) t.bits).flatten }

/-- operations.hpp shift_left_inplace (line 727). In the single-word branch
the source executes the C++ expression bits[0] <<= shift (line 732) and then
mask_bits; a C++ shift count of 64 or more on a 64-bit word is undefined
behavior, so in that range the branch is modelled as what the common targets
(x86, ARM) do: the shift count is taken modulo the word width. For
shift < 64 the modulo is the identity and the model is exactly the defined
C++ behavior. -/
def shift_left_inplace (t : TruthTable) (shift : Nat) : TruthTable :=
  if t.num_vars ≤ 6 then
    mask_bits { t with bits := t.bits.set 0 ((t.bits.getD 0 0 <<< (shift % 64)) % W) }
  else if shift ≥ num_bits t.num_vars then
    clear t
  else if shift > 0 then
    let last := t.bits.length - 1
    let d := shift / 64
    let rem := shift % 64
    let bits1 :=
      if rem ≠ 0 then
        let rshift := 64 - rem
        let l := ((List.range' 1 (last - d)).reverse).foldl
          (fun acc i =>
            acc.set (i + d) (((acc.getD i 0 <<< rem) % W) ||| (acc.getD (i - 1) 0 >>> rshift)))
          t.bits
        l.set d ((l.getD 0 0 <<< rem) % W)
      else
        let l := ((List.range' 1 (last - d)).reverse).foldl
          (fun acc i => acc.set (i + d) (acc.getD i 0)) t.bits
        l.set d (l.getD 0 0)
    { t with bits := (List.range d).foldl (fun acc i => acc.set i 0) bits1 }
  else t

/-- operations.hpp shift_left (line 789), out-of-place variant. -/
def shift_left (t : TruthTable) (shift : Nat) : TruthTable :=
  shift_left_inplace t shift

/-- threshold_identification.hpp is_negative_unate_in_i (line 263). -/
def is_negative_unate_in_i (t : TruthTable) (i : Nat) : Bool :=
  let tt0 := cofactor0 t i
  let tt1 := cofactor1 t i
  (List.range (2 <<< (t.num_vars - 1))).all
    (fun bit => decide (get_bit tt0 bit ≥ get_bit tt1 bit))

/-- threshold_identification.hpp is_positive_unate_in_i (line 281). -/
def is_positive_unate_in_i (t : TruthTable) (i : Nat) : Bool :=
  let tt0 := cofactor0 t i
  let tt1 := cofactor1 t i
  (List.range (2 <<< (t.num_vars - 1))).all
    (fun bit => decide (get_bit tt0 bit ≤ get_bit tt1 bit))

/-- The logical bit of the table at position x (word x / 64, bit x % 64),
as a Boolean; the semantic view used by the correctness statements. -/
def tableBit (t : TruthTable) (x : Nat) : Bool :=
  (t.bits.getD (x / 64) 0).testBit (x % 64)

/-- Invariant I1: every bit position at or above 2^num_vars that exists
within the allocated storage is zero. -/
def masked (t : TruthTable) : Prop :=
  ∀ x < 64 * t.bits.length, 2 ^ t.num_vars ≤ x → tableBit t x = false

instance (t : TruthTable) : Decidable (masked t) := by
  unfold masked; infer_instance

/-- The bit-index permutation realised by swapping variables i and j:
exchange bits i and j of the index. -/
def swapBits (x i j : Nat) : Nat :=
  if x.testBit i = x.testBit j then x else x ^^^ (2 ^ i ||| 2 ^ j)

/-- The index map realised by cofactor0: force bit i of the index to 0. -/
def clearBit (x i : Nat) : Nat := if x.testBit i then x ^^^ 2 ^ i else x

/-- The index map realised by cofactor1: force bit i of the index to 1. -/
def setBit (x i : Nat) : Nat := if x.testBit i then x else x ^^^ 2 ^ i

/-- The index pairs of a block loop touch pairwise disjoint positions. -/
def PDisjoint (ps : List (Nat × Nat)) : Prop :=
  ps.Pairwise (fun p q => p.1 ≠ q.1 ∧ p.1 ≠ q.2 ∧ p.2 ≠ q.1 ∧ p.2 ≠ q.2)

/-- The value of the whole bit-vector read as one large unsigned integer
(base-2^64 digits, least-significant word first); used to state the
increment behaviour of next_inplace. -/
def wordsVal : List Nat → Nat
  | [] => 0
  | w :: ws => w + W * wordsVal ws

/-! ### Bit-level toolkit -/

theorem maskOf_lt (P : Nat → Bool) (n : Nat) : maskOf P n < 2 ^ n := by
  induction n with
  | zero => simp [maskOf]
  | succ n ih =>
    have h2 : (if P n then 2 ^ n else 0) ≤ 2 ^ n := by split <;> simp
    have hp : (2:Nat) ^ (n+1) = 2 ^ n * 2 := by rw [pow_succ]
    unfold maskOf
    omega

theorem testBit_mul_pow_add (a : Nat) {b n : Nat} (hb : b < 2 ^ n) (k : Nat) :
    (a * 2 ^ n + b).testBit k = if k < n then b.testBit k else a.testBit (k - n) := by
  rcases lt_or_ge k n with h | h
  · simp only [if_pos h]
    rw [Nat.testBit_to_div_mod, Nat.testBit_to_div_mod]
    have h1 : a * 2 ^ n + b = 2 ^ k * (2 * (a * 2 ^ (n - k - 1))) + b := by
      rw [show (2:Nat) ^ n = 2 ^ k * (2 ^ (n - k - 1) * 2) by
        rw [← pow_succ, ← pow_add]; congr 1; omega]
      ring
    rw [h1, Nat.mul_add_div (Nat.two_pow_pos k), Nat.mul_add_mod]
  · simp only [if_neg (Nat.not_lt.mpr h)]
    rw [Nat.testBit_to_div_mod, Nat.testBit_to_div_mod]
    have h1 : (a * 2 ^ n + b) / 2 ^ k = a / 2 ^ (k - n) := by
      rw [show (2:Nat) ^ k = 2 ^ n * 2 ^ (k - n) by rw [← pow_add]; congr 1; omega]
      rw [← Nat.div_div_eq_div_mul]
      congr 1
      rw [show a * 2 ^ n + b = 2 ^ n * a + b by ring]
      rw [Nat.mul_add_div (Nat.two_pow_pos n), Nat.div_eq_of_lt hb, Nat.add_zero]
    rw [h1]

theorem testBit_high_of_lt {x m j : Nat} (hx : x < 2 ^ m) (hj : m ≤ j) :
    x.testBit j = false :=
  Nat.testBit_lt_two_pow (lt_of_lt_of_le hx (Nat.pow_le_pow_right (by norm_num) hj))

theorem lt_two_pow_of_high_bits {x m : Nat} (h : ∀ j, m ≤ j → x.testBit j = false) :
    x < 2 ^ m := by
  by_contra hc
  push_neg at hc
  set d := x / 2 ^ m with hd
  have hd0 : d ≠ 0 := by
    intro h0
    have := (Nat.div_eq_zero_iff (Nat.two_pow_pos m)).mp h0
    omega
  obtain ⟨i, hi, -⟩ := Nat.exists_most_significant_bit hd0
  have hx : x.testBit (m + i) = true := by
    rw [Nat.testBit_to_div_mod, show (2:Nat) ^ (m + i) = 2 ^ m * 2 ^ i by rw [pow_add],
      ← Nat.div_div_eq_div_mul, ← hd, ← Nat.testBit_to_div_mod]
    exact hi
  rw [h (m + i) (Nat.le_add_right m i)] at hx
  exact Bool.false_ne_true hx

theorem ge_of_testBit_true {x i : Nat} (h : x.testBit i = true) : 2 ^ i ≤ x := by
  by_contra hc
  push_neg at hc
  rw [Nat.testBit_lt_two_pow hc] at h
  exact Bool.false_ne_true h

theorem testBit_maskOf (P : Nat → Bool) (n p : Nat) :
    (maskOf P n).testBit p = (decide (p < n) && P p) := by
  induction n with
  | zero => simp [maskOf]
  | succ n ih =>
    unfold maskOf
    by_cases hP : P n
    · simp only [hP, if_true]
      have h1 : maskOf P n + 2 ^ n = 1 * 2 ^ n + maskOf P n := by ring
      rw [h1, testBit_mul_pow_add 1 (maskOf_lt P n) p]
      rcases lt_trichotomy p n with h | h | h
      · simp [h, ih, Nat.lt_succ_of_lt h]
      · subst h
        simp [hP, Nat.lt_irrefl, Nat.lt_succ_self, Nat.testBit_zero]
      · have h2 : ¬ p < n := by omega
        have h3 : ¬ p < n + 1 := by omega
        have h4 : p - n ≠ 0 := by omega
        simp only [if_neg h2, h3, decide_eq_false_iff_not, not_lt, Bool.false_and]
        rcases Nat.exists_eq_succ_of_ne_zero h4 with ⟨q, hq⟩
        rw [hq]
        simp [Nat.testBit_succ, h3]
    · simp only [hP, if_false, Nat.add_zero]
      rcases lt_trichotomy p n with h | h | h
      · simp [ih, h, Nat.lt_succ_of_lt h]
      · subst h
        simp [ih, hP]
      · have h2 : ¬ p < n := by omega
        have h3 : ¬ p < n + 1 := by omega
        simp [ih, h2, h3]

theorem testBit_add_two_pow {p i : Nat} (h : p.testBit i = false) (k : Nat) :
    (p + 2 ^ i).testBit k = (decide (k = i) || p.testBit k) := by
  have hb : p % 2 ^ (i + 1) < 2 ^ i := by
    have h1 : p % (2 ^ i * 2) = p % 2 ^ i + 2 ^ i * (p / 2 ^ i % 2) := Nat.mod_mul
    rw [Nat.testBit_to_div_mod] at h
    have h2 : p / 2 ^ i % 2 = 0 := by
      rcases Nat.mod_two_eq_zero_or_one (p / 2 ^ i) with h' | h'
      · exact h'
      · simp [h'] at h
    rw [h2, Nat.mul_zero, Nat.add_zero] at h1
    have h3 : p % 2 ^ i < 2 ^ i := Nat.mod_lt _ (Nat.two_pow_pos i)
    rw [show (2:Nat) ^ (i+1) = 2 ^ i * 2 by rw [pow_succ], h1]
    exact h3
  have hdecomp : p = p / 2 ^ (i + 1) * 2 ^ (i + 1) + p % 2 ^ (i + 1) := by
    rw [Nat.mul_comm]
    exact (Nat.div_add_mod p (2 ^ (i + 1))).symm
  set a := p / 2 ^ (i + 1)
  set b := p % 2 ^ (i + 1)
  have hb1 : b < 2 ^ (i + 1) := Nat.mod_lt _ (Nat.two_pow_pos (i + 1))
  have hstep : p + 2 ^ i = a * 2 ^ (i + 1) + (b + 2 ^ i) := by omega
  have hb2 : b + 2 ^ i < 2 ^ (i + 1) := by
    have hp : (2:Nat) ^ (i + 1) = 2 ^ i * 2 := by rw [pow_succ]
    omega
  rw [hstep, testBit_mul_pow_add a hb2 k]
  conv_rhs => rw [hdecomp]
  rw [testBit_mul_pow_add a hb1 k]
  rcases lt_trichotomy k i with hk | hk | hk
  · have h1 : k < i + 1 := by omega
    have h2 : decide (k = i) = false := by simp; omega
    rw [if_pos h1, if_pos h1, h2, Bool.false_or]
    have h3 : b + 2 ^ i = 1 * 2 ^ i + b := by ring
    rw [h3, testBit_mul_pow_add 1 hb k, if_pos hk]
  · subst hk
    have h1 : k < k + 1 := Nat.lt_succ_self k
    rw [if_pos h1, decide_eq_true rfl, Bool.true_or]
    have h3 : b + 2 ^ k = 1 * 2 ^ k + b := by ring
    rw [h3, testBit_mul_pow_add 1 hb k]
    simp
  · have h1 : ¬ k < i + 1 := by omega
    have h2 : decide (k = i) = false := by simp; omega
    rw [if_neg h1, if_neg h1, h2, Bool.false_or]

theorem testBit_sub_two_pow {p i : Nat} (h : p.testBit i = true) (k : Nat) :
    (p - 2 ^ i).testBit k = (! decide (k = i) && p.testBit k) := by
  have hb : 2 ^ i ≤ p % 2 ^ (i + 1) := by
    have h1 : p % (2 ^ i * 2) = p % 2 ^ i + 2 ^ i * (p / 2 ^ i % 2) := Nat.mod_mul
    rw [Nat.testBit_to_div_mod] at h
    have h2 : p / 2 ^ i % 2 = 1 := of_decide_eq_true h
    rw [h2, Nat.mul_one] at h1
    rw [show (2:Nat) ^ (i+1) = 2 ^ i * 2 by rw [pow_succ], h1]
    omega
  have hdecomp : p = p / 2 ^ (i + 1) * 2 ^ (i + 1) + p % 2 ^ (i + 1) := by
    rw [Nat.mul_comm]
    exact (Nat.div_add_mod p (2 ^ (i + 1))).symm
  set a := p / 2 ^ (i + 1)
  set b := p % 2 ^ (i + 1)
  have hb1 : b < 2 ^ (i + 1) := Nat.mod_lt _ (Nat.two_pow_pos (i + 1))
  have hstep : p - 2 ^ i = a * 2 ^ (i + 1) + (b - 2 ^ i) := by omega
  have hb2 : b - 2 ^ i < 2 ^ i := by
    have hp : (2:Nat) ^ (i + 1) = 2 ^ i * 2 := by rw [pow_succ]
    omega
  have hb2' : b - 2 ^ i < 2 ^ (i + 1) := lt_of_lt_of_le hb2 (Nat.pow_le_pow_right (by norm_num) (by omega))
  rw [hstep, testBit_mul_pow_add a hb2' k]
  conv_rhs => rw [hdecomp]
  rw [testBit_mul_pow_add a hb1 k]
  rcases lt_trichotomy k i with hk | hk | hk
  · have h1 : k < i + 1 := by omega
    have h2 : (! decide (k = i)) = true := by simp; omega
    rw [if_pos h1, if_pos h1, h2, Bool.true_and]
    have h3 : b = 1 * 2 ^ i + (b - 2 ^ i) := by omega
    conv_rhs => rw [h3]
    rw [testBit_mul_pow_add 1 hb2 k, if_pos hk]
  · subst hk
    have h1 : k < k + 1 := Nat.lt_succ_self k
    rw [if_pos h1, decide_eq_true rfl]
    simp [Nat.testBit_lt_two_pow hb2]
  · have h1 : ¬ k < i + 1 := by omega
    have h2 : (! decide (k = i)) = true := by simp; omega
    rw [if_neg h1, if_neg h1, h2, Bool.true_and]

theorem add_two_pow_lt {p i m : Nat} (hp : p < 2 ^ m) (hi : i < m)
    (h : p.testBit i = false) : p + 2 ^ i < 2 ^ m := by
  have hb : p % 2 ^ (i + 1) < 2 ^ i := by
    have h1 : p % (2 ^ i * 2) = p % 2 ^ i + 2 ^ i * (p / 2 ^ i % 2) := Nat.mod_mul
    rw [Nat.testBit_to_div_mod] at h
    have h2 : p / 2 ^ i % 2 = 0 := by
      rcases Nat.mod_two_eq_zero_or_one (p / 2 ^ i) with h' | h'
      · exact h'
      · simp [h'] at h
    rw [h2, Nat.mul_zero, Nat.add_zero] at h1
    have h3 : p % 2 ^ i < 2 ^ i := Nat.mod_lt _ (Nat.two_pow_pos i)
    rw [show (2:Nat) ^ (i+1) = 2 ^ i * 2 by rw [pow_succ], h1]
    exact h3
  have hdecomp : p = p / 2 ^ (i + 1) * 2 ^ (i + 1) + p % 2 ^ (i + 1) := by
    rw [Nat.mul_comm]
    exact (Nat.div_add_mod p (2 ^ (i + 1))).symm
  set a := p / 2 ^ (i + 1)
  set b := p % 2 ^ (i + 1)
  have ha : a < 2 ^ (m - i - 1) := by
    by_contra hc
    push_neg at hc
    have h1 : 2 ^ (m - i - 1) * 2 ^ (i + 1) ≤ a * 2 ^ (i + 1) :=
      Nat.mul_le_mul_right _ hc
    rw [← pow_add] at h1
    have h2 : m - i - 1 + (i + 1) = m := by omega
    rw [h2] at h1
    omega
  have h1 : a + 1 ≤ 2 ^ (m - i - 1) := ha
  have h2 : (a + 1) * 2 ^ (i + 1) ≤ 2 ^ (m - i - 1) * 2 ^ (i + 1) :=
    Nat.mul_le_mul_right _ h1
  rw [← pow_add, show m - i - 1 + (i + 1) = m by omega] at h2
  have h3 : (a + 1) * 2 ^ (i + 1) = a * 2 ^ (i + 1) + 2 ^ (i + 1) := by ring
  have hp2 : (2:Nat) ^ (i + 1) = 2 ^ i * 2 := by rw [pow_succ]
  omega

/-! ### Masks, bounds and index transforms -/

theorem lor_lt_two_pow {x y n : Nat} (hx : x < 2 ^ n) (hy : y < 2 ^ n) :
    x ||| y < 2 ^ n := by
  apply lt_two_pow_of_high_bits
  intro j hj
  rw [Nat.testBit_lor, testBit_high_of_lt hx hj, testBit_high_of_lt hy hj]
  rfl

theorem xor_lt_two_pow {x y n : Nat} (hx : x < 2 ^ n) (hy : y < 2 ^ n) :
    x ^^^ y < 2 ^ n := by
  apply lt_two_pow_of_high_bits
  intro j hj
  rw [Nat.testBit_xor, testBit_high_of_lt hx hj, testBit_high_of_lt hy hj]
  rfl

theorem mod_W_lt (x : Nat) : x % W < W := Nat.mod_lt _ (Nat.two_pow_pos 64)

theorem land_lt_W_right (x : Nat) {m : Nat} (hm : m < W) : x &&& m < W :=
  lt_of_le_of_lt Nat.and_le_right hm

theorem land_lt_W_left {x : Nat} (m : Nat) (hx : x < W) : x &&& m < W :=
  lt_of_le_of_lt Nat.and_le_left hx

theorem shiftRight_lt_W {x : Nat} (hx : x < W) (s : Nat) : x >>> s < W := by
  rw [Nat.shiftRight_eq_div_pow]
  exact lt_of_le_of_lt (Nat.div_le_self _ _) hx

theorem testBit_projections (i p : Nat) :
    (projections i).testBit p = (decide (p < 64) && p.testBit i) := by
  unfold projections
  rw [testBit_maskOf]

theorem testBit_projections_neg (i p : Nat) :
    (projections_neg i).testBit p = (decide (p < 64) && ! p.testBit i) := by
  unfold projections_neg
  rw [testBit_maskOf]

theorem projections_lt (i : Nat) : projections i < W := maskOf_lt _ 64

theorem projections_neg_lt (i : Nat) : projections_neg i < W := maskOf_lt _ 64

theorem testBit_pperm0 (i j p : Nat) :
    (ppermutation_masks i j).1.testBit p =
      (decide (p < 64) && (p.testBit i == p.testBit j)) := by
  show (maskOf _ 64).testBit p = _
  rw [testBit_maskOf]

theorem testBit_pperm1 (i j p : Nat) :
    (ppermutation_masks i j).2.1.testBit p =
      (decide (p < 64) && (p.testBit i && ! p.testBit j)) := by
  show (maskOf _ 64).testBit p = _
  rw [testBit_maskOf]

theorem testBit_pperm2 (i j p : Nat) :
    (ppermutation_masks i j).2.2.testBit p =
      (decide (p < 64) && (! p.testBit i && p.testBit j)) := by
  show (maskOf _ 64).testBit p = _
  rw [testBit_maskOf]

theorem pperm0_lt (i j : Nat) : (ppermutation_masks i j).1 < W := maskOf_lt _ 64

theorem pperm1_lt (i j : Nat) : (ppermutation_masks i j).2.1 < W := maskOf_lt _ 64

theorem pperm2_lt (i j : Nat) : (ppermutation_masks i j).2.2 < W := maskOf_lt _ 64

theorem compl64_projections (i : Nat) :
    compl64 (projections i) = projections_neg i := by
  apply Nat.eq_of_testBit_eq
  intro k
  unfold compl64
  rw [Nat.testBit_xor, testBit_projections, testBit_projections_neg,
    show W - 1 = 2 ^ 64 - 1 from rfl, Nat.testBit_two_pow_sub_one]
  by_cases hk : k < 64 <;> simp [hk]

theorem one_shiftLeft_eq (i : Nat) : 1 <<< i = 2 ^ i := by
  rw [Nat.shiftLeft_eq, Nat.one_mul]

theorem xor_two_pow_of_testBit_true {p i : Nat} (h : p.testBit i = true) :
    p ^^^ 2 ^ i = p - 2 ^ i := by
  apply Nat.eq_of_testBit_eq
  intro k
  rw [Nat.testBit_xor, testBit_sub_two_pow h k, Nat.testBit_two_pow]
  by_cases hk : k = i
  · subst hk
    simp [h]
  · have h1 : decide (i = k) = false := by simp; omega
    have h2 : decide (k = i) = false := by simp; omega
    rw [h1, h2]
    simp

theorem xor_two_pow_of_testBit_false {p i : Nat} (h : p.testBit i = false) :
    p ^^^ 2 ^ i = p + 2 ^ i := by
  apply Nat.eq_of_testBit_eq
  intro k
  rw [Nat.testBit_xor, testBit_add_two_pow h k, Nat.testBit_two_pow]
  by_cases hk : k = i
  · subst hk
    simp [h]
  · have h1 : decide (i = k) = false := by simp; omega
    have h2 : decide (k = i) = false := by simp; omega
    rw [h1, h2]
    simp

theorem testBit_xor_two_pow (x i k : Nat) :
    (x ^^^ 2 ^ i).testBit k = if k = i then ! x.testBit i else x.testBit k := by
  rw [Nat.testBit_xor, Nat.testBit_two_pow]
  by_cases hk : k = i
  · rw [if_pos hk, hk]
    simp
  · have h1 : decide (i = k) = false := by
      simp only [decide_eq_false_iff_not]
      exact fun hh => hk hh.symm
    rw [h1, if_neg hk]
    simp

theorem xor_two_pow_lt {x i m : Nat} (hx : x < 2 ^ m) (hi : i < m) :
    x ^^^ 2 ^ i < 2 ^ m := by
  apply lt_two_pow_of_high_bits
  intro j hj
  rw [testBit_xor_two_pow]
  have h1 : j ≠ i := by omega
  rw [if_neg h1]
  exact testBit_high_of_lt hx hj

theorem testBit_clearBit (x i k : Nat) :
    (clearBit x i).testBit k = (! decide (k = i) && x.testBit k) := by
  unfold clearBit
  by_cases hb : x.testBit i
  · rw [if_pos hb, testBit_xor_two_pow]
    by_cases hk : k = i
    · rw [if_pos hk, hk]
      simp [hb]
    · rw [if_neg hk]
      simp [hk]
  · rw [if_neg hb]
    by_cases hk : k = i
    · rw [hk]
      simp_all
    · simp [hk]

theorem testBit_setBit (x i k : Nat) :
    (setBit x i).testBit k = (decide (k = i) || x.testBit k) := by
  unfold setBit
  by_cases hb : x.testBit i
  · rw [if_pos hb]
    by_cases hk : k = i
    · subst hk
      simp [hb]
    · simp [hk]
  · rw [if_neg hb, testBit_xor_two_pow]
    by_cases hk : k = i
    · subst hk
      simp [hb]
    · simp [hk]

theorem testBit_swapBits (x i j k : Nat) :
    (swapBits x i j).testBit k =
      if k = i then x.testBit j else if k = j then x.testBit i else x.testBit k := by
  unfold swapBits
  by_cases heq : x.testBit i = x.testBit j
  · rw [if_pos heq]
    split_ifs with h1 h2
    · rw [h1, heq]
    · rw [h2, heq]
    · rfl
  · have hij : i ≠ j := fun h => heq (h ▸ rfl)
    rw [if_neg heq, Nat.testBit_xor, Nat.testBit_lor, Nat.testBit_two_pow, Nat.testBit_two_pow]
    by_cases h1 : k = i
    · have e2 : decide (i = k) = true := by rw [h1]; simp
      have e3 : decide (j = k) = false := by
        simp only [decide_eq_false_iff_not]
        rw [h1]
        exact fun hh => hij hh.symm
      rw [e2, e3, if_pos h1, h1]
      cases hxi : x.testBit i <;> cases hxj : x.testBit j <;> simp_all
    · by_cases h2 : k = j
      · have e2 : decide (i = k) = false := by
          simp only [decide_eq_false_iff_not]
          rw [h2]
          exact hij
        have e3 : decide (j = k) = true := by rw [h2]; simp
        rw [e2, e3, if_neg h1, if_pos h2, h2]
        cases hxi : x.testBit i <;> cases hxj : x.testBit j <;> simp_all
      · have e2 : decide (i = k) = false := by
          simp only [decide_eq_false_iff_not]
          exact fun hh => h1 hh.symm
        have e3 : decide (j = k) = false := by
          simp only [decide_eq_false_iff_not]
          exact fun hh => h2 hh.symm
        rw [e2, e3, if_neg h1, if_neg h2]
        simp

theorem swapBits_comm (x i j : Nat) : swapBits x i j = swapBits x j i := by
  unfold swapBits
  by_cases heq : x.testBit i = x.testBit j
  · rw [if_pos heq, if_pos heq.symm]
  · rw [if_neg heq, if_neg (fun h => heq h.symm), Nat.lor_comm]

theorem swapBits_invol (x i j : Nat) : swapBits (swapBits x i j) i j = x := by
  apply Nat.eq_of_testBit_eq
  intro k
  simp only [testBit_swapBits]
  split_ifs <;> simp_all

theorem swapBits_high {x i j k : Nat} (hki : k ≠ i) (hkj : k ≠ j) :
    (swapBits x i j).testBit k = x.testBit k := by
  rw [testBit_swapBits, if_neg hki, if_neg hkj]

theorem swapBits_lt {x m i j : Nat} (hx : x < 2 ^ m) (hi : i < m) (hj : j < m) :
    swapBits x i j < 2 ^ m := by
  apply lt_two_pow_of_high_bits
  intro k hk
  rw [swapBits_high (by omega) (by omega)]
  exact testBit_high_of_lt hx hk

theorem clearBit_lt {x m : Nat} (i : Nat) (hx : x < 2 ^ m) : clearBit x i < 2 ^ m := by
  apply lt_two_pow_of_high_bits
  intro k hk
  rw [testBit_clearBit]
  rw [testBit_high_of_lt hx hk]
  simp

theorem setBit_lt {x m i : Nat} (hx : x < 2 ^ m) (hi : i < m) : setBit x i < 2 ^ m := by
  apply lt_two_pow_of_high_bits
  intro k hk
  rw [testBit_setBit]
  have h1 : decide (k = i) = false := by simp; omega
  rw [h1, testBit_high_of_lt hx hk]
  rfl

theorem xor_low_div (x : Nat) {c : Nat} (hc : c < 64) : (x ^^^ c) / 64 = x / 64 := by
  have h1 : ∀ y : Nat, y / 64 = y >>> 6 := by
    intro y
    rw [Nat.shiftRight_eq_div_pow]
  rw [h1, h1]
  apply Nat.eq_of_testBit_eq
  intro k
  rw [Nat.testBit_shiftRight, Nat.testBit_shiftRight, Nat.testBit_xor]
  have h2 : c.testBit (6 + k) = false := by
    apply testBit_high_of_lt (m := 6)
    · exact lt_of_lt_of_le hc (by norm_num)
    · omega
  rw [h2]
  simp

theorem xor_low_mod (x : Nat) {c : Nat} (hc : c < 64) :
    (x ^^^ c) % 64 = (x % 64) ^^^ c := by
  have h64 : (64 : Nat) = 2 ^ 6 := by norm_num
  apply Nat.eq_of_testBit_eq
  intro k
  rw [h64, Nat.testBit_mod_two_pow, Nat.testBit_xor, Nat.testBit_xor,
    Nat.testBit_mod_two_pow]
  by_cases hk : k < 6
  · simp [hk]
  · have h2 : c.testBit k = false := by
      apply testBit_high_of_lt (m := 6)
      · rw [← h64]; exact hc
      · omega
    simp [hk, h2]

theorem testBit_mod64 (x : Nat) {k : Nat} (hk : k < 6) :
    (x % 64).testBit k = x.testBit k := by
  rw [show (64 : Nat) = 2 ^ 6 by norm_num, Nat.testBit_mod_two_pow]
  simp [hk]

theorem testBit_div64 (x k : Nat) : (x / 64).testBit k = x.testBit (6 + k) := by
  rw [show x / 64 = x >>> 6 by rw [Nat.shiftRight_eq_div_pow],
    Nat.testBit_shiftRight]

/-! ### Word-level characterizations -/

theorem testBit_add_two_pow_self {p i : Nat} (h : p.testBit i = true) :
    (p + 2 ^ i).testBit i = false := by
  rw [Nat.testBit_to_div_mod] at h ⊢
  rw [Nat.add_div_right p (Nat.two_pow_pos i)]
  have h2 : p / 2 ^ i % 2 = 1 := of_decide_eq_true h
  simp
  omega

theorem testBit_sub_two_pow_self {p i : Nat} (h : p.testBit i = false)
    (hge : 2 ^ i ≤ p) : (p - 2 ^ i).testBit i = true := by
  have hr : p % 2 ^ i < 2 ^ i := Nat.mod_lt _ (Nat.two_pow_pos i)
  rw [Nat.testBit_to_div_mod] at h
  have h2 : p / 2 ^ i % 2 = 0 := by
    rcases Nat.mod_two_eq_zero_or_one (p / 2 ^ i) with h' | h'
    · exact h'
    · simp [h'] at h
  have hd : p = 2 ^ i * (p / 2 ^ i) + p % 2 ^ i := (Nat.div_add_mod p (2 ^ i)).symm
  have hd1 : 1 ≤ p / 2 ^ i := by
    rcases Nat.eq_zero_or_pos (p / 2 ^ i) with h' | h'
    · rw [h'] at hd
      omega
    · exact h'
  obtain ⟨d, hd2⟩ : ∃ d, p / 2 ^ i = d + 1 := ⟨p / 2 ^ i - 1, by omega⟩
  have hexp : 2 ^ i * (d + 1) = 2 ^ i * d + 2 ^ i := by ring
  have hsub : p - 2 ^ i = d * 2 ^ i + p % 2 ^ i := by
    rw [hd2, hexp] at hd
    have hm : 2 ^ i * d = d * 2 ^ i := Nat.mul_comm _ _
    omega
  rw [hsub, testBit_mul_pow_add d hr i, if_neg (Nat.lt_irrefl i), Nat.sub_self,
    Nat.testBit_to_div_mod]
  have hodd : d % 2 = 1 := by omega
  simp [hodd]

theorem flip_word_testBit {i : Nat} (hi : i < 6) (w p : Nat) :
    (flip_word i w).testBit p = (decide (p < 64) && w.testBit (p ^^^ 2 ^ i)) := by
  unfold flip_word
  rw [one_shiftLeft_eq]
  rw [Nat.testBit_lor, Nat.testBit_land, Nat.testBit_shiftRight, Nat.testBit_land,
    show W = 2 ^ 64 from rfl, Nat.testBit_mod_two_pow, Nat.testBit_shiftLeft,
    testBit_projections, testBit_projections]
  by_cases hp : p < 64
  · by_cases hb : p.testBit i
    · have hge : 2 ^ i ≤ p := ge_of_testBit_true hb
      have ha1 : (2 ^ i + p).testBit i = false := by
        rw [Nat.add_comm]
        exact testBit_add_two_pow_self hb
      rw [xor_two_pow_of_testBit_true hb]
      simp [hp, hb, hge, ha1]
    · have hb' : p.testBit i = false := by simpa using hb
      have hlt : p + 2 ^ i < 64 := by
        have h64 : (64 : Nat) = 2 ^ 6 := by norm_num
        rw [h64] at hp ⊢
        exact add_two_pow_lt hp hi hb'
      have hlt1 : 2 ^ i + p < 64 := by omega
      have ha2 : (p + 2 ^ i).testBit i = true := by
        rw [testBit_add_two_pow hb' i]
        simp
      have ha1 : (2 ^ i + p).testBit i = true := by
        rw [Nat.add_comm]
        exact ha2
      have hw : w.testBit (2 ^ i + p) = w.testBit (p + 2 ^ i) := by
        rw [Nat.add_comm]
      rw [xor_two_pow_of_testBit_false hb']
      simp [hp, hb', ha1, ha2, hlt, hlt1, hw]
  · have hge : 64 ≤ p := Nat.not_lt.mp hp
    have h1 : ¬ (2 ^ i + p < 64) := Nat.not_lt.mpr (le_trans hge (Nat.le_add_left _ _))
    simp [hp, h1]

theorem cofactor0_word_testBit {i : Nat} (hi : i < 6) (w p : Nat) :
    (cofactor0_word i w).testBit p = (decide (p < 64) && w.testBit (clearBit p i)) := by
  unfold cofactor0_word
  rw [one_shiftLeft_eq]
  rw [Nat.testBit_lor, Nat.testBit_land,
    show W = 2 ^ 64 from rfl, Nat.testBit_mod_two_pow, Nat.testBit_shiftLeft,
    Nat.testBit_land, testBit_projections_neg, testBit_projections_neg]
  unfold clearBit
  by_cases hp : p < 64
  · by_cases hb : p.testBit i
    · have hge : 2 ^ i ≤ p := ge_of_testBit_true hb
      have hs : (p - 2 ^ i).testBit i = false := by
        rw [testBit_sub_two_pow hb i]
        simp
      have hs64 : p - 2 ^ i < 64 := lt_of_le_of_lt (Nat.sub_le p _) hp
      rw [if_pos hb, xor_two_pow_of_testBit_true hb]
      simp [hp, hb, hge, hs, hs64]
    · have hb' : p.testBit i = false := by simpa using hb
      rw [if_neg hb]
      by_cases hge : 2 ^ i ≤ p
      · have hs : (p - 2 ^ i).testBit i = true := testBit_sub_two_pow_self hb' hge
        simp [hp, hb', hs]
      · simp [hp, hb', hge]
  · simp [hp]

theorem cofactor1_word_testBit {i : Nat} (hi : i < 6) (w p : Nat) :
    (cofactor1_word i w).testBit p = (decide (p < 64) && w.testBit (setBit p i)) := by
  unfold cofactor1_word
  rw [one_shiftLeft_eq]
  rw [Nat.testBit_lor, Nat.testBit_land, Nat.testBit_shiftRight, Nat.testBit_land,
    testBit_projections, testBit_projections]
  unfold setBit
  by_cases hp : p < 64
  · by_cases hb : p.testBit i
    · have ha1 : (2 ^ i + p).testBit i = false := by
        rw [Nat.add_comm]
        exact testBit_add_two_pow_self hb
      rw [if_pos hb]
      simp [hp, hb, ha1]
    · have hb' : p.testBit i = false := by simpa using hb
      have hlt : p + 2 ^ i < 64 := by
        have h64 : (64 : Nat) = 2 ^ 6 := by norm_num
        rw [h64] at hp ⊢
        exact add_two_pow_lt hp hi hb'
      have hlt1 : 2 ^ i + p < 64 := by omega
      have ha2 : (p + 2 ^ i).testBit i = true := by
        rw [testBit_add_two_pow hb' i]
        simp
      have ha1 : (2 ^ i + p).testBit i = true := by
        rw [Nat.add_comm]
        exact ha2
      have hw : w.testBit (2 ^ i + p) = w.testBit (p + 2 ^ i) := by
        rw [Nat.add_comm]
      rw [if_neg hb, xor_two_pow_of_testBit_false hb']
      simp [hp, hb', ha1, ha2, hlt, hlt1, hw]
  · have hge : 64 ≤ p := Nat.not_lt.mp hp
    have h1 : ¬ (2 ^ i + p < 64) := Nat.not_lt.mpr (le_trans hge (Nat.le_add_left _ _))
    simp [hp, h1]
theorem testBit_mod_W (x p : Nat) :
    (x % W).testBit p = (decide (p < 64) && x.testBit p) := by
  rw [show W = 2 ^ 64 from rfl, Nat.testBit_mod_two_pow]

theorem swapBits_eq_add {q i j : Nat} (hij : i < j) (hqi : q.testBit i = true)
    (hqj : q.testBit j = false) : swapBits q i j = q + (2 ^ j - 2 ^ i) := by
  have hge : 2 ^ i ≤ q := ge_of_testBit_true hqi
  have hpow : 2 ^ i ≤ 2 ^ j := Nat.pow_le_pow_right (by norm_num) (le_of_lt hij)
  have he : q + (2 ^ j - 2 ^ i) = (q - 2 ^ i) + 2 ^ j := by omega
  have hsubj : (q - 2 ^ i).testBit j = false := by
    rw [testBit_sub_two_pow hqi j]
    have h1 : decide (j = i) = false := by
      simp only [decide_eq_false_iff_not]
      omega
    rw [h1, hqj]
    simp
  rw [he, ← xor_two_pow_of_testBit_false hsubj]
  apply Nat.eq_of_testBit_eq
  intro k
  rw [testBit_swapBits, testBit_xor_two_pow]
  by_cases h1 : k = i
  · have h2 : ¬ k = j := by omega
    rw [if_pos h1, if_neg h2, testBit_sub_two_pow hqi k, h1, hqj]
    simp
  · by_cases h2 : k = j
    · rw [if_neg h1, if_pos h2, if_pos h2, hsubj, hqi]
      rfl
    · rw [if_neg h1, if_neg h2, if_neg h2, testBit_sub_two_pow hqi k]
      have h3 : decide (k = i) = false := by
        simp only [decide_eq_false_iff_not]
        exact h1
      rw [h3]
      simp

theorem swapBits_eq_sub {q i j : Nat} (hij : i < j) (hqi : q.testBit i = false)
    (hqj : q.testBit j = true) : swapBits q i j = q - (2 ^ j - 2 ^ i) := by
  have hge : 2 ^ j ≤ q := ge_of_testBit_true hqj
  have hpow : 2 ^ i ≤ 2 ^ j := Nat.pow_le_pow_right (by norm_num) (le_of_lt hij)
  have he : q - (2 ^ j - 2 ^ i) = (q - 2 ^ j) + 2 ^ i := tsub_tsub_assoc hge hpow
  have hsubi : (q - 2 ^ j).testBit i = false := by
    rw [testBit_sub_two_pow hqj i]
    have h1 : decide (i = j) = false := by
      simp only [decide_eq_false_iff_not]
      omega
    rw [h1, hqi]
    simp
  rw [he, ← xor_two_pow_of_testBit_false hsubi]
  apply Nat.eq_of_testBit_eq
  intro k
  rw [testBit_swapBits, testBit_xor_two_pow]
  by_cases h1 : k = i
  · rw [if_pos h1, if_pos h1, hsubi, hqj]
    rfl
  · by_cases h2 : k = j
    · rw [if_neg h1, if_pos h2, if_neg h1, testBit_sub_two_pow hqj k, h2, hqi]
      simp
    · rw [if_neg h1, if_neg h2, if_neg h1, testBit_sub_two_pow hqj k]
      have h3 : decide (k = j) = false := by
        simp only [decide_eq_false_iff_not]
        exact h2
      rw [h3]
      simp

theorem r3kill_low {i j p : Nat} (hij : i < j) (hsle : 2 ^ j - 2 ^ i ≤ p)
    (hno : ¬ (p.testBit i = false ∧ p.testBit j = true)) :
    ((p - (2 ^ j - 2 ^ i)).testBit i && ! (p - (2 ^ j - 2 ^ i)).testBit j) = false := by
  cases hqi : (p - (2 ^ j - 2 ^ i)).testBit i
  · simp
  · cases hqj : (p - (2 ^ j - 2 ^ i)).testBit j
    · exfalso
      have hback : swapBits (p - (2 ^ j - 2 ^ i)) i j = p := by
        rw [swapBits_eq_add hij hqi hqj]
        omega
      apply hno
      constructor
      · have h1 := testBit_swapBits (p - (2 ^ j - 2 ^ i)) i j i
        rw [hback, if_pos rfl] at h1
        rw [h1, hqj]
      · have h1 := testBit_swapBits (p - (2 ^ j - 2 ^ i)) i j j
        have hne : ¬ (j = i) := by omega
        rw [hback, if_neg hne, if_pos rfl] at h1
        rw [h1, hqi]
    · simp

theorem r3kill_high {i j p : Nat} (hij : i < j)
    (hno : ¬ (p.testBit i = true ∧ p.testBit j = false)) :
    ((! (p + (2 ^ j - 2 ^ i)).testBit i) && (p + (2 ^ j - 2 ^ i)).testBit j) = false := by
  cases hqi : (p + (2 ^ j - 2 ^ i)).testBit i
  · cases hqj : (p + (2 ^ j - 2 ^ i)).testBit j
    · simp
    · exfalso
      have hback : swapBits (p + (2 ^ j - 2 ^ i)) i j = p := by
        rw [swapBits_eq_sub hij hqi hqj]
        omega
      apply hno
      constructor
      · have h1 := testBit_swapBits (p + (2 ^ j - 2 ^ i)) i j i
        rw [hback, if_pos rfl] at h1
        rw [h1, hqj]
      · have h1 := testBit_swapBits (p + (2 ^ j - 2 ^ i)) i j j
        have hne : ¬ (j = i) := by omega
        rw [hback, if_neg hne, if_pos rfl] at h1
        rw [h1, hqi]
  · simp

theorem swap_word_testBit {i j : Nat} (hij : i < j) (hj : j < 6) (w p : Nat) :
    (swap_word i j w).testBit p = (decide (p < 64) && w.testBit (swapBits p i j)) := by
  have hpow : 2 ^ i ≤ 2 ^ j := Nat.pow_le_pow_right (by norm_num) (le_of_lt hij)
  have huf : swap_word i j w =
      (w &&& (ppermutation_masks i j).1) |||
      (((w &&& (ppermutation_masks i j).2.1) <<< (2 ^ j - 2 ^ i)) % W) |||
      ((w &&& (ppermutation_masks i j).2.2) >>> (2 ^ j - 2 ^ i)) := rfl
  rw [huf]
  simp only [Nat.testBit_lor, testBit_mod_W, Nat.testBit_shiftLeft,
    Nat.testBit_shiftRight, Nat.testBit_land, testBit_pperm0, testBit_pperm1,
    testBit_pperm2]
  have hcomm : 2 ^ j - 2 ^ i + p = p + (2 ^ j - 2 ^ i) := Nat.add_comm _ _
  by_cases hp : p < 64
  · by_cases hpi : p.testBit i <;> by_cases hpj : p.testBit j
    · -- bits (1,1): index untouched
      have hsb : swapBits p i j = p := by
        unfold swapBits
        rw [hpi, hpj, if_pos rfl]
      have khigh := r3kill_high hij (p := p) (by simp [hpj])
      rcases Nat.lt_or_ge p (2 ^ j - 2 ^ i) with hslt | hsle
      · have hk : ¬ (p ≥ 2 ^ j - 2 ^ i) := Nat.not_le.mpr hslt
        simp [hp, hpi, hpj, hsb, hk, khigh, hcomm]
      · have klow := r3kill_low hij hsle (p := p) (by simp [hpi])
        simp [hp, hpi, hpj, hsb, hsle, klow, khigh, hcomm, ge_iff_le]
    · -- bits (1,0): index moves up
      have hpj' : p.testBit j = false := by simpa using hpj
      have hadd : swapBits p i j = p + (2 ^ j - 2 ^ i) := swapBits_eq_add hij hpi hpj'
      have hbi : (p + (2 ^ j - 2 ^ i)).testBit i = false := by
        have h1 := testBit_swapBits p i j i
        rw [hadd, if_pos rfl] at h1
        rw [h1, hpj']
      have hbj : (p + (2 ^ j - 2 ^ i)).testBit j = true := by
        have h1 := testBit_swapBits p i j j
        have hne : ¬ (j = i) := by omega
        rw [hadd, if_neg hne, if_pos rfl] at h1
        rw [h1, hpi]
      have hlt : p + (2 ^ j - 2 ^ i) < 64 := by
        have h64 : (64 : Nat) = 2 ^ 6 := by norm_num
        have h2 : p + 2 ^ j < 64 := by
          rw [h64] at hp ⊢
          exact add_two_pow_lt hp hj hpj'
        exact lt_of_le_of_lt (Nat.add_le_add_left (Nat.sub_le _ _) p) h2
      have klow : p ≥ 2 ^ j - 2 ^ i →
          ((p - (2 ^ j - 2 ^ i)).testBit i && ! (p - (2 ^ j - 2 ^ i)).testBit j) = false :=
        fun hsle => r3kill_low hij hsle (p := p) (by simp [hpi])
      rcases Nat.lt_or_ge p (2 ^ j - 2 ^ i) with hslt | hsle
      · have hk : ¬ (p ≥ 2 ^ j - 2 ^ i) := Nat.not_le.mpr hslt
        simp [hp, hpi, hpj', hadd, hbi, hbj, hlt, hk, hcomm]
      · simp [hp, hpi, hpj', hadd, hbi, hbj, hlt, klow hsle, hsle, hcomm, ge_iff_le]
    · -- bits (0,1): index moves down
      have hpi' : p.testBit i = false := by simpa using hpi
      have hsub : swapBits p i j = p - (2 ^ j - 2 ^ i) := swapBits_eq_sub hij hpi' hpj
      have hsle : 2 ^ j - 2 ^ i ≤ p :=
        le_trans (Nat.sub_le _ _) (ge_of_testBit_true hpj)
      have hbi : (p - (2 ^ j - 2 ^ i)).testBit i = true := by
        have h1 := testBit_swapBits p i j i
        rw [hsub, if_pos rfl] at h1
        rw [h1, hpj]
      have hbj : (p - (2 ^ j - 2 ^ i)).testBit j = false := by
        have h1 := testBit_swapBits p i j j
        have hne : ¬ (j = i) := by omega
        rw [hsub, if_neg hne, if_pos rfl] at h1
        rw [h1, hpi']
      have hlt : p - (2 ^ j - 2 ^ i) < 64 := lt_of_le_of_lt (Nat.sub_le p _) hp
      have khigh := r3kill_high hij (p := p) (by simp [hpi'])
      simp [hp, hpi', hpj, hsub, hsle, hbi, hbj, hlt, khigh, hcomm, ge_iff_le]
    · -- bits (0,0): index untouched
      have hpi' : p.testBit i = false := by simpa using hpi
      have hpj' : p.testBit j = false := by simpa using hpj
      have hsb : swapBits p i j = p := by
        unfold swapBits
        rw [hpi', hpj', if_pos rfl]
      have khigh := r3kill_high hij (p := p) (by simp [hpi'])
      rcases Nat.lt_or_ge p (2 ^ j - 2 ^ i) with hslt | hsle
      · have hk : ¬ (p ≥ 2 ^ j - 2 ^ i) := Nat.not_le.mpr hslt
        simp [hp, hpi', hpj', hsb, hk, khigh, hcomm]
      · have klow := r3kill_low hij hsle (p := p) (by simp [hpj'])
        simp [hp, hpi', hpj', hsb, hsle, klow, khigh, hcomm, ge_iff_le]
  · have hge : 64 ≤ p := Nat.not_lt.mp hp
    have h1 : ¬ (2 ^ j - 2 ^ i + p < 64) := by omega
    simp [hp, h1]
theorem swap_adjacent_word_eq (i w : Nat) :
    swap_adjacent_word i w = swap_word i (i + 1) w := by
  unfold swap_adjacent_word swap_word permutation_masks
  have h1 : 1 <<< i = 2 ^ (i + 1) - 2 ^ i := by
    rw [one_shiftLeft_eq, pow_succ]
    omega
  rw [h1]

theorem lor_lt_W {x y : Nat} (hx : x < W) (hy : y < W) : x ||| y < W :=
  lor_lt_two_pow hx hy

theorem flip_word_lt (i w : Nat) : flip_word i w < W := by
  unfold flip_word
  exact lor_lt_W (land_lt_W_right _ (projections_lt i))
    (shiftRight_lt_W (land_lt_W_right _ (projections_lt i)) _)

theorem cofactor0_word_lt (i w : Nat) : cofactor0_word i w < W := by
  unfold cofactor0_word
  exact lor_lt_W (mod_W_lt _) (land_lt_W_right _ (projections_neg_lt i))

theorem cofactor1_word_lt (i w : Nat) : cofactor1_word i w < W := by
  unfold cofactor1_word
  exact lor_lt_W (land_lt_W_right _ (projections_lt i))
    (shiftRight_lt_W (land_lt_W_right _ (projections_lt i)) _)

theorem swap_word_lt (i j w : Nat) : swap_word i j w < W := by
  have huf : swap_word i j w =
      (w &&& (ppermutation_masks i j).1) |||
      (((w &&& (ppermutation_masks i j).2.1) <<< (2 ^ j - 2 ^ i)) % W) |||
      ((w &&& (ppermutation_masks i j).2.2) >>> (2 ^ j - 2 ^ i)) := rfl
  rw [huf]
  exact lor_lt_W (lor_lt_W (land_lt_W_right _ (pperm0_lt i j)) (mod_W_lt _))
    (shiftRight_lt_W (land_lt_W_right _ (pperm2_lt i j)) _)

theorem swap_adjacent_word_lt (i w : Nat) : swap_adjacent_word i w < W := by
  rw [swap_adjacent_word_eq]
  exact swap_word_lt _ _ _

theorem lomask_eq : (0xffffffff : Nat) = 2 ^ 32 - 1 := by norm_num

theorem himask_eq : (0xffffffff00000000 : Nat) = (2 ^ 32 - 1) * 2 ^ 32 + 0 := by norm_num

theorem testBit_lomask (p : Nat) : (0xffffffff : Nat).testBit p = decide (p < 32) := by
  rw [lomask_eq, Nat.testBit_two_pow_sub_one]

theorem testBit_himask (p : Nat) :
    (0xffffffff00000000 : Nat).testBit p = (decide (32 ≤ p) && decide (p < 64)) := by
  rw [himask_eq, testBit_mul_pow_add (2 ^ 32 - 1) (Nat.two_pow_pos 32) p]
  by_cases h1 : p < 32
  · have h2 : ¬ 32 ≤ p := by omega
    simp [h1, h2]
  · have h2 : 32 ≤ p := by omega
    rw [if_neg h1, Nat.testBit_two_pow_sub_one]
    by_cases h3 : p < 64
    · have h4 : p - 32 < 32 := by omega
      simp [h2, h3, h4]
    · have h4 : ¬ (p - 32 < 32) := by omega
      simp [h2, h3, h4]

theorem swap_adjacent_half_fst_testBit (a b p : Nat) :
    (swap_adjacent_half a b).1.testBit p =
      (decide (p < 64) &&
        (if 32 ≤ p then b.testBit (p - 32) else a.testBit p)) := by
  show ((a &&& 0xffffffff) ||| ((b <<< 0x20) % W)).testBit p = _
  rw [Nat.testBit_lor, Nat.testBit_land, testBit_mod_W, Nat.testBit_shiftLeft,
    testBit_lomask]
  by_cases hp : p < 64
  · by_cases h1 : 32 ≤ p
    · have h2 : ¬ p < 32 := by omega
      have h3 : p ≥ 0x20 := h1
      simp [hp, h1, h2, h3]
    · have h2 : p < 32 := by omega
      have h3 : ¬ (p ≥ 0x20) := h1
      simp [hp, h1, h2, h3]
  · have h2 : ¬ p < 32 := by omega
    simp [hp, h2]

theorem swap_adjacent_half_snd_testBit {a : Nat} (ha : a < W) (b p : Nat) :
    (swap_adjacent_half a b).2.testBit p =
      (decide (p < 64) &&
        (if 32 ≤ p then b.testBit p else a.testBit (p + 32))) := by
  show ((b &&& 0xffffffff00000000) ||| (a >>> 0x20)).testBit p = _
  rw [Nat.testBit_lor, Nat.testBit_land, Nat.testBit_shiftRight, testBit_himask]
  have hcomm : (0x20 : Nat) + p = p + 32 := by omega
  rw [hcomm]
  by_cases hp : p < 64
  · by_cases h1 : 32 ≤ p
    · have h2 : a.testBit (p + 32) = false := by
        apply testBit_high_of_lt ha
        omega
      simp [hp, h1, h2]
    · simp [hp, h1]
  · have h2 : a.testBit (p + 32) = false := by
      apply testBit_high_of_lt ha
      omega
    simp [hp, h2]

theorem swap_adjacent_half_fst_lt (a b : Nat) : (swap_adjacent_half a b).1 < W := by
  show (a &&& 0xffffffff) ||| ((b <<< 0x20) % W) < W
  exact lor_lt_W (land_lt_W_right _ (by unfold W; norm_num)) (mod_W_lt _)

theorem swap_adjacent_half_snd_lt {a : Nat} (ha : a < W) (b : Nat) :
    (swap_adjacent_half a b).2 < W := by
  show (b &&& 0xffffffff00000000) ||| (a >>> 0x20) < W
  exact lor_lt_W (land_lt_W_right _ (by unfold W; norm_num)) (shiftRight_lt_W ha _)

theorem swap_r3_fst_testBit {i : Nat} (hi : i < 6) (a b p : Nat) :
    (swap_r3_pair i a b).1.testBit p =
      (decide (p < 64) &&
        (if p.testBit i then b.testBit (p - 2 ^ i) else a.testBit p)) := by
  show ((a &&& compl64 (projections i)) ||| (((b <<< (1 <<< i)) % W) &&& projections i)).testBit p = _
  rw [compl64_projections, one_shiftLeft_eq, Nat.testBit_lor, Nat.testBit_land,
    Nat.testBit_land, testBit_mod_W, Nat.testBit_shiftLeft,
    testBit_projections, testBit_projections_neg]
  by_cases hp : p < 64
  · by_cases hb : p.testBit i
    · have hge : p ≥ 2 ^ i := ge_of_testBit_true hb
      simp [hp, hb, hge]
    · have hb' : p.testBit i = false := by simpa using hb
      simp [hp, hb']
  · simp [hp]

theorem swap_r3_snd_testBit {i : Nat} (hi : i < 6) (a b p : Nat) :
    (swap_r3_pair i a b).2.testBit p =
      (decide (p < 64) &&
        (if p.testBit i then b.testBit p else a.testBit (p + 2 ^ i))) := by
  show ((b &&& projections i) ||| ((a &&& projections i) >>> (1 <<< i))).testBit p = _
  rw [one_shiftLeft_eq, Nat.testBit_lor, Nat.testBit_land, Nat.testBit_shiftRight,
    Nat.testBit_land, testBit_projections, testBit_projections]
  have hcomm : 2 ^ i + p = p + 2 ^ i := Nat.add_comm _ _
  rw [hcomm]
  by_cases hp : p < 64
  · by_cases hb : p.testBit i
    · have ha1 : (p + 2 ^ i).testBit i = false := testBit_add_two_pow_self hb
      simp [hp, hb, ha1]
    · have hb' : p.testBit i = false := by simpa using hb
      have hlt : p + 2 ^ i < 64 := by
        have h64 : (64 : Nat) = 2 ^ 6 := by norm_num
        rw [h64] at hp ⊢
        exact add_two_pow_lt hp hi hb'
      have ha1 : (p + 2 ^ i).testBit i = true := by
        rw [testBit_add_two_pow hb' i]
        simp
      simp [hp, hb', ha1, hlt]
  · have h1 : ¬ (p + 2 ^ i < 64) :=
      Nat.not_lt.mpr (le_trans (Nat.not_lt.mp hp) (Nat.le_add_right _ _))
    simp [hp, h1]

theorem swap_r3_fst_lt {i : Nat} {a : Nat} (ha : a < W) (b : Nat) :
    (swap_r3_pair i a b).1 < W := by
  show (a &&& compl64 (projections i)) ||| (((b <<< (1 <<< i)) % W) &&& projections i) < W
  exact lor_lt_W (land_lt_W_left _ ha) (land_lt_W_right _ (projections_lt i))

theorem swap_r3_snd_lt {i : Nat} {b : Nat} (hb : b < W) (a : Nat) :
    (swap_r3_pair i a b).2 < W := by
  show (b &&& projections i) ||| ((a &&& projections i) >>> (1 <<< i)) < W
  exact lor_lt_W (land_lt_W_left _ hb)
    (shiftRight_lt_W (land_lt_W_right _ (projections_lt i)) _)

/-! ### Block-pair loop machinery -/

theorem getD_set (l : List Nat) (a k v : Nat) :
    (l.set a v).getD k 0 = if a = k ∧ a < l.length then v else l.getD k 0 := by
  rw [List.getD_eq_getElem?_getD, List.getD_eq_getElem?_getD, List.getElem?_set]
  by_cases h1 : a = k
  · subst h1
    by_cases h2 : a < l.length
    · simp [h2]
    · rw [if_pos rfl, if_neg h2, List.getElem?_eq_none (le_of_not_lt h2),
        if_neg (fun h => h2 h.2)]
  · simp [h1]

theorem upd2_length (f : Nat → Nat → Nat × Nat) (l : List Nat) (p : Nat × Nat) :
    (upd2 f l p).length = l.length := by
  unfold upd2
  simp

theorem applyPairs_cons (f : Nat → Nat → Nat × Nat) (l : List Nat) (p : Nat × Nat)
    (ps : List (Nat × Nat)) :
    applyPairs f l (p :: ps) = applyPairs f (upd2 f l p) ps := rfl

theorem applyPairs_length (f : Nat → Nat → Nat × Nat) (ps : List (Nat × Nat)) :
    ∀ l : List Nat, (applyPairs f l ps).length = l.length := by
  induction ps with
  | nil => intro l; rfl
  | cons p ps ih =>
    intro l
    rw [applyPairs_cons, ih, upd2_length]

theorem upd2_getD_other (f : Nat → Nat → Nat × Nat) (l : List Nat) (p : Nat × Nat)
    (k : Nat) (h1 : p.1 ≠ k) (h2 : p.2 ≠ k) :
    (upd2 f l p).getD k 0 = l.getD k 0 := by
  unfold upd2
  rw [getD_set, getD_set]
  simp [h1, h2]

theorem applyPairs_getD_other (f : Nat → Nat → Nat × Nat) (ps : List (Nat × Nat)) :
    ∀ l k, (∀ p ∈ ps, p.1 ≠ k ∧ p.2 ≠ k) →
      (applyPairs f l ps).getD k 0 = l.getD k 0 := by
  induction ps with
  | nil => intro l k _; rfl
  | cons p ps ih =>
    intro l k h
    rw [applyPairs_cons, ih _ _ (fun q hq => h q (List.mem_cons_of_mem p hq)),
      upd2_getD_other f l p k (h p (List.mem_cons_self p ps)).1
        (h p (List.mem_cons_self p ps)).2]

theorem upd2_getD_fst (f : Nat → Nat → Nat × Nat) (l : List Nat) {a b : Nat}
    (hab : a ≠ b) (ha : a < l.length) :
    (upd2 f l (a, b)).getD a 0 = (f (l.getD a 0) (l.getD b 0)).1 := by
  unfold upd2
  rw [getD_set, List.length_set, getD_set]
  have h1 : ¬ (b = a ∧ b < l.length) := fun h => hab h.1.symm
  rw [if_neg h1, if_pos ⟨rfl, ha⟩]

theorem upd2_getD_snd (f : Nat → Nat → Nat × Nat) (l : List Nat) {a b : Nat}
    (hb : b < l.length) :
    (upd2 f l (a, b)).getD b 0 = (f (l.getD a 0) (l.getD b 0)).2 := by
  unfold upd2
  rw [getD_set, List.length_set]
  rw [if_pos ⟨rfl, hb⟩]

theorem applyPairs_getD_pair (f : Nat → Nat → Nat × Nat) (ps : List (Nat × Nat)) :
    ∀ l a b, PDisjoint ps → (a, b) ∈ ps → a ≠ b → a < l.length → b < l.length →
      (applyPairs f l ps).getD a 0 = (f (l.getD a 0) (l.getD b 0)).1 ∧
      (applyPairs f l ps).getD b 0 = (f (l.getD a 0) (l.getD b 0)).2 := by
  induction ps with
  | nil => intro l a b _ hmem; exact absurd hmem (List.not_mem_nil _)
  | cons p ps ih =>
    intro l a b hdisj hmem hab ha hb
    rcases List.pairwise_cons.mp hdisj with ⟨hhead, htail⟩
    rcases List.mem_cons.mp hmem with heq | hmem'
    · subst heq
      rw [applyPairs_cons]
      have hother : ∀ q ∈ ps, q.1 ≠ a ∧ q.2 ≠ a := by
        intro q hq
        rcases hhead q hq with ⟨h1, h2, h3, h4⟩
        exact ⟨fun hh => h1 hh.symm, fun hh => h2 hh.symm⟩
      have hother2 : ∀ q ∈ ps, q.1 ≠ b ∧ q.2 ≠ b := by
        intro q hq
        rcases hhead q hq with ⟨h1, h2, h3, h4⟩
        exact ⟨fun hh => h3 hh.symm, fun hh => h4 hh.symm⟩
      constructor
      · rw [applyPairs_getD_other f ps _ _ hother, upd2_getD_fst f l hab ha]
      · rw [applyPairs_getD_other f ps _ _ hother2, upd2_getD_snd f l hb]
    · rcases hhead (a, b) hmem' with ⟨h1, h2, h3, h4⟩
      rw [applyPairs_cons]
      have hlen : (upd2 f l p).length = l.length := upd2_length f l p
      have hga : (upd2 f l p).getD a 0 = l.getD a 0 := upd2_getD_other f l p a h1 h3
      have hgb : (upd2 f l p).getD b 0 = l.getD b 0 := upd2_getD_other f l p b h2 h4
      have := ih (upd2 f l p) a b htail hmem' hab (hlen ▸ ha) (hlen ▸ hb)
      rw [hga, hgb] at this
      exact this

theorem pairwise_flatMap {α β : Type} {R : α → α → Prop} {S : β → β → Prop}
    {l : List α} {g : α → List β} (hl : l.Pairwise R)
    (hg : ∀ a ∈ l, (g a).Pairwise S)
    (hcross : ∀ a b, R a b → ∀ x ∈ g a, ∀ y ∈ g b, S x y) :
    (l.flatMap g).Pairwise S := by
  induction l with
  | nil => simp
  | cons hd tl ih =>
    rcases List.pairwise_cons.mp hl with ⟨hhd, htl⟩
    rw [List.flatMap_cons, List.pairwise_append]
    refine ⟨hg hd (List.mem_cons_self hd tl), ih htl
      (fun a ha => hg a (List.mem_cons_of_mem hd ha)), ?_⟩
    intro x hx y hy
    rcases List.mem_flatMap.mp hy with ⟨b, hb, hyb⟩
    exact hcross hd b (hhd b hb) x hx y hyb

/-! ### pairsDouble characterization -/

theorem mod_lt_of_testBit_false {k v : Nat} (h : k.testBit v = false) :
    k % 2 ^ (v + 1) < 2 ^ v := by
  have h1 : k % (2 ^ v * 2) = k % 2 ^ v + 2 ^ v * (k / 2 ^ v % 2) := Nat.mod_mul
  rw [Nat.testBit_to_div_mod] at h
  have h2 : k / 2 ^ v % 2 = 0 := by
    rcases Nat.mod_two_eq_zero_or_one (k / 2 ^ v) with h' | h'
    · exact h'
    · simp [h'] at h
  rw [h2, Nat.mul_zero, Nat.add_zero] at h1
  have h3 : k % 2 ^ v < 2 ^ v := Nat.mod_lt _ (Nat.two_pow_pos v)
  rw [show (2:Nat) ^ (v + 1) = 2 ^ v * 2 by rw [pow_succ], h1]
  exact h3

theorem mod_ge_of_testBit_true {k v : Nat} (h : k.testBit v = true) :
    2 ^ v ≤ k % 2 ^ (v + 1) := by
  have h1 : k % (2 ^ v * 2) = k % 2 ^ v + 2 ^ v * (k / 2 ^ v % 2) := Nat.mod_mul
  rw [Nat.testBit_to_div_mod] at h
  have h2 : k / 2 ^ v % 2 = 1 := of_decide_eq_true h
  rw [h2, Nat.mul_one] at h1
  rw [show (2:Nat) ^ (v + 1) = 2 ^ v * 2 by rw [pow_succ], h1]
  omega

theorem two_mul_pow (v : Nat) : 2 * 2 ^ v = 2 ^ (v + 1) := by
  rw [pow_succ]
  ring

theorem pairsDouble_mem_low {nb v k : Nat} (hdvd : 2 ^ (v + 1) ∣ nb) (hk : k < nb)
    (hbit : k.testBit v = false) : (k, k + 2 ^ v) ∈ pairsDouble nb (2 ^ v) := by
  unfold pairsDouble
  rw [List.mem_flatMap]
  refine ⟨k / 2 ^ (v + 1), ?_, ?_⟩
  · rw [List.mem_range, two_mul_pow]
    exact Nat.div_lt_div_of_lt_of_dvd hdvd hk
  · rw [List.mem_map]
    refine ⟨k % 2 ^ (v + 1), ?_, ?_⟩
    · rw [List.mem_range]
      exact mod_lt_of_testBit_false hbit
    · have hdm : 2 ^ (v + 1) * (k / 2 ^ (v + 1)) + k % 2 ^ (v + 1) = k :=
        Nat.div_add_mod k (2 ^ (v + 1))
      rw [two_mul_pow]
      have h1 : 2 ^ (v + 1) * (k / 2 ^ (v + 1)) + k % 2 ^ (v + 1) = k := hdm
      refine Prod.ext ?_ ?_ <;> simp <;> omega

theorem pairsDouble_mem_high {nb v k : Nat} (hdvd : 2 ^ (v + 1) ∣ nb) (hk : k < nb)
    (hbit : k.testBit v = true) : (k - 2 ^ v, k) ∈ pairsDouble nb (2 ^ v) := by
  unfold pairsDouble
  rw [List.mem_flatMap]
  refine ⟨k / 2 ^ (v + 1), ?_, ?_⟩
  · rw [List.mem_range, two_mul_pow]
    exact Nat.div_lt_div_of_lt_of_dvd hdvd hk
  · rw [List.mem_map]
    refine ⟨k % 2 ^ (v + 1) - 2 ^ v, ?_, ?_⟩
    · rw [List.mem_range]
      have h1 : k % 2 ^ (v + 1) < 2 ^ (v + 1) := Nat.mod_lt _ (Nat.two_pow_pos (v + 1))
      have h2 : 2 ^ (v + 1) = 2 ^ v * 2 := by rw [pow_succ]
      omega
    · have hdm : 2 ^ (v + 1) * (k / 2 ^ (v + 1)) + k % 2 ^ (v + 1) = k :=
        Nat.div_add_mod k (2 ^ (v + 1))
      have hge : 2 ^ v ≤ k % 2 ^ (v + 1) := mod_ge_of_testBit_true hbit
      rw [two_mul_pow]
      refine Prod.ext ?_ ?_ <;> simp <;> omega

theorem pairsDouble_endpoints {nb v a b : Nat} (hdvd : 2 ^ (v + 1) ∣ nb)
    (hmem : (a, b) ∈ pairsDouble nb (2 ^ v)) :
    b = a + 2 ^ v ∧ a < nb ∧ b < nb ∧ a.testBit v = false ∧ b.testBit v = true := by
  unfold pairsDouble at hmem
  rw [List.mem_flatMap] at hmem
  obtain ⟨o, ho, hmem⟩ := hmem
  rw [List.mem_range, two_mul_pow] at ho
  rw [List.mem_map] at hmem
  obtain ⟨jj, hjj, heq⟩ := hmem
  rw [List.mem_range] at hjj
  have ha : a = 2 * 2 ^ v * o + jj := by
    have := congrArg Prod.fst heq
    simp at this
    omega
  have hb : b = 2 * 2 ^ v * o + jj + 2 ^ v := by
    have := congrArg Prod.snd heq
    simp at this
    omega
  have hble : (o + 1) * 2 ^ (v + 1) ≤ nb := by
    have h1 : o + 1 ≤ nb / 2 ^ (v + 1) := ho
    have h2 : (o + 1) * 2 ^ (v + 1) ≤ nb / 2 ^ (v + 1) * 2 ^ (v + 1) :=
      Nat.mul_le_mul_right _ h1
    rw [Nat.div_mul_cancel hdvd] at h2
    exact h2
  have hexp : (o + 1) * 2 ^ (v + 1) = 2 * 2 ^ v * o + 2 * 2 ^ v := by
    rw [← two_mul_pow]
    ring
  have habit : a.testBit v = false := by
    have ha2 : a = o * (2 * 2 ^ v) + jj := by rw [ha]; ring
    rw [ha2, two_mul_pow,
      testBit_mul_pow_add o (lt_trans hjj (by rw [pow_succ]; omega)) v,
      if_pos (Nat.lt_succ_self v)]
    exact Nat.testBit_lt_two_pow hjj
  refine ⟨by omega, by omega, by omega, habit, ?_⟩
  have hb2 : b = a + 2 ^ v := by omega
  rw [hb2, testBit_add_two_pow habit v]
  simp

theorem pairsDouble_pdisj (nb v : Nat) : PDisjoint (pairsDouble nb (2 ^ v)) := by
  unfold pairsDouble PDisjoint
  apply pairwise_flatMap (R := (· < ·))
  · exact List.pairwise_lt_range _
  · intro o _
    rw [List.pairwise_iff_getElem]
    intro i1 i2 h1 h2 hlt
    simp only [List.getElem_map, List.getElem_range, List.length_map,
      List.length_range] at h1 h2 ⊢
    refine ⟨by omega, by omega, by omega, by omega⟩
  · intro o o' holt x hx y hy
    simp only [List.mem_map, List.mem_range] at hx hy
    obtain ⟨j, hj, rfl⟩ := hx
    obtain ⟨j', hj', rfl⟩ := hy
    have h1 : 2 * 2 ^ v * (o + 1) ≤ 2 * 2 ^ v * o' := Nat.mul_le_mul_left _ holt
    have h2 : 2 * 2 ^ v * (o + 1) = 2 * 2 ^ v * o + 2 * 2 ^ v := by ring
    refine ⟨by simp; omega, by simp; omega, by simp; omega, by simp; omega⟩

/-! ### pairsAdj and pairsR4 characterization -/

theorem testBit_true_of_range {r v : Nat} (h1 : 2 ^ v ≤ r) (h2 : r < 2 ^ (v + 1)) :
    r.testBit v = true := by
  rw [Nat.testBit_to_div_mod]
  have hd : r / 2 ^ v = 1 := by
    have h3 : (2:Nat) ^ (v + 1) = 2 ^ v * 2 := by rw [pow_succ]
    have h4 : r / 2 ^ v < 2 := by
      apply Nat.div_lt_of_lt_mul
      omega
    have h5 : 1 ≤ r / 2 ^ v := by
      apply Nat.one_le_div_iff (Nat.two_pow_pos v) |>.mpr h1
    omega
  simp [hd]

theorem lt_pow_of_testBit_false {r m : Nat} (h1 : r < 2 ^ (m + 1))
    (h2 : r.testBit m = false) : r < 2 ^ m := by
  apply lt_two_pow_of_high_bits
  intro jx hjx
  rcases Nat.eq_or_lt_of_le hjx with h | h
  · rw [← h]
    exact h2
  · exact testBit_high_of_lt h1 h

theorem pdisj_of_mono {ps : List (Nat × Nat)} {v D : Nat} {c : Bool}
    (hmono : ps.Pairwise (fun p q => p.1 < q.1))
    (hbits : ∀ p ∈ ps, p.1.testBit v = c ∧ p.2.testBit v = (! c) ∧ p.2 = p.1 + D) :
    PDisjoint ps := by
  unfold PDisjoint
  apply List.Pairwise.imp_of_mem ?_ hmono
  intro p q hp hq hlt
  obtain ⟨hp1, hp2, hp3⟩ := hbits p hp
  obtain ⟨hq1, hq2, hq3⟩ := hbits q hq
  refine ⟨by omega, ?_, ?_, by omega⟩
  · intro h
    rw [h, hq2] at hp1
    cases c <;> simp at hp1
  · intro h
    rw [h, hq1] at hp2
    cases c <;> simp at hp2

theorem pairsDouble_mono (nb step : Nat) :
    (pairsDouble nb step).Pairwise (fun p q => p.1 < q.1) := by
  unfold pairsDouble
  apply pairwise_flatMap (R := (· < ·))
  · exact List.pairwise_lt_range _
  · intro o _
    rw [List.pairwise_iff_getElem]
    intro i1 i2 h1 h2 hlt
    simp only [List.getElem_map, List.getElem_range, List.length_map,
      List.length_range] at h1 h2 ⊢
    omega
  · intro o o' holt x hx y hy
    simp only [List.mem_map, List.mem_range] at hx hy
    obtain ⟨j, hj, rfl⟩ := hx
    obtain ⟨j', hj', rfl⟩ := hy
    have h1 : 2 * step * (o + 1) ≤ 2 * step * o' := Nat.mul_le_mul_left _ holt
    have h2 : 2 * step * (o + 1) = 2 * step * o + 2 * step := by ring
    simp
    omega

theorem pairsAdj_mono (nb step : Nat) :
    (pairsAdj nb step).Pairwise (fun p q => p.1 < q.1) := by
  unfold pairsAdj
  apply pairwise_flatMap (R := (· < ·))
  · exact List.pairwise_lt_range _
  · intro o _
    rw [List.pairwise_iff_getElem]
    intro i1 i2 h1 h2 hlt
    simp only [List.getElem_map, List.getElem_range, List.length_map,
      List.length_range] at h1 h2 ⊢
    omega
  · intro o o' holt x hx y hy
    simp only [List.mem_map, List.mem_range] at hx hy
    obtain ⟨j, hj, rfl⟩ := hx
    obtain ⟨j', hj', rfl⟩ := hy
    have h1 : 4 * step * (o + 1) ≤ 4 * step * o' := Nat.mul_le_mul_left _ holt
    have h2 : 4 * step * (o + 1) = 4 * step * o + 4 * step := by ring
    simp
    omega

theorem pairsR4_mono (nb step1 step2 : Nat) (hstep : 2 * step1 ∣ step2) :
    (pairsR4 nb step1 step2).Pairwise (fun p q => p.1 < q.1) := by
  unfold pairsR4
  apply pairwise_flatMap (R := (· < ·))
  · exact List.pairwise_lt_range _
  · intro o _
    apply pairwise_flatMap (R := (· < ·))
    · exact List.pairwise_lt_range _
    · intro m _
      rw [List.pairwise_iff_getElem]
      intro i1 i2 h1 h2 hlt
      simp only [List.getElem_map, List.getElem_range, List.length_map,
        List.length_range] at h1 h2 ⊢
      omega
    · intro m m' hmlt x hx y hy
      simp only [List.mem_map, List.mem_range] at hx hy
      obtain ⟨j, hj, rfl⟩ := hx
      obtain ⟨j', hj', rfl⟩ := hy
      have h1 : 2 * step1 * (m + 1) ≤ 2 * step1 * m' := Nat.mul_le_mul_left _ hmlt
      have h2 : 2 * step1 * (m + 1) = 2 * step1 * m + 2 * step1 := by ring
      simp
      omega
  · intro o o' holt x hx y hy
    simp only [List.mem_flatMap, List.mem_map, List.mem_range] at hx hy
    obtain ⟨m, hm, j, hj, rfl⟩ := hx
    obtain ⟨m', hm', j', hj', rfl⟩ := hy
    have h1 : 2 * step2 * (o + 1) ≤ 2 * step2 * o' := Nat.mul_le_mul_left _ holt
    have h2 : 2 * step2 * (o + 1) = 2 * step2 * o + 2 * step2 := by ring
    have h3 : 2 * step1 * (m + 1) ≤ 2 * step1 * (step2 / (2 * step1)) :=
      Nat.mul_le_mul_left _ hm
    rw [Nat.mul_div_cancel' hstep] at h3
    have h4 : 2 * step1 * (m + 1) = 2 * step1 * m + 2 * step1 := by ring
    have h5 : 2 * step1 * (m' + 1) ≤ 2 * step1 * (step2 / (2 * step1)) :=
      Nat.mul_le_mul_left _ hm'
    rw [Nat.mul_div_cancel' hstep] at h5
    have h6 : 2 * step1 * (m' + 1) = 2 * step1 * m' + 2 * step1 := by ring
    simp
    omega

theorem pairsAdj_endpoints {nb v a b : Nat} (hdvd : 2 ^ (v + 2) ∣ nb)
    (hmem : (a, b) ∈ pairsAdj nb (2 ^ v)) :
    b = a + 2 ^ v ∧ a < nb ∧ b < nb ∧
    a.testBit v = true ∧ a.testBit (v + 1) = false ∧
    b.testBit v = false ∧ b.testBit (v + 1) = true := by
  unfold pairsAdj at hmem
  rw [List.mem_flatMap] at hmem
  obtain ⟨o, ho, hmem⟩ := hmem
  rw [List.mem_range] at ho
  rw [List.mem_map] at hmem
  obtain ⟨jj, hjj, heq⟩ := hmem
  rw [List.mem_range] at hjj
  have hp1 : (2:Nat) ^ (v + 1) = 2 ^ v * 2 := by rw [pow_succ]
  have hp2 : (2:Nat) ^ (v + 2) = 2 ^ v * 4 := by rw [pow_succ, pow_succ]; ring
  have ha : a = 4 * 2 ^ v * o + jj + 2 ^ v := by
    have := congrArg Prod.fst heq
    simp at this
    omega
  have hb : b = 4 * 2 ^ v * o + jj + 2 * 2 ^ v := by
    have := congrArg Prod.snd heq
    simp at this
    omega
  have hble : (o + 1) * 2 ^ (v + 2) ≤ nb := by
    have h1 : o + 1 ≤ nb / (4 * 2 ^ v) := ho
    have h1' : o + 1 ≤ nb / 2 ^ (v + 2) := by
      rw [show (2:Nat) ^ (v + 2) = 4 * 2 ^ v by omega]
      exact h1
    have h2 : (o + 1) * 2 ^ (v + 2) ≤ nb / 2 ^ (v + 2) * 2 ^ (v + 2) :=
      Nat.mul_le_mul_right _ h1'
    rw [Nat.div_mul_cancel hdvd] at h2
    exact h2
  have hexp : (o + 1) * 2 ^ (v + 2) = 4 * 2 ^ v * o + 4 * 2 ^ v := by
    rw [hp2]
    ring
  have ha2 : a = o * 2 ^ (v + 2) + (jj + 2 ^ v) := by rw [ha, hp2]; ring
  have hb2 : b = o * 2 ^ (v + 2) + (jj + 2 * 2 ^ v) := by rw [hb, hp2]; ring
  have habit : a.testBit v = true := by
    rw [ha2, testBit_mul_pow_add o (by omega) v, if_pos (by omega)]
    exact testBit_true_of_range (by omega) (by omega)
  have habit1 : a.testBit (v + 1) = false := by
    rw [ha2, testBit_mul_pow_add o (by omega) (v + 1), if_pos (by omega)]
    exact Nat.testBit_lt_two_pow (by omega)
  have hinb : jj + 2 * 2 ^ v = 1 * 2 ^ (v + 1) + jj := by omega
  have hbbit : b.testBit v = false := by
    rw [hb2, testBit_mul_pow_add o (by omega) v, if_pos (by omega), hinb,
      testBit_mul_pow_add 1 (by omega) v, if_pos (by omega)]
    exact Nat.testBit_lt_two_pow hjj
  have hbbit1 : b.testBit (v + 1) = true := by
    rw [hb2, testBit_mul_pow_add o (by omega) (v + 1), if_pos (by omega), hinb,
      testBit_mul_pow_add 1 (by omega) (v + 1), if_neg (by omega), Nat.sub_self]
    rfl
  exact ⟨by omega, by omega, by omega, habit, habit1, hbbit, hbbit1⟩

theorem testBit_mod_pow_lt {k m v : Nat} (h : v < m) :
    (k % 2 ^ m).testBit v = k.testBit v := by
  rw [Nat.testBit_mod_two_pow, decide_eq_true h]
  simp

theorem pairsAdj_mem_low {nb v k : Nat} (hdvd : 2 ^ (v + 2) ∣ nb) (hk : k < nb)
    (hb1 : k.testBit v = true) (hb2 : k.testBit (v + 1) = false) :
    (k, k + 2 ^ v) ∈ pairsAdj nb (2 ^ v) := by
  unfold pairsAdj
  rw [List.mem_flatMap]
  have hp1 : (2:Nat) ^ (v + 1) = 2 ^ v * 2 := by rw [pow_succ]
  have hp2 : (2:Nat) ^ (v + 2) = 4 * 2 ^ v := by rw [pow_succ, pow_succ]; ring
  have hrem : k % 2 ^ (v + 2) < 2 ^ (v + 2) := Nat.mod_lt _ (Nat.two_pow_pos _)
  have hremb1 : (k % 2 ^ (v + 2)).testBit v = true := by
    rw [testBit_mod_pow_lt (by omega)]
    exact hb1
  have hremb2 : (k % 2 ^ (v + 2)).testBit (v + 1) = false := by
    rw [testBit_mod_pow_lt (by omega)]
    exact hb2
  have hremlt : k % 2 ^ (v + 2) < 2 ^ (v + 1) := by
    apply lt_pow_of_testBit_false ?_ hremb2
    omega
  have hremge : 2 ^ v ≤ k % 2 ^ (v + 2) := ge_of_testBit_true hremb1
  have hdm : 2 ^ (v + 2) * (k / 2 ^ (v + 2)) + k % 2 ^ (v + 2) = k :=
    Nat.div_add_mod k (2 ^ (v + 2))
  have hbase : 4 * 2 ^ v * (k / 2 ^ (v + 2)) = 2 ^ (v + 2) * (k / 2 ^ (v + 2)) := by
    rw [← hp2]
  refine ⟨k / 2 ^ (v + 2), ?_, ?_⟩
  · rw [List.mem_range, show 4 * 2 ^ v = 2 ^ (v + 2) by omega]
    exact Nat.div_lt_div_of_lt_of_dvd hdvd hk
  · rw [List.mem_map]
    refine ⟨k % 2 ^ (v + 2) - 2 ^ v, ?_, ?_⟩
    · rw [List.mem_range]
      omega
    · refine Prod.ext ?_ ?_ <;> simp <;> omega

theorem pairsAdj_mem_high {nb v k : Nat} (hdvd : 2 ^ (v + 2) ∣ nb) (hk : k < nb)
    (hb1 : k.testBit v = false) (hb2 : k.testBit (v + 1) = true) :
    (k - 2 ^ v, k) ∈ pairsAdj nb (2 ^ v) := by
  unfold pairsAdj
  rw [List.mem_flatMap]
  have hp1 : (2:Nat) ^ (v + 1) = 2 ^ v * 2 := by rw [pow_succ]
  have hp2 : (2:Nat) ^ (v + 2) = 4 * 2 ^ v := by rw [pow_succ, pow_succ]; ring
  have hrem : k % 2 ^ (v + 2) < 2 ^ (v + 2) := Nat.mod_lt _ (Nat.two_pow_pos _)
  have hremb1 : (k % 2 ^ (v + 2)).testBit v = false := by
    rw [testBit_mod_pow_lt (by omega)]
    exact hb1
  have hremb2 : (k % 2 ^ (v + 2)).testBit (v + 1) = true := by
    rw [testBit_mod_pow_lt (by omega)]
    exact hb2
  have hremge : 2 ^ (v + 1) ≤ k % 2 ^ (v + 2) := ge_of_testBit_true hremb2
  have hsbit : (k % 2 ^ (v + 2) - 2 ^ (v + 1)).testBit v = false := by
    rw [testBit_sub_two_pow hremb2 v]
    have h1 : decide (v = v + 1) = false := by
      simp only [decide_eq_false_iff_not]
      omega
    rw [h1, hremb1]
    simp
  have hslt : k % 2 ^ (v + 2) - 2 ^ (v + 1) < 2 ^ v := by
    apply lt_pow_of_testBit_false ?_ hsbit
    omega
  have hdm : 2 ^ (v + 2) * (k / 2 ^ (v + 2)) + k % 2 ^ (v + 2) = k :=
    Nat.div_add_mod k (2 ^ (v + 2))
  have hbase : 4 * 2 ^ v * (k / 2 ^ (v + 2)) = 2 ^ (v + 2) * (k / 2 ^ (v + 2)) := by
    rw [← hp2]
  refine ⟨k / 2 ^ (v + 2), ?_, ?_⟩
  · rw [List.mem_range, show 4 * 2 ^ v = 2 ^ (v + 2) by omega]
    exact Nat.div_lt_div_of_lt_of_dvd hdvd hk
  · rw [List.mem_map]
    refine ⟨k % 2 ^ (v + 2) - 2 ^ (v + 1), ?_, ?_⟩
    · rw [List.mem_range]
      exact hslt
    · refine Prod.ext ?_ ?_ <;> simp <;> omega

theorem pairsAdj_not_endpoint {nb v k : Nat} (hdvd : 2 ^ (v + 2) ∣ nb)
    (hbits : k.testBit v = k.testBit (v + 1)) :
    ∀ p ∈ pairsAdj nb (2 ^ v), p.1 ≠ k ∧ p.2 ≠ k := by
  intro p hp
  obtain ⟨a, b⟩ := p
  obtain ⟨hab, _, _, h1, h2, h3, h4⟩ := pairsAdj_endpoints hdvd hp
  constructor
  · intro h
    rw [← h, h1, h2] at hbits
    simp at hbits
  · intro h
    rw [← h, h3, h4] at hbits
    simp at hbits

theorem pairsAdj_pdisj {nb v : Nat} (hdvd : 2 ^ (v + 2) ∣ nb) :
    PDisjoint (pairsAdj nb (2 ^ v)) := by
  apply pdisj_of_mono (v := v) (D := 2 ^ v) (c := true) (pairsAdj_mono nb (2 ^ v))
  intro p hp
  obtain ⟨a, b⟩ := p
  obtain ⟨hab, _, _, h1, _, h3, _⟩ := pairsAdj_endpoints hdvd hp
  exact ⟨h1, by rw [h3]; rfl, hab⟩

theorem pairsDouble_pdisj_dvd {nb v : Nat} (hdvd : 2 ^ (v + 1) ∣ nb) :
    PDisjoint (pairsDouble nb (2 ^ v)) := pairsDouble_pdisj nb v

theorem pairsR4_endpoints {nb v1 v2 a b : Nat} (h12 : v1 < v2)
    (hdvd : 2 ^ (v2 + 1) ∣ nb)
    (hmem : (a, b) ∈ pairsR4 nb (2 ^ v1) (2 ^ v2)) :
    b = a + (2 ^ v2 - 2 ^ v1) ∧ a < nb ∧ b < nb ∧
    a.testBit v1 = true ∧ a.testBit v2 = false ∧
    b.testBit v1 = false ∧ b.testBit v2 = true := by
  unfold pairsR4 at hmem
  rw [List.mem_flatMap] at hmem
  obtain ⟨o, ho, hmem⟩ := hmem
  rw [List.mem_range] at ho
  rw [List.mem_flatMap] at hmem
  obtain ⟨m, hm, hmem⟩ := hmem
  rw [List.mem_range] at hm
  rw [List.mem_map] at hmem
  obtain ⟨j, hj, heq⟩ := hmem
  rw [List.mem_range] at hj
  have hq1 : (2:Nat) ^ (v1 + 1) = 2 * 2 ^ v1 := by rw [pow_succ]; ring
  have hq2 : (2:Nat) ^ (v2 + 1) = 2 * 2 ^ v2 := by rw [pow_succ]; ring
  have hd12 : 2 ^ (v1 + 1) ∣ 2 ^ v2 := pow_dvd_pow 2 (by omega)
  have hm2 : 2 ^ (v1 + 1) * (m + 1) ≤ 2 ^ v2 := by
    have h1 : 2 * 2 ^ v1 * (m + 1) ≤ 2 * 2 ^ v1 * (2 ^ v2 / (2 * 2 ^ v1)) :=
      Nat.mul_le_mul_left _ hm
    rw [show (2:Nat) * 2 ^ v1 = 2 ^ (v1 + 1) by omega] at h1
    rwa [Nat.mul_div_cancel' hd12] at h1
  have hm2' : 2 ^ (v1 + 1) * (m + 1) = m * 2 ^ (v1 + 1) + 2 ^ (v1 + 1) := by ring
  have ha : a = 2 * 2 ^ v2 * o + 2 * 2 ^ v1 * m + j + 2 ^ v1 := by
    have := congrArg Prod.fst heq
    simp at this
    omega
  have hb : b = 2 * 2 ^ v2 * o + 2 * 2 ^ v1 * m + j + 2 ^ v2 := by
    have := congrArg Prod.snd heq
    simp at this
    omega
  have hmm : 2 * 2 ^ v1 * m = m * 2 ^ (v1 + 1) := by rw [hq1]; ring
  have hoo : 2 * 2 ^ v2 * o = o * 2 ^ (v2 + 1) := by rw [hq2]; ring
  have hble : (o + 1) * 2 ^ (v2 + 1) ≤ nb := by
    have h1 : o + 1 ≤ nb / (2 * 2 ^ v2) := ho
    have h1' : o + 1 ≤ nb / 2 ^ (v2 + 1) := by rwa [show 2 * 2 ^ v2 = 2 ^ (v2 + 1) by omega] at h1
    have h2 : (o + 1) * 2 ^ (v2 + 1) ≤ nb / 2 ^ (v2 + 1) * 2 ^ (v2 + 1) :=
      Nat.mul_le_mul_right _ h1'
    rwa [Nat.div_mul_cancel hdvd] at h2
  have hble' : (o + 1) * 2 ^ (v2 + 1) = o * 2 ^ (v2 + 1) + 2 ^ (v2 + 1) := by ring
  -- inner parts
  have hinner_a : a = o * 2 ^ (v2 + 1) + (m * 2 ^ (v1 + 1) + (j + 2 ^ v1)) := by
    rw [ha, hmm, hoo]
    ring
  have hlow_lt : m * 2 ^ (v1 + 1) + (j + 2 ^ v1) < 2 ^ v2 := by omega
  have hinner_b : b = o * 2 ^ (v2 + 1) + (1 * 2 ^ v2 + (m * 2 ^ (v1 + 1) + j)) := by
    rw [hb, hmm, hoo]
    ring
  have hlow_lt2 : m * 2 ^ (v1 + 1) + j < 2 ^ v2 := by omega
  have hbin_lt : 1 * 2 ^ v2 + (m * 2 ^ (v1 + 1) + j) < 2 ^ (v2 + 1) := by omega
  have habit1 : a.testBit v1 = true := by
    rw [hinner_a, testBit_mul_pow_add o (by omega) v1, if_pos (by omega),
      testBit_mul_pow_add m (show j + 2 ^ v1 < 2 ^ (v1 + 1) by omega) v1,
      if_pos (by omega)]
    exact testBit_true_of_range (by omega) (by omega)
  have habit2 : a.testBit v2 = false := by
    rw [hinner_a, testBit_mul_pow_add o (by omega) v2, if_pos (by omega)]
    exact Nat.testBit_lt_two_pow hlow_lt
  have hbbit1 : b.testBit v1 = false := by
    rw [hinner_b, testBit_mul_pow_add o (by omega) v1, if_pos (by omega),
      show 1 * 2 ^ v2 + (m * 2 ^ (v1 + 1) + j) = (2 ^ (v2 - (v1 + 1)) * 2 ^ (v1 + 1)) * 1 + (m * 2 ^ (v1 + 1) + j) by
        rw [← pow_add, show v2 - (v1 + 1) + (v1 + 1) = v2 by omega]
        ring]
    rw [show (2 ^ (v2 - (v1 + 1)) * 2 ^ (v1 + 1)) * 1 + (m * 2 ^ (v1 + 1) + j) =
      (2 ^ (v2 - (v1 + 1)) + m) * 2 ^ (v1 + 1) + j by ring]
    rw [testBit_mul_pow_add _ (show j < 2 ^ (v1 + 1) by omega) v1, if_pos (by omega)]
    exact Nat.testBit_lt_two_pow hj
  have hbbit2 : b.testBit v2 = true := by
    rw [hinner_b, testBit_mul_pow_add o (by omega) v2, if_pos (by omega),
      testBit_mul_pow_add 1 (show m * 2 ^ (v1 + 1) + j < 2 ^ v2 by omega) v2,
      if_neg (by omega), Nat.sub_self]
    rfl
  have hpw : 2 ^ v1 ≤ 2 ^ v2 := Nat.pow_le_pow_right (by norm_num) (by omega)
  refine ⟨by omega, by omega, by omega, habit1, habit2, hbbit1, hbbit2⟩

theorem pairsR4_mem_low {nb v1 v2 k : Nat} (h12 : v1 < v2) (hdvd : 2 ^ (v2 + 1) ∣ nb)
    (hk : k < nb) (hb1 : k.testBit v1 = true) (hb2 : k.testBit v2 = false) :
    (k, k + (2 ^ v2 - 2 ^ v1)) ∈ pairsR4 nb (2 ^ v1) (2 ^ v2) := by
  unfold pairsR4
  have hq1 : (2:Nat) ^ (v1 + 1) = 2 * 2 ^ v1 := by rw [pow_succ]; ring
  have hq2 : (2:Nat) ^ (v2 + 1) = 2 * 2 ^ v2 := by rw [pow_succ]; ring
  have hd12 : 2 ^ (v1 + 1) ∣ 2 ^ v2 := pow_dvd_pow 2 (by omega)
  have hrem : k % 2 ^ (v2 + 1) < 2 ^ (v2 + 1) := Nat.mod_lt _ (Nat.two_pow_pos _)
  have hremb1 : (k % 2 ^ (v2 + 1)).testBit v1 = true := by
    rw [testBit_mod_pow_lt (by omega)]
    exact hb1
  have hremb2 : (k % 2 ^ (v2 + 1)).testBit v2 = false := by
    rw [testBit_mod_pow_lt (by omega)]
    exact hb2
  have hremlt : k % 2 ^ (v2 + 1) < 2 ^ v2 := lt_pow_of_testBit_false hrem hremb2
  set rem := k % 2 ^ (v2 + 1) with hremdef
  have hjj : 2 ^ v1 ≤ rem % 2 ^ (v1 + 1) := mod_ge_of_testBit_true hremb1
  have hjjlt : rem % 2 ^ (v1 + 1) < 2 ^ (v1 + 1) := Nat.mod_lt _ (Nat.two_pow_pos _)
  have hdm1 : 2 ^ (v2 + 1) * (k / 2 ^ (v2 + 1)) + rem = k := Nat.div_add_mod k _
  have hdm2 : 2 ^ (v1 + 1) * (rem / 2 ^ (v1 + 1)) + rem % 2 ^ (v1 + 1) = rem :=
    Nat.div_add_mod rem _
  have hpw : 2 ^ v1 ≤ 2 ^ v2 := Nat.pow_le_pow_right (by norm_num) (by omega)
  rw [List.mem_flatMap]
  refine ⟨k / 2 ^ (v2 + 1), ?_, ?_⟩
  · rw [List.mem_range, show 2 * 2 ^ v2 = 2 ^ (v2 + 1) by omega]
    exact Nat.div_lt_div_of_lt_of_dvd hdvd hk
  · rw [List.mem_flatMap]
    refine ⟨rem / 2 ^ (v1 + 1), ?_, ?_⟩
    · rw [List.mem_range, show 2 * 2 ^ v1 = 2 ^ (v1 + 1) by omega]
      exact Nat.div_lt_div_of_lt_of_dvd hd12 hremlt
    · rw [List.mem_map]
      refine ⟨rem % 2 ^ (v1 + 1) - 2 ^ v1, ?_, ?_⟩
      · rw [List.mem_range]
        omega
      · have hb1' : 2 * 2 ^ v2 * (k / 2 ^ (v2 + 1)) = 2 ^ (v2 + 1) * (k / 2 ^ (v2 + 1)) := by
          rw [hq2]
        have hb2' : 2 * 2 ^ v1 * (rem / 2 ^ (v1 + 1)) = 2 ^ (v1 + 1) * (rem / 2 ^ (v1 + 1)) := by
          rw [hq1]
        refine Prod.ext ?_ ?_ <;> simp <;> omega

theorem pairsR4_mem_high {nb v1 v2 k : Nat} (h12 : v1 < v2) (hdvd : 2 ^ (v2 + 1) ∣ nb)
    (hk : k < nb) (hb1 : k.testBit v1 = false) (hb2 : k.testBit v2 = true) :
    (k - (2 ^ v2 - 2 ^ v1), k) ∈ pairsR4 nb (2 ^ v1) (2 ^ v2) := by
  unfold pairsR4
  have hq1 : (2:Nat) ^ (v1 + 1) = 2 * 2 ^ v1 := by rw [pow_succ]; ring
  have hq2 : (2:Nat) ^ (v2 + 1) = 2 * 2 ^ v2 := by rw [pow_succ]; ring
  have hd12 : 2 ^ (v1 + 1) ∣ 2 ^ v2 := pow_dvd_pow 2 (by omega)
  have hrem : k % 2 ^ (v2 + 1) < 2 ^ (v2 + 1) := Nat.mod_lt _ (Nat.two_pow_pos _)
  have hremb1 : (k % 2 ^ (v2 + 1)).testBit v1 = false := by
    rw [testBit_mod_pow_lt (by omega)]
    exact hb1
  have hremb2 : (k % 2 ^ (v2 + 1)).testBit v2 = true := by
    rw [testBit_mod_pow_lt (by omega)]
    exact hb2
  set rem := k % 2 ^ (v2 + 1) with hremdef
  have hremge : 2 ^ v2 ≤ rem := ge_of_testBit_true hremb2
  have hs : (rem - 2 ^ v2).testBit v1 = false := by
    rw [testBit_sub_two_pow hremb2 v1]
    have h1 : decide (v1 = v2) = false := by
      simp only [decide_eq_false_iff_not]
      omega
    rw [h1, hremb1]
    simp
  set s := rem - 2 ^ v2 with hsdef
  have hslt : s < 2 ^ v2 := by omega
  have hjjlt : s % 2 ^ (v1 + 1) < 2 ^ v1 := mod_lt_of_testBit_false hs
  have hdm1 : 2 ^ (v2 + 1) * (k / 2 ^ (v2 + 1)) + rem = k := Nat.div_add_mod k _
  have hdm2 : 2 ^ (v1 + 1) * (s / 2 ^ (v1 + 1)) + s % 2 ^ (v1 + 1) = s :=
    Nat.div_add_mod s _
  have hpw : 2 ^ v1 ≤ 2 ^ v2 := Nat.pow_le_pow_right (by norm_num) (by omega)
  rw [List.mem_flatMap]
  refine ⟨k / 2 ^ (v2 + 1), ?_, ?_⟩
  · rw [List.mem_range, show 2 * 2 ^ v2 = 2 ^ (v2 + 1) by omega]
    exact Nat.div_lt_div_of_lt_of_dvd hdvd hk
  · rw [List.mem_flatMap]
    refine ⟨s / 2 ^ (v1 + 1), ?_, ?_⟩
    · rw [List.mem_range, show 2 * 2 ^ v1 = 2 ^ (v1 + 1) by omega]
      exact Nat.div_lt_div_of_lt_of_dvd hd12 hslt
    · rw [List.mem_map]
      refine ⟨s % 2 ^ (v1 + 1), ?_, ?_⟩
      · rw [List.mem_range]
        exact hjjlt
      · have hb1' : 2 * 2 ^ v2 * (k / 2 ^ (v2 + 1)) = 2 ^ (v2 + 1) * (k / 2 ^ (v2 + 1)) := by
          rw [hq2]
        have hb2' : 2 * 2 ^ v1 * (s / 2 ^ (v1 + 1)) = 2 ^ (v1 + 1) * (s / 2 ^ (v1 + 1)) := by
          rw [hq1]
        refine Prod.ext ?_ ?_ <;> simp <;> omega

theorem pairsR4_not_endpoint {nb v1 v2 k : Nat} (h12 : v1 < v2)
    (hdvd : 2 ^ (v2 + 1) ∣ nb) (hbits : k.testBit v1 = k.testBit v2) :
    ∀ p ∈ pairsR4 nb (2 ^ v1) (2 ^ v2), p.1 ≠ k ∧ p.2 ≠ k := by
  intro p hp
  obtain ⟨a, b⟩ := p
  obtain ⟨hab, _, _, h1, h2, h3, h4⟩ := pairsR4_endpoints h12 hdvd hp
  constructor
  · intro h
    rw [← h, h1, h2] at hbits
    simp at hbits
  · intro h
    rw [← h, h3, h4] at hbits
    simp at hbits

theorem pairsR4_pdisj {nb v1 v2 : Nat} (h12 : v1 < v2) (hdvd : 2 ^ (v2 + 1) ∣ nb) :
    PDisjoint (pairsR4 nb (2 ^ v1) (2 ^ v2)) := by
  apply pdisj_of_mono (v := v1) (D := 2 ^ v2 - 2 ^ v1) (c := true)
    (pairsR4_mono nb (2 ^ v1) (2 ^ v2)
      (by rw [show (2:Nat) * 2 ^ v1 = 2 ^ (v1 + 1) by rw [pow_succ]; ring]
          exact pow_dvd_pow 2 (by omega)))
  intro p hp
  obtain ⟨a, b⟩ := p
  obtain ⟨hab, _, _, h1, _, h3, _⟩ := pairsR4_endpoints h12 hdvd hp
  exact ⟨h1, by rw [h3]; rfl, hab⟩

/-! ### Table-level helpers -/

theorem num_blocks_le_six {nv : Nat} (h : nv ≤ 6) : num_blocks nv = 1 := if_pos h

theorem num_blocks_gt_six {nv : Nat} (h : 6 < nv) : num_blocks nv = 2 ^ (nv - 6) :=
  if_neg (by omega)

theorem num_blocks_pos (nv : Nat) : 0 < num_blocks nv := by
  unfold num_blocks
  split
  · omega
  · exact Nat.two_pow_pos _

theorem nv_le_six_of_num_blocks_one {nv : Nat} (h : num_blocks nv = 1) : nv ≤ 6 := by
  by_contra hc
  push_neg at hc
  rw [num_blocks_gt_six hc] at h
  have h2 : 2 ^ 1 ≤ 2 ^ (nv - 6) := Nat.pow_le_pow_right (by norm_num) (by omega)
  omega

theorem storage_bits_eq {t : TruthTable} (hwf : t.wf) (h : 6 < t.num_vars) :
    64 * t.bits.length = 2 ^ t.num_vars := by
  rw [hwf.1, num_blocks_gt_six h, show (64:Nat) = 2 ^ 6 by norm_num, ← pow_add]
  congr 1
  omega

theorem getD_lt_W {l : List Nat} (hl : ∀ w ∈ l, w < W) (k : Nat) : l.getD k 0 < W := by
  rw [List.getD_eq_getElem?_getD]
  rcases Nat.lt_or_ge k l.length with h | h
  · rw [List.getElem?_eq_getElem h]
    exact hl _ (List.getElem_mem h)
  · rw [List.getElem?_eq_none h]
    exact Nat.two_pow_pos 64

theorem getD_map (f : Nat → Nat) (l : List Nat) (k : Nat) :
    (l.map f).getD k 0 = if k < l.length then f (l.getD k 0) else 0 := by
  rw [List.getD_eq_getElem?_getD, List.getD_eq_getElem?_getD]
  rcases Nat.lt_or_ge k l.length with h | h
  · rw [List.getElem?_eq_getElem (by simpa using h), List.getElem?_eq_getElem h]
    simp [h]
  · rw [List.getElem?_eq_none (by simpa using h), List.getElem?_eq_none h, if_neg (by omega)]
    rfl

theorem div64_lt {x len : Nat} (hx : x < 64 * len) : x / 64 < len :=
  Nat.div_lt_of_lt_mul (by omega)

theorem mod64_lt (x : Nat) : x % 64 < 64 := Nat.mod_lt _ (by norm_num)

theorem xor_high_div (x : Nat) {i : Nat} (hi : 6 ≤ i) :
    (x ^^^ 2 ^ i) / 64 = (x / 64) ^^^ 2 ^ (i - 6) ∧ (x ^^^ 2 ^ i) % 64 = x % 64 := by
  constructor
  · have h1 : ∀ y : Nat, y / 64 = y >>> 6 := fun y => by rw [Nat.shiftRight_eq_div_pow]
    rw [h1, h1]
    apply Nat.eq_of_testBit_eq
    intro k
    rw [Nat.testBit_xor, Nat.testBit_shiftRight, Nat.testBit_shiftRight, Nat.testBit_xor,
      Nat.testBit_two_pow, Nat.testBit_two_pow]
    have h2 : decide (i = 6 + k) = decide (i - 6 = k) :=
      decide_eq_decide.mpr ⟨fun h => by omega, fun h => by omega⟩
    rw [h2]
  · apply Nat.eq_of_testBit_eq
    intro k
    rcases Nat.lt_or_ge k 6 with h | h
    · rw [testBit_mod64 _ h, testBit_mod64 _ h, Nat.testBit_xor,
        Nat.testBit_two_pow_of_ne (by omega)]
      simp
    · have h3 : ∀ y : Nat, (y % 64).testBit k = false := by
        intro y
        apply testBit_high_of_lt (m := 6) ?_ h
        rw [show (2:Nat) ^ 6 = 64 by norm_num]
        exact Nat.mod_lt _ (by norm_num)
      rw [h3, h3]

theorem xor_lor_two_pow {i j : Nat} (hij : i ≠ j) (x : Nat) :
    x ^^^ (2 ^ i ||| 2 ^ j) = (x ^^^ 2 ^ i) ^^^ 2 ^ j := by
  apply Nat.eq_of_testBit_eq
  intro k
  rw [Nat.testBit_xor, Nat.testBit_lor, Nat.testBit_xor, Nat.testBit_xor]
  have hnb : (2 ^ i).testBit k = false ∨ (2 ^ j).testBit k = false := by
    rw [Nat.testBit_two_pow, Nat.testBit_two_pow]
    rcases eq_or_ne i k with h | h
    · right
      simp only [decide_eq_false_iff_not]
      omega
    · left
      simp only [decide_eq_false_iff_not]
      exact h
  rcases hnb with h | h <;> rw [h] <;> cases x.testBit k <;>
    cases hk : ((2 ^ i).testBit k || (2 ^ j).testBit k) <;> simp_all

theorem applyPairs_bounded {f : Nat → Nat → Nat × Nat}
    (hf : ∀ a b, a < W → b < W → (f a b).1 < W ∧ (f a b).2 < W)
    (ps : List (Nat × Nat)) :
    ∀ l : List Nat, (∀ w ∈ l, w < W) → ∀ w ∈ applyPairs f l ps, w < W := by
  induction ps with
  | nil => intro l hl; exact hl
  | cons p ps ih =>
    intro l hl
    rw [applyPairs_cons]
    apply ih
    intro w hw
    unfold upd2 at hw
    rcases List.mem_or_eq_of_mem_set hw with hw2 | hw2
    · rcases List.mem_or_eq_of_mem_set hw2 with hw3 | hw3
      · exact hl _ hw3
      · rw [hw3]
        exact (hf _ _ (getD_lt_W hl _) (getD_lt_W hl _)).1
    · rw [hw2]
      exact (hf _ _ (getD_lt_W hl _) (getD_lt_W hl _)).2

/-! ### flip_inplace: pointwise characterization -/

theorem flip_inplace_num_vars (t : TruthTable) (i : Nat) :
    (flip_inplace t i).num_vars = t.num_vars := by
  unfold flip_inplace
  split_ifs <;> rfl

theorem flip_inplace_length (t : TruthTable) (i : Nat) :
    (flip_inplace t i).bits.length = t.bits.length := by
  unfold flip_inplace
  split_ifs <;> simp [applyPairs_length]

theorem flip_inplace_wf {t : TruthTable} (hwf : t.wf) (i : Nat) :
    (flip_inplace t i).wf := by
  refine ⟨?_, ?_⟩
  · rw [flip_inplace_length, flip_inplace_num_vars]
    exact hwf.1
  · unfold flip_inplace
    split_ifs
    · intro w hw
      rcases List.mem_or_eq_of_mem_set hw with h | h
      · exact hwf.2 _ h
      · rw [h]
        exact flip_word_lt _ _
    · intro w hw
      rcases List.mem_map.mp hw with ⟨w0, hw0, rfl⟩
      exact flip_word_lt _ _
    · exact applyPairs_bounded (fun a b ha hb => ⟨hb, ha⟩) _ _ hwf.2

theorem flip_inplace_tableBit {t : TruthTable} (hwf : t.wf) {i : Nat}
    (hi : i < t.num_vars) {x : Nat} (hx : x < 64 * t.bits.length) :
    tableBit (flip_inplace t i) x = tableBit t (x ^^^ 2 ^ i) := by
  unfold flip_inplace tableBit
  split_ifs with h1 h2
  · -- single word
    have hnv : t.num_vars ≤ 6 := by
      apply nv_le_six_of_num_blocks_one
      rw [← hwf.1, h1]
    have hi6 : i < 6 := by omega
    have hx64 : x < 64 := by
      rw [h1] at hx
      omega
    have hxd : x / 64 = 0 := Nat.div_eq_of_lt hx64
    have hxm : x % 64 = x := Nat.mod_eq_of_lt hx64
    have hxor64 : x ^^^ 2 ^ i < 64 := by
      rw [show (64:Nat) = 2 ^ 6 by norm_num] at hx64 ⊢
      exact xor_two_pow_lt hx64 hi6
    have hxd2 : (x ^^^ 2 ^ i) / 64 = 0 := Nat.div_eq_of_lt hxor64
    have hxm2 : (x ^^^ 2 ^ i) % 64 = x ^^^ 2 ^ i := Nat.mod_eq_of_lt hxor64
    simp only [hxd, hxm, hxd2, hxm2]
    rw [getD_set, if_pos ⟨rfl, by omega⟩, flip_word_testBit hi6]
    simp [hx64]
  · -- word-internal, multi-word
    have hk : x / 64 < t.bits.length := div64_lt hx
    have h2i : 2 ^ i < 64 := by
      rw [show (64:Nat) = 2 ^ 6 by norm_num]
      exact Nat.pow_lt_pow_right (by norm_num) h2
    rw [getD_map, if_pos hk, flip_word_testBit h2 _ (x % 64), xor_low_div x h2i,
      xor_low_mod x h2i]
    simp [mod64_lt]
  · -- whole-block swap regime
    have hnv : 6 < t.num_vars := by
      by_contra hc
      push_neg at hc
      rw [hwf.1, num_blocks_le_six hc] at h1
      exact h1 rfl
    have hlen : t.bits.length = 2 ^ (t.num_vars - 6) := by
      rw [hwf.1, num_blocks_gt_six hnv]
    have hi6 : 6 ≤ i := by omega
    have hdvd : 2 ^ (i - 6 + 1) ∣ t.bits.length := by
      rw [hlen]
      exact pow_dvd_pow 2 (by omega)
    have hk : x / 64 < t.bits.length := div64_lt hx
    have hdm := xor_high_div x hi6
    rcases hbit : (x / 64).testBit (i - 6) with hb | hb
    · -- block index in the lower half of its pair
      have hmem := pairsDouble_mem_low hdvd hk hbit
      have hpd := pairsDouble_pdisj t.bits.length (i - 6)
      obtain ⟨hb', ha', hb'', _, _⟩ := pairsDouble_endpoints hdvd hmem
      have hpair := applyPairs_getD_pair (fun a b => (b, a)) _ t.bits _ _ hpd hmem
        (by omega) hk hb''
      rw [hpair.1, hdm.1, hdm.2, xor_two_pow_of_testBit_false hbit]
    · -- block index in the upper half of its pair
      have hmem := pairsDouble_mem_high hdvd hk hbit
      have hpd := pairsDouble_pdisj t.bits.length (i - 6)
      obtain ⟨hb', ha', hb'', habit, _⟩ := pairsDouble_endpoints hdvd hmem
      have hge : 2 ^ (i - 6) ≤ x / 64 := ge_of_testBit_true hbit
      have hpair := applyPairs_getD_pair (fun a b => (b, a)) _ t.bits _ _ hpd hmem
        (by omega) ha' hk
      rw [hpair.2, hdm.1, hdm.2, xor_two_pow_of_testBit_true hbit]

/-! ### cofactor0/cofactor1: pointwise characterization -/

theorem pow_splitated {i : Nat} (hi : 6 ≤ i) : (2:Nat) ^ i = 64 * 2 ^ (i - 6) := by
  rw [show (64:Nat) = 2 ^ 6 by norm_num, ← pow_add]
  congr 1
  omega

theorem div64_mod64_of (a r : Nat) (hr : r < 64) :
    (64 * a + r) / 64 = a ∧ (64 * a + r) % 64 = r := by
  constructor
  · rw [Nat.mul_add_div (by norm_num), Nat.div_eq_of_lt hr, Nat.add_zero]
  · rw [Nat.mul_add_mod, Nat.mod_eq_of_lt hr]

theorem getD_eq_getElem {l : List Nat} {k : Nat} (h : k < l.length) :
    l.getD k 0 = l[k] := by
  rw [List.getD_eq_getElem?_getD, List.getElem?_eq_getElem h]
  rfl

theorem clearBit_low {x i : Nat} (hi : i < 6) :
    (clearBit x i) / 64 = x / 64 ∧ (clearBit x i) % 64 = clearBit (x % 64) i := by
  have h2i : 2 ^ i < 64 := by
    rw [show (64:Nat) = 2 ^ 6 by norm_num]
    exact Nat.pow_lt_pow_right (by norm_num) hi
  unfold clearBit
  rw [testBit_mod64 x hi]
  by_cases hb : x.testBit i = true
  · rw [if_pos hb, if_pos hb]
    exact ⟨xor_low_div x h2i, xor_low_mod x h2i⟩
  · rw [if_neg hb, if_neg hb]
    exact ⟨rfl, rfl⟩

theorem setBit_low {x i : Nat} (hi : i < 6) :
    (setBit x i) / 64 = x / 64 ∧ (setBit x i) % 64 = setBit (x % 64) i := by
  have h2i : 2 ^ i < 64 := by
    rw [show (64:Nat) = 2 ^ 6 by norm_num]
    exact Nat.pow_lt_pow_right (by norm_num) hi
  unfold setBit
  rw [testBit_mod64 x hi]
  by_cases hb : x.testBit i = true
  · rw [if_pos hb, if_pos hb]
    exact ⟨rfl, rfl⟩
  · rw [if_neg hb, if_neg hb]
    exact ⟨xor_low_div x h2i, xor_low_mod x h2i⟩

theorem testBit_eq_div64 (x : Nat) {i : Nat} (hi : 6 ≤ i) :
    x.testBit i = (x / 64).testBit (i - 6) := by
  rw [testBit_div64, show 6 + (i - 6) = i by omega]

theorem clearBit_high {x i : Nat} (hi : 6 ≤ i) :
    (clearBit x i) / 64 = clearBit (x / 64) (i - 6) ∧ (clearBit x i) % 64 = x % 64 := by
  unfold clearBit
  rw [← testBit_eq_div64 x hi]
  by_cases hb : x.testBit i = true
  · rw [if_pos hb, if_pos hb]
    exact (xor_high_div x hi)
  · rw [if_neg hb, if_neg hb]
    exact ⟨rfl, rfl⟩

theorem setBit_high {x i : Nat} (hi : 6 ≤ i) :
    (setBit x i) / 64 = setBit (x / 64) (i - 6) ∧ (setBit x i) % 64 = x % 64 := by
  unfold setBit
  rw [← testBit_eq_div64 x hi]
  by_cases hb : x.testBit i = true
  · rw [if_pos hb, if_pos hb]
    exact ⟨rfl, rfl⟩
  · rw [if_neg hb, if_neg hb]
    exact (xor_high_div x hi)

theorem cofactor0_inplace_num_vars (t : TruthTable) (i : Nat) :
    (cofactor0_inplace t i).num_vars = t.num_vars := by
  unfold cofactor0_inplace
  split_ifs <;> rfl

theorem cofactor0_inplace_length (t : TruthTable) (i : Nat) :
    (cofactor0_inplace t i).bits.length = t.bits.length := by
  unfold cofactor0_inplace
  split_ifs <;> simp [applyPairs_length]

theorem cofactor0_inplace_wf {t : TruthTable} (hwf : t.wf) (i : Nat) :
    (cofactor0_inplace t i).wf := by
  refine ⟨?_, ?_⟩
  · rw [cofactor0_inplace_length, cofactor0_inplace_num_vars]
    exact hwf.1
  · unfold cofactor0_inplace
    split_ifs
    · intro w hw
      rcases List.mem_map.mp hw with ⟨w0, hw0, rfl⟩
      exact cofactor0_word_lt _ _
    · exact applyPairs_bounded (fun a b ha hb => ⟨ha, ha⟩) _ _ hwf.2

theorem cofactor1_inplace_num_vars (t : TruthTable) (i : Nat) :
    (cofactor1_inplace t i).num_vars = t.num_vars := by
  unfold cofactor1_inplace
  split_ifs <;> rfl

theorem cofactor1_inplace_length (t : TruthTable) (i : Nat) :
    (cofactor1_inplace t i).bits.length = t.bits.length := by
  unfold cofactor1_inplace
  split_ifs <;> simp [applyPairs_length]

theorem cofactor1_inplace_wf {t : TruthTable} (hwf : t.wf) (i : Nat) :
    (cofactor1_inplace t i).wf := by
  refine ⟨?_, ?_⟩
  · rw [cofactor1_inplace_length, cofactor1_inplace_num_vars]
    exact hwf.1
  · unfold cofactor1_inplace
    split_ifs
    · intro w hw
      rcases List.mem_map.mp hw with ⟨w0, hw0, rfl⟩
      exact cofactor1_word_lt _ _
    · exact applyPairs_bounded (fun a b ha hb => ⟨hb, hb⟩) _ _ hwf.2

theorem cofactor0_inplace_tableBit {t : TruthTable} (hwf : t.wf) {i : Nat}
    (hi : i < t.num_vars) {x : Nat} (hx : x < 64 * t.bits.length) :
    tableBit (cofactor0_inplace t i) x = tableBit t (clearBit x i) := by
  unfold cofactor0_inplace tableBit
  split_ifs with h1
  · have hi6 : i < 6 := by
      rcases h1 with h | h
      · omega
      · exact h
    have hk : x / 64 < t.bits.length := div64_lt hx
    rw [getD_map, if_pos hk, cofactor0_word_testBit hi6 _ (x % 64),
      (clearBit_low hi6).1, (clearBit_low hi6).2]
    simp [mod64_lt]
  · push_neg at h1
    have hnv : 6 < t.num_vars := by omega
    have hi6 : 6 ≤ i := by omega
    have hlen : t.bits.length = 2 ^ (t.num_vars - 6) := by
      rw [hwf.1, num_blocks_gt_six hnv]
    have hdvd : 2 ^ (i - 6 + 1) ∣ t.bits.length := by
      rw [hlen]
      exact pow_dvd_pow 2 (by omega)
    have hk : x / 64 < t.bits.length := div64_lt hx
    have hdm := clearBit_high (x := x) hi6
    rw [hdm.1, hdm.2]
    rcases hbit : (x / 64).testBit (i - 6) with hb | hb
    · have hmem := pairsDouble_mem_low hdvd hk hbit
      have hpd := pairsDouble_pdisj t.bits.length (i - 6)
      obtain ⟨hb', ha', hb'', _, _⟩ := pairsDouble_endpoints hdvd hmem
      have hpair := applyPairs_getD_pair (fun a _b => (a, a)) _ t.bits _ _ hpd hmem
        (by omega) hk hb''
      rw [hpair.1]
      unfold clearBit
      rw [hbit]
      simp
    · have hmem := pairsDouble_mem_high hdvd hk hbit
      have hpd := pairsDouble_pdisj t.bits.length (i - 6)
      obtain ⟨hb', ha', hb'', habit, _⟩ := pairsDouble_endpoints hdvd hmem
      have hge : 2 ^ (i - 6) ≤ x / 64 := ge_of_testBit_true hbit
      have hpair := applyPairs_getD_pair (fun a _b => (a, a)) _ t.bits _ _ hpd hmem
        (by omega) ha' hk
      rw [hpair.2]
      unfold clearBit
      rw [hbit, xor_two_pow_of_testBit_true hbit]
      simp

theorem cofactor1_inplace_tableBit {t : TruthTable} (hwf : t.wf) {i : Nat}
    (hi : i < t.num_vars) {x : Nat} (hx : x < 64 * t.bits.length) :
    tableBit (cofactor1_inplace t i) x = tableBit t (setBit x i) := by
  unfold cofactor1_inplace tableBit
  split_ifs with h1
  · have hi6 : i < 6 := by
      rcases h1 with h | h
      · omega
      · exact h
    have hk : x / 64 < t.bits.length := div64_lt hx
    rw [getD_map, if_pos hk, cofactor1_word_testBit hi6 _ (x % 64),
      (setBit_low hi6).1, (setBit_low hi6).2]
    simp [mod64_lt]
  · push_neg at h1
    have hnv : 6 < t.num_vars := by omega
    have hi6 : 6 ≤ i := by omega
    have hlen : t.bits.length = 2 ^ (t.num_vars - 6) := by
      rw [hwf.1, num_blocks_gt_six hnv]
    have hdvd : 2 ^ (i - 6 + 1) ∣ t.bits.length := by
      rw [hlen]
      exact pow_dvd_pow 2 (by omega)
    have hk : x / 64 < t.bits.length := div64_lt hx
    have hdm := setBit_high (x := x) hi6
    rw [hdm.1, hdm.2]
    rcases hbit : (x / 64).testBit (i - 6) with hb | hb
    · have hmem := pairsDouble_mem_low hdvd hk hbit
      have hpd := pairsDouble_pdisj t.bits.length (i - 6)
      obtain ⟨hb', ha', hb'', _, _⟩ := pairsDouble_endpoints hdvd hmem
      have hpair := applyPairs_getD_pair (fun _a b => (b, b)) _ t.bits _ _ hpd hmem
        (by omega) hk hb''
      rw [hpair.1]
      unfold setBit
      rw [hbit, xor_two_pow_of_testBit_false hbit]
      simp
    · have hmem := pairsDouble_mem_high hdvd hk hbit
      have hpd := pairsDouble_pdisj t.bits.length (i - 6)
      obtain ⟨hb', ha', hb'', habit, _⟩ := pairsDouble_endpoints hdvd hmem
      have hge : 2 ^ (i - 6) ≤ x / 64 := ge_of_testBit_true hbit
      have hpair := applyPairs_getD_pair (fun _a b => (b, b)) _ t.bits _ _ hpd hmem
        (by omega) ha' hk
      rw [hpair.2]
      unfold setBit
      rw [hbit]
      simp

/-! ### swap_adjacent_inplace: pointwise characterization -/

theorem swapBits_of_eq {x i j : Nat} (h : x.testBit i = x.testBit j) :
    swapBits x i j = x := by
  unfold swapBits
  rw [if_pos h]

theorem swapBits_div64_low {x i j : Nat} (hi : i < 6) (hj : j < 6) :
    (swapBits x i j) / 64 = x / 64 ∧ (swapBits x i j) % 64 = swapBits (x % 64) i j := by
  unfold swapBits
  rw [testBit_mod64 x hi, testBit_mod64 x hj]
  by_cases hb : x.testBit i = x.testBit j
  · rw [if_pos hb, if_pos hb]
    exact ⟨rfl, rfl⟩
  · rw [if_neg hb, if_neg hb]
    have hc : 2 ^ i ||| 2 ^ j < 64 := by
      rw [show (64:Nat) = 2 ^ 6 by norm_num]
      exact lor_lt_two_pow (Nat.pow_lt_pow_right (by norm_num) hi)
        (Nat.pow_lt_pow_right (by norm_num) hj)
    exact ⟨xor_low_div x hc, xor_low_mod x hc⟩

theorem swapBits_div64_high {x i j : Nat} (hi : 6 ≤ i) (hj : 6 ≤ j) (hij : i ≠ j) :
    (swapBits x i j) / 64 = swapBits (x / 64) (i - 6) (j - 6) ∧
    (swapBits x i j) % 64 = x % 64 := by
  unfold swapBits
  rw [← testBit_eq_div64 x hi, ← testBit_eq_div64 x hj]
  by_cases hb : x.testBit i = x.testBit j
  · rw [if_pos hb, if_pos hb]
    exact ⟨rfl, rfl⟩
  · rw [if_neg hb, if_neg hb, xor_lor_two_pow hij,
      xor_lor_two_pow (show i - 6 ≠ j - 6 by omega)]
    constructor
    · rw [(xor_high_div _ hj).1, (xor_high_div x hi).1]
    · rw [(xor_high_div _ hj).2, (xor_high_div x hi).2]

theorem testBit5_eq {r : Nat} (hr : r < 64) : r.testBit 5 = decide (32 ≤ r) := by
  by_cases h : 32 ≤ r
  · rw [testBit_true_of_range (by norm_num; omega) (by norm_num; omega)]
    simp [h]
  · rw [Nat.testBit_lt_two_pow (by norm_num; omega)]
    simp [h]

theorem swap_adjacent_inplace_num_vars (t : TruthTable) (i : Nat) :
    (swap_adjacent_inplace t i).num_vars = t.num_vars := by
  unfold swap_adjacent_inplace
  split_ifs <;> rfl

theorem swap_adjacent_inplace_length (t : TruthTable) (i : Nat) :
    (swap_adjacent_inplace t i).bits.length = t.bits.length := by
  unfold swap_adjacent_inplace
  split_ifs <;> simp [applyPairs_length]

theorem swap_adjacent_inplace_wf {t : TruthTable} (hwf : t.wf) (i : Nat) :
    (swap_adjacent_inplace t i).wf := by
  refine ⟨?_, ?_⟩
  · rw [swap_adjacent_inplace_length, swap_adjacent_inplace_num_vars]
    exact hwf.1
  · unfold swap_adjacent_inplace
    split_ifs
    · intro w hw
      rcases List.mem_map.mp hw with ⟨w0, hw0, rfl⟩
      exact swap_adjacent_word_lt _ _
    · exact applyPairs_bounded
        (fun a b ha hb => ⟨swap_adjacent_half_fst_lt a b, swap_adjacent_half_snd_lt ha b⟩)
        _ _ hwf.2
    · exact applyPairs_bounded (fun a b ha hb => ⟨hb, ha⟩) _ _ hwf.2

theorem swap_adjacent_inplace_tableBit {t : TruthTable} (hwf : t.wf) {i : Nat}
    (hi : i + 1 < t.num_vars) {x : Nat} (hx : x < 64 * t.bits.length) :
    tableBit (swap_adjacent_inplace t i) x = tableBit t (swapBits x i (i + 1)) := by
  have hk : x / 64 < t.bits.length := div64_lt hx
  unfold swap_adjacent_inplace tableBit
  split_ifs with h1 h2
  · -- i < 5 : masked shuffle inside each word
    have hlow := swapBits_div64_low (x := x) (show i < 6 by omega) (show i + 1 < 6 by omega)
    rw [getD_map, if_pos hk, swap_adjacent_word_eq,
      swap_word_testBit (Nat.lt_succ_self i) (by omega) _ (x % 64), hlow.1, hlow.2]
    simp [mod64_lt]
  · -- i = 5 : exchange word halves across even/odd word pairs
    subst h2
    have hnv : 6 < t.num_vars := by omega
    have hlen : t.bits.length = 2 ^ (t.num_vars - 6) := by
      rw [hwf.1, num_blocks_gt_six hnv]
    have hdvd : 2 ^ (0 + 1) ∣ t.bits.length := by
      rw [hlen]
      exact pow_dvd_pow 2 (by omega)
    have hpd : PDisjoint (pairsDouble t.bits.length 1) := by
      have := pairsDouble_pdisj t.bits.length 0
      simpa using this
    have hb5 : x.testBit 5 = (x % 64).testBit 5 := (testBit_mod64 x (by norm_num)).symm
    have hb6 : x.testBit 6 = (x / 64).testBit 0 := by
      rw [testBit_eq_div64 x (by norm_num)]
    have hr64 : x % 64 < 64 := mod64_lt x
    have hxeq : 64 * (x / 64) + x % 64 = x := by
      have := Nat.div_add_mod x 64
      omega
    rcases hbit : (x / 64).testBit 0 with hb | hb
    · have hmem : (x / 64, x / 64 + 1) ∈ pairsDouble t.bits.length 1 := by
        have := pairsDouble_mem_low (v := 0) hdvd hk hbit
        simpa using this
      obtain ⟨hbeq, ha', hb'', _, _⟩ := pairsDouble_endpoints (v := 0) hdvd
        (by simpa using hmem)
      have hpair := applyPairs_getD_pair swap_adjacent_half _ t.bits _ _ hpd hmem
        (by omega) hk (by simpa using hb'')
      rw [hpair.1, swap_adjacent_half_fst_testBit]
      by_cases hr : 32 ≤ x % 64
      · -- bits (1, 0) : index moves up by 32
        have hx5 : x.testBit 5 = true := by
          rw [hb5, testBit5_eq hr64]
          simp [hr]
        have hx6 : x.testBit 6 = false := by rw [hb6, hbit]
        have hsb : swapBits x 5 6 = x + 32 := by
          rw [swapBits_eq_add (by norm_num) hx5 hx6]
          norm_num
        have hplus : x + 32 = 64 * (x / 64 + 1) + (x % 64 - 32) := by omega
        rw [hsb, hplus, (div64_mod64_of _ _ (by omega)).1, (div64_mod64_of _ _ (by omega)).2]
        simp [hr64, hr]
      · -- bits (0, 0) : untouched
        have hx5 : x.testBit 5 = false := by
          rw [hb5, testBit5_eq hr64]
          simp [hr]
        have hsb : swapBits x 5 6 = x := swapBits_of_eq (by rw [hx5, hb6, hbit])
        rw [hsb]
        simp [hr64, hr]
    · have hge1 : 1 ≤ x / 64 := by
        have := ge_of_testBit_true hbit
        simpa using this
      have hmem : (x / 64 - 1, x / 64) ∈ pairsDouble t.bits.length 1 := by
        have := pairsDouble_mem_high (v := 0) hdvd hk hbit
        simpa using this
      obtain ⟨hbeq, ha', hb'', _, _⟩ := pairsDouble_endpoints (v := 0) hdvd
        (by simpa using hmem)
      have hpair := applyPairs_getD_pair swap_adjacent_half _ t.bits _ _ hpd hmem
        (by omega) (by simpa using ha') hk
      rw [hpair.2, swap_adjacent_half_snd_testBit (getD_lt_W hwf.2 _)]
      by_cases hr : 32 ≤ x % 64
      · -- bits (1, 1) : untouched
        have hx5 : x.testBit 5 = true := by
          rw [hb5, testBit5_eq hr64]
          simp [hr]
        have hx6 : x.testBit 6 = true := by rw [hb6, hbit]
        have hsb : swapBits x 5 6 = x := swapBits_of_eq (by rw [hx5, hx6])
        rw [hsb]
        simp [hr64, hr]
      · -- bits (0, 1) : index moves down by 32
        have hx5 : x.testBit 5 = false := by
          rw [hb5, testBit5_eq hr64]
          simp [hr]
        have hx6 : x.testBit 6 = true := by rw [hb6, hbit]
        have hsb : swapBits x 5 6 = x - 32 := by
          rw [swapBits_eq_sub (by norm_num) hx5 hx6]
          norm_num
        have hminus : x - 32 = 64 * (x / 64 - 1) + (x % 64 + 32) := by omega
        rw [hsb, hminus, (div64_mod64_of _ _ (by omega)).1, (div64_mod64_of _ _ (by omega)).2]
        simp [hr64, hr]
  · -- i > 5 : whole blocks swapped pairwise
    have hi6 : 6 ≤ i := by omega
    have hnv : 6 < t.num_vars := by omega
    have hlen : t.bits.length = 2 ^ (t.num_vars - 6) := by
      rw [hwf.1, num_blocks_gt_six hnv]
    have hdvd : 2 ^ (i - 6 + 2) ∣ t.bits.length := by
      rw [hlen]
      exact pow_dvd_pow 2 (by omega)
    have hpd : PDisjoint (pairsAdj t.bits.length (2 ^ (i - 6))) := pairsAdj_pdisj hdvd
    have hbv : x.testBit i = (x / 64).testBit (i - 6) := testBit_eq_div64 x hi6
    have hbv1 : x.testBit (i + 1) = (x / 64).testBit (i - 6 + 1) := by
      rw [testBit_eq_div64 x (show 6 ≤ i + 1 by omega), show i + 1 - 6 = i - 6 + 1 by omega]
    have hxeq : 64 * (x / 64) + x % 64 = x := by
      have := Nat.div_add_mod x 64
      omega
    have hr64 : x % 64 < 64 := mod64_lt x
    rcases hc1 : (x / 64).testBit (i - 6) with hu | hu <;>
      rcases hc2 : (x / 64).testBit (i - 6 + 1) with hv | hv
    · -- block bits (0,0) : untouched
      have hother := pairsAdj_not_endpoint hdvd (k := x / 64) (by rw [hc1, hc2])
      rw [applyPairs_getD_other _ _ _ _ (fun p hp => hother p hp),
        swapBits_of_eq (by rw [hbv, hbv1, hc1, hc2])]
    · -- block bits (0,1) : index moves down by 2^i
      have hmem := pairsAdj_mem_high hdvd hk hc1 hc2
      obtain ⟨hbeq, ha', hb'', _, _, _, _⟩ := pairsAdj_endpoints hdvd hmem
      have hge : 2 ^ (i - 6) ≤ x / 64 := by
        have h := ge_of_testBit_true hc2
        have h2 : 2 ^ (i - 6) ≤ 2 ^ (i - 6 + 1) := Nat.pow_le_pow_right (by norm_num) (by omega)
        exact le_trans h2 h
      have hpow0 : 0 < 2 ^ (i - 6) := Nat.two_pow_pos _
      have hpair := applyPairs_getD_pair (fun a b => (b, a)) _ t.bits _ _ hpd hmem
        (by omega) ha' hk
      rw [hpair.2]
      have hx1 : x.testBit i = false := by rw [hbv, hc1]
      have hx2 : x.testBit (i + 1) = true := by rw [hbv1, hc2]
      have hsb : swapBits x i (i + 1) = x - 2 ^ i := by
        rw [swapBits_eq_sub (Nat.lt_succ_self i) hx1 hx2]
        congr 1
        rw [pow_succ]
        omega
      have hminus : x - 2 ^ i = 64 * (x / 64 - 2 ^ (i - 6)) + x % 64 := by
        rw [pow_splitated hi6]
        have h2 : 64 * (x / 64 - 2 ^ (i - 6)) = 64 * (x / 64) - 64 * 2 ^ (i - 6) :=
          Nat.mul_sub 64 (x / 64) (2 ^ (i - 6))
        have h3 : 64 * 2 ^ (i - 6) ≤ 64 * (x / 64) := Nat.mul_le_mul_left 64 hge
        omega
      rw [hsb, hminus, (div64_mod64_of _ _ hr64).1, (div64_mod64_of _ _ hr64).2]
    · -- block bits (1,0) : index moves up by 2^i
      have hmem := pairsAdj_mem_low hdvd hk hc1 hc2
      obtain ⟨hbeq, ha', hb'', _, _, _, _⟩ := pairsAdj_endpoints hdvd hmem
      have hpow0 : 0 < 2 ^ (i - 6) := Nat.two_pow_pos _
      have hpair := applyPairs_getD_pair (fun a b => (b, a)) _ t.bits _ _ hpd hmem
        (by omega) hk hb''
      rw [hpair.1]
      have hx1 : x.testBit i = true := by rw [hbv, hc1]
      have hx2 : x.testBit (i + 1) = false := by rw [hbv1, hc2]
      have hsb : swapBits x i (i + 1) = x + 2 ^ i := by
        rw [swapBits_eq_add (Nat.lt_succ_self i) hx1 hx2]
        congr 1
        rw [pow_succ]
        omega
      have hplus : x + 2 ^ i = 64 * (x / 64 + 2 ^ (i - 6)) + x % 64 := by
        rw [pow_splitated hi6]
        have h2 : 64 * (x / 64 + 2 ^ (i - 6)) = 64 * (x / 64) + 64 * 2 ^ (i - 6) := by ring
        omega
      rw [hsb, hplus, (div64_mod64_of _ _ hr64).1, (div64_mod64_of _ _ hr64).2]
    · -- block bits (1,1) : untouched
      have hother := pairsAdj_not_endpoint hdvd (k := x / 64) (by rw [hc1, hc2])
      rw [applyPairs_getD_other _ _ _ _ (fun p hp => hother p hp),
        swapBits_of_eq (by rw [hbv, hbv1, hc1, hc2])]

/-! ### swap_inplace: pointwise characterization -/

theorem swap_inplace_comm (t : TruthTable) (i j : Nat) :
    swap_inplace t i j = swap_inplace t j i := by
  by_cases heq : i = j
  · subst heq
    rfl
  · have heq2 : ¬ j = i := fun h => heq h.symm
    unfold swap_inplace
    rw [if_neg heq, if_neg heq2, Nat.min_comm j i, Nat.max_comm j i]

theorem swap_inplace_num_vars (t : TruthTable) (i j : Nat) :
    (swap_inplace t i j).num_vars = t.num_vars := by
  unfold swap_inplace
  dsimp only
  split_ifs <;> rfl

theorem swap_inplace_length (t : TruthTable) (i j : Nat) :
    (swap_inplace t i j).bits.length = t.bits.length := by
  unfold swap_inplace
  dsimp only
  split_ifs <;> simp [applyPairs_length]

theorem swap_inplace_wf {t : TruthTable} (hwf : t.wf) (i j : Nat) :
    (swap_inplace t i j).wf := by
  refine ⟨?_, ?_⟩
  · rw [swap_inplace_length, swap_inplace_num_vars]
    exact hwf.1
  · unfold swap_inplace
    dsimp only
    split_ifs
    · exact hwf.2
    · intro w hw
      rcases List.mem_or_eq_of_mem_set hw with h | h
      · exact hwf.2 _ h
      · rw [h]
        exact swap_word_lt _ _ _
    · intro w hw
      rcases List.mem_map.mp hw with ⟨w0, hw0, rfl⟩
      exact swap_word_lt _ _ _
    · exact applyPairs_bounded
        (fun a b ha hb => ⟨swap_r3_fst_lt ha b, swap_r3_snd_lt hb a⟩) _ _ hwf.2
    · exact applyPairs_bounded (fun a b ha hb => ⟨hb, ha⟩) _ _ hwf.2

theorem swap_inplace_tableBit_aux {t : TruthTable} (hwf : t.wf) {i j : Nat}
    (hij : i < j) (hj : j < t.num_vars) {x : Nat} (hx : x < 64 * t.bits.length) :
    tableBit (swap_inplace t i j) x = tableBit t (swapBits x i j) := by
  have hk : x / 64 < t.bits.length := div64_lt hx
  have hr64 : x % 64 < 64 := mod64_lt x
  have hxeq : 64 * (x / 64) + x % 64 = x := by
    have := Nat.div_add_mod x 64
    omega
  unfold swap_inplace tableBit
  rw [if_neg (show ¬ i = j by omega), min_eq_left (le_of_lt hij),
    max_eq_right (le_of_lt hij)]
  dsimp only
  split_ifs with h1 h2 h3
  · -- regime 1: single word
    have hlen1 : t.bits.length = 1 := by
      rw [hwf.1, num_blocks_le_six h1]
    have hx64 : x < 64 := by
      rw [hlen1] at hx
      omega
    have hj6 : j < 6 := by omega
    have hxd : x / 64 = 0 := Nat.div_eq_of_lt hx64
    have hxm : x % 64 = x := Nat.mod_eq_of_lt hx64
    have hxor64 : swapBits x i j < 64 := by
      rw [show (64:Nat) = 2 ^ 6 by norm_num] at hx64 ⊢
      exact swapBits_lt hx64 (by omega) (by omega)
    have hxd2 : swapBits x i j / 64 = 0 := Nat.div_eq_of_lt hxor64
    have hxm2 : swapBits x i j % 64 = swapBits x i j := Nat.mod_eq_of_lt hxor64
    simp only [hxd, hxm, hxd2, hxm2]
    rw [getD_set, if_pos ⟨rfl, by omega⟩, swap_word_testBit hij hj6]
    simp [hx64]
  · -- regime 2: word-internal, multi-word
    have hlow := swapBits_div64_low (x := x) (show i < 6 by omega) (show j < 6 by omega)
    rw [getD_map, if_pos hk, swap_word_testBit hij (by omega) _ (x % 64),
      hlow.1, hlow.2]
    simp [mod64_lt]
  · -- regime 3: i inside a word, j across blocks
    have hi6 : i < 6 := by omega
    have hj6 : 6 ≤ j := by omega
    have hnv : 6 < t.num_vars := by omega
    have hlen : t.bits.length = 2 ^ (t.num_vars - 6) := by
      rw [hwf.1, num_blocks_gt_six hnv]
    have hdvd : 2 ^ (j - 6 + 1) ∣ t.bits.length := by
      rw [hlen]
      exact pow_dvd_pow 2 (by omega)
    have hpd := pairsDouble_pdisj t.bits.length (j - 6)
    have hbi : x.testBit i = (x % 64).testBit i := (testBit_mod64 x hi6).symm
    have hbj : x.testBit j = (x / 64).testBit (j - 6) := testBit_eq_div64 x hj6
    have hpow0 : 0 < 2 ^ (j - 6) := Nat.two_pow_pos _
    have hpowij : 2 ^ i < 2 ^ j := Nat.pow_lt_pow_right (by norm_num) hij
    have hjsplit : (2:Nat) ^ j = 64 * 2 ^ (j - 6) := pow_splitated hj6
    rcases hbit : (x / 64).testBit (j - 6) with hb | hb
    · -- j-bit of the index is 0: this word is the low half of its pair
      have hmem := pairsDouble_mem_low hdvd hk hbit
      obtain ⟨hbeq, ha', hb'', _, _⟩ := pairsDouble_endpoints hdvd hmem
      have hpair := applyPairs_getD_pair (swap_r3_pair i) _ t.bits _ _ hpd hmem
        (by omega) hk hb''
      rw [hpair.1, swap_r3_fst_testBit hi6]
      rcases hrbit : (x % 64).testBit i with hrb | hrb
      · -- bits (0,0): untouched
        have hsb : swapBits x i j = x := swapBits_of_eq (by rw [hbi, hbj, hrbit, hbit])
        rw [hsb]
        simp [hr64, hrbit]
      · -- bits (1,0): index moves up
        have hx1 : x.testBit i = true := by rw [hbi, hrbit]
        have hx2 : x.testBit j = false := by rw [hbj, hbit]
        have hri : 2 ^ i ≤ x % 64 := ge_of_testBit_true hrbit
        have hsb : swapBits x i j = x + (2 ^ j - 2 ^ i) := swapBits_eq_add hij hx1 hx2
        have hplus : x + (2 ^ j - 2 ^ i) = 64 * (x / 64 + 2 ^ (j - 6)) + (x % 64 - 2 ^ i) := by
          have h2 : 64 * (x / 64 + 2 ^ (j - 6)) = 64 * (x / 64) + 64 * 2 ^ (j - 6) := by ring
          omega
        have hrm : x % 64 - 2 ^ i < 64 := lt_of_le_of_lt (Nat.sub_le _ _) hr64
        rw [hsb, hplus, (div64_mod64_of _ _ hrm).1, (div64_mod64_of _ _ hrm).2]
        simp [hr64, hrbit]
    · -- j-bit of the index is 1: this word is the high half of its pair
      have hmem := pairsDouble_mem_high hdvd hk hbit
      obtain ⟨hbeq, ha', hb'', _, _⟩ := pairsDouble_endpoints hdvd hmem
      have hgek : 2 ^ (j - 6) ≤ x / 64 := ge_of_testBit_true hbit
      have hpair := applyPairs_getD_pair (swap_r3_pair i) _ t.bits _ _ hpd hmem
        (by omega) ha' hk
      rw [hpair.2, swap_r3_snd_testBit hi6]
      rcases hrbit : (x % 64).testBit i with hrb | hrb
      · -- bits (0,1): index moves down
        have hx1 : x.testBit i = false := by rw [hbi, hrbit]
        have hx2 : x.testBit j = true := by rw [hbj, hbit]
        have hrlt : x % 64 + 2 ^ i < 64 := by
          rw [show (64:Nat) = 2 ^ 6 by norm_num] at hr64 ⊢
          exact add_two_pow_lt hr64 hi6 hrbit
        have hsb : swapBits x i j = x - (2 ^ j - 2 ^ i) := swapBits_eq_sub hij hx1 hx2
        have hminus : x - (2 ^ j - 2 ^ i) = 64 * (x / 64 - 2 ^ (j - 6)) + (x % 64 + 2 ^ i) := by
          have hjx : 2 ^ j ≤ x := ge_of_testBit_true hx2
          have e1 : x - (2 ^ j - 2 ^ i) = x - 2 ^ j + 2 ^ i :=
            tsub_tsub_assoc hjx (le_of_lt hpowij)
          have h2 : 64 * (x / 64 - 2 ^ (j - 6)) = 64 * (x / 64) - 64 * 2 ^ (j - 6) :=
            Nat.mul_sub 64 _ _
          have h3 : 64 * 2 ^ (j - 6) ≤ 64 * (x / 64) := Nat.mul_le_mul_left 64 hgek
          have e2 : x - 2 ^ j = 64 * (x / 64 - 2 ^ (j - 6)) + x % 64 := by
            rw [hjsplit, h2]
            omega
          rw [e1, e2]
          omega
        rw [hsb, hminus, (div64_mod64_of _ _ hrlt).1, (div64_mod64_of _ _ hrlt).2]
        simp [hr64, hrbit]
      · -- bits (1,1): untouched
        have hsb : swapBits x i j = x := swapBits_of_eq (by rw [hbi, hbj, hrbit, hbit])
        rw [hsb]
        simp [hr64, hrbit]
  · -- regime 4: both across blocks
    have hi6 : 6 ≤ i := by omega
    have hj6 : 6 ≤ j := by omega
    have hnv : 6 < t.num_vars := by omega
    have hv12 : i - 6 < j - 6 := by omega
    have hlen : t.bits.length = 2 ^ (t.num_vars - 6) := by
      rw [hwf.1, num_blocks_gt_six hnv]
    have hdvd : 2 ^ (j - 6 + 1) ∣ t.bits.length := by
      rw [hlen]
      exact pow_dvd_pow 2 (by omega)
    have hpd := pairsR4_pdisj hv12 hdvd
    have hbi : x.testBit i = (x / 64).testBit (i - 6) := testBit_eq_div64 x hi6
    have hbj : x.testBit j = (x / 64).testBit (j - 6) := testBit_eq_div64 x hj6
    have hpow1 : 0 < 2 ^ (i - 6) := Nat.two_pow_pos _
    have hpowv : 2 ^ (i - 6) < 2 ^ (j - 6) := Nat.pow_lt_pow_right (by norm_num) hv12
    have hisplit : (2:Nat) ^ i = 64 * 2 ^ (i - 6) := pow_splitated hi6
    have hjsplit : (2:Nat) ^ j = 64 * 2 ^ (j - 6) := pow_splitated hj6
    have hDsplit : (2:Nat) ^ j - 2 ^ i = 64 * (2 ^ (j - 6) - 2 ^ (i - 6)) := by
      rw [Nat.mul_sub 64 _ _, ← hisplit, ← hjsplit]
    rcases hc1 : (x / 64).testBit (i - 6) with hu | hu <;>
      rcases hc2 : (x / 64).testBit (j - 6) with hv | hv
    · -- block bits (0,0): untouched
      have hother := pairsR4_not_endpoint hv12 hdvd (k := x / 64) (by rw [hc1, hc2])
      rw [applyPairs_getD_other _ _ _ _ (fun p hp => hother p hp),
        swapBits_of_eq (by rw [hbi, hbj, hc1, hc2])]
    · -- block bits (0,1): index moves down
      have hmem := pairsR4_mem_high hv12 hdvd hk hc1 hc2
      obtain ⟨hbeq, ha', hb'', _, _, _, _⟩ := pairsR4_endpoints hv12 hdvd hmem
      have hgek : 2 ^ (j - 6) ≤ x / 64 := ge_of_testBit_true hc2
      have hpair := applyPairs_getD_pair (fun a b => (b, a)) _ t.bits _ _ hpd hmem
        (by omega) ha' hk
      rw [hpair.2]
      have hx1 : x.testBit i = false := by rw [hbi, hc1]
      have hx2 : x.testBit j = true := by rw [hbj, hc2]
      have hsb : swapBits x i j = x - (2 ^ j - 2 ^ i) := swapBits_eq_sub (by omega) hx1 hx2
      have hminus : x - (2 ^ j - 2 ^ i) =
          64 * (x / 64 - (2 ^ (j - 6) - 2 ^ (i - 6))) + x % 64 := by
        rw [hDsplit]
        have h2 : 64 * (x / 64 - (2 ^ (j - 6) - 2 ^ (i - 6))) =
            64 * (x / 64) - 64 * (2 ^ (j - 6) - 2 ^ (i - 6)) := Nat.mul_sub 64 _ _
        have h3 : 64 * (2 ^ (j - 6) - 2 ^ (i - 6)) ≤ 64 * (x / 64) := by
          apply Nat.mul_le_mul_left
          omega
        omega
      rw [hsb, hminus, (div64_mod64_of _ _ hr64).1, (div64_mod64_of _ _ hr64).2]
    · -- block bits (1,0): index moves up
      have hmem := pairsR4_mem_low hv12 hdvd hk hc1 hc2
      obtain ⟨hbeq, ha', hb'', _, _, _, _⟩ := pairsR4_endpoints hv12 hdvd hmem
      have hpair := applyPairs_getD_pair (fun a b => (b, a)) _ t.bits _ _ hpd hmem
        (by omega) hk hb''
      rw [hpair.1]
      have hx1 : x.testBit i = true := by rw [hbi, hc1]
      have hx2 : x.testBit j = false := by rw [hbj, hc2]
      have hsb : swapBits x i j = x + (2 ^ j - 2 ^ i) := swapBits_eq_add (by omega) hx1 hx2
      have hplus : x + (2 ^ j - 2 ^ i) =
          64 * (x / 64 + (2 ^ (j - 6) - 2 ^ (i - 6))) + x % 64 := by
        rw [hDsplit]
        have h2 : 64 * (x / 64 + (2 ^ (j - 6) - 2 ^ (i - 6))) =
            64 * (x / 64) + 64 * (2 ^ (j - 6) - 2 ^ (i - 6)) := by ring
        omega
      rw [hsb, hplus, (div64_mod64_of _ _ hr64).1, (div64_mod64_of _ _ hr64).2]
    · -- block bits (1,1): untouched
      have hother := pairsR4_not_endpoint hv12 hdvd (k := x / 64) (by rw [hc1, hc2])
      rw [applyPairs_getD_other _ _ _ _ (fun p hp => hother p hp),
        swapBits_of_eq (by rw [hbi, hbj, hc1, hc2])]

theorem swap_inplace_tableBit {t : TruthTable} (hwf : t.wf) {i j : Nat}
    (hi : i < t.num_vars) (hj : j < t.num_vars) {x : Nat} (hx : x < 64 * t.bits.length) :
    tableBit (swap_inplace t i j) x = tableBit t (swapBits x i j) := by
  rcases lt_trichotomy i j with h | h | h
  · exact swap_inplace_tableBit_aux hwf h hj hx
  · subst h
    have h1 : swap_inplace t i i = t := by
      unfold swap_inplace
      rw [if_pos rfl]
    rw [h1, swapBits_of_eq rfl]
  · rw [swap_inplace_comm, swapBits_comm]
    exact swap_inplace_tableBit_aux hwf h hi hx

/-! ### Storage-range helpers and table extensionality -/

theorem storage_eq_pow {t : TruthTable} (hwf : t.wf) :
    64 * t.bits.length = 2 ^ max 6 t.num_vars := by
  rcases le_or_lt t.num_vars 6 with h | h
  · rw [hwf.1, num_blocks_le_six h, Nat.max_eq_left h]
    norm_num
  · rw [storage_bits_eq hwf h, Nat.max_eq_right (le_of_lt h)]

theorem xorIdx_lt_storage {t : TruthTable} (hwf : t.wf) {i x : Nat}
    (hi : i < t.num_vars) (hx : x < 64 * t.bits.length) :
    x ^^^ 2 ^ i < 64 * t.bits.length := by
  rw [storage_eq_pow hwf] at hx ⊢
  exact xor_two_pow_lt hx (lt_of_lt_of_le hi (le_max_right 6 t.num_vars))

theorem swapBitsIdx_lt_storage {t : TruthTable} (hwf : t.wf) {i j x : Nat}
    (hi : i < t.num_vars) (hj : j < t.num_vars) (hx : x < 64 * t.bits.length) :
    swapBits x i j < 64 * t.bits.length := by
  rw [storage_eq_pow hwf] at hx ⊢
  exact swapBits_lt hx (lt_of_lt_of_le hi (le_max_right 6 t.num_vars))
    (lt_of_lt_of_le hj (le_max_right 6 t.num_vars))

theorem clearBitIdx_lt_storage {t : TruthTable} (hwf : t.wf) (i : Nat) {x : Nat}
    (hx : x < 64 * t.bits.length) :
    clearBit x i < 64 * t.bits.length := by
  rw [storage_eq_pow hwf] at hx ⊢
  exact clearBit_lt i hx

theorem setBitIdx_lt_storage {t : TruthTable} (hwf : t.wf) {i x : Nat}
    (hi : i < t.num_vars) (hx : x < 64 * t.bits.length) :
    setBit x i < 64 * t.bits.length := by
  rw [storage_eq_pow hwf] at hx ⊢
  exact setBit_lt hx (lt_of_lt_of_le hi (le_max_right 6 t.num_vars))

/-- Tables with the same dimensions, in-range words, and identical logical
bits over the whole storage are equal. -/
theorem tableBit_ext {t u : TruthTable} (hnv : t.num_vars = u.num_vars)
    (hlen : t.bits.length = u.bits.length)
    (ht : ∀ w ∈ t.bits, w < W) (hu : ∀ w ∈ u.bits, w < W)
    (h : ∀ x, x < 64 * t.bits.length → tableBit t x = tableBit u x) : t = u := by
  have hbits : t.bits = u.bits := by
    apply List.ext_getElem hlen
    intro n h1 h2
    apply Nat.eq_of_testBit_eq
    intro k
    by_cases hk : k < 64
    · have hx : 64 * n + k < 64 * t.bits.length := by
        have h3 : 64 * (n + 1) ≤ 64 * t.bits.length := Nat.mul_le_mul_left 64 h1
        omega
      have h3 := h (64 * n + k) hx
      unfold tableBit at h3
      have hd : (64 * n + k) / 64 = n := by omega
      have hm : (64 * n + k) % 64 = k := by omega
      rw [hd, hm, getD_eq_getElem h1, getD_eq_getElem h2] at h3
      exact h3
    · rw [testBit_high_of_lt (ht _ (List.getElem_mem h1)) (by omega),
        testBit_high_of_lt (hu _ (List.getElem_mem h2)) (by omega)]
  obtain ⟨nv, bits⟩ := t
  obtain ⟨nv', bits'⟩ := u
  simp only [TruthTable.mk.injEq]
  exact ⟨hnv, hbits⟩

/-! ### Involution helpers -/

theorem flip_invol {t : TruthTable} (hwf : t.wf) {i : Nat} (hi : i < t.num_vars) :
    flip_inplace (flip_inplace t i) i = t := by
  have hwf1 := flip_inplace_wf hwf i
  have hwf2 := flip_inplace_wf hwf1 i
  have hnv1 : (flip_inplace t i).num_vars = t.num_vars := flip_inplace_num_vars t i
  have hlen1 : (flip_inplace t i).bits.length = t.bits.length := flip_inplace_length t i
  apply tableBit_ext (by rw [flip_inplace_num_vars, hnv1]) (by rw [flip_inplace_length, hlen1])
    hwf2.2 hwf.2
  intro x hx
  rw [flip_inplace_length, hlen1] at hx
  have hx1 : x < 64 * (flip_inplace t i).bits.length := by rw [hlen1]; exact hx
  rw [flip_inplace_tableBit hwf1 (by rw [hnv1]; exact hi) hx1,
    flip_inplace_tableBit hwf hi (xorIdx_lt_storage hwf hi hx),
    Nat.xor_assoc, Nat.xor_self, Nat.xor_zero]

theorem swap_invol {t : TruthTable} (hwf : t.wf) {i j : Nat}
    (hi : i < t.num_vars) (hj : j < t.num_vars) :
    swap_inplace (swap_inplace t i j) i j = t := by
  have hwf1 := swap_inplace_wf hwf i j
  have hwf2 := swap_inplace_wf hwf1 i j
  have hnv1 : (swap_inplace t i j).num_vars = t.num_vars := swap_inplace_num_vars t i j
  have hlen1 : (swap_inplace t i j).bits.length = t.bits.length := swap_inplace_length t i j
  apply tableBit_ext (by rw [swap_inplace_num_vars, hnv1]) (by rw [swap_inplace_length, hlen1])
    hwf2.2 hwf.2
  intro x hx
  rw [swap_inplace_length, hlen1] at hx
  have hx1 : x < 64 * (swap_inplace t i j).bits.length := by rw [hlen1]; exact hx
  rw [swap_inplace_tableBit hwf1 (by rw [hnv1]; exact hi) (by rw [hnv1]; exact hj) hx1,
    swap_inplace_tableBit hwf hi hj (swapBitsIdx_lt_storage hwf hi hj hx),
    swapBits_invol]

theorem swap_adjacent_invol {t : TruthTable} (hwf : t.wf) {i : Nat}
    (hi : i + 1 < t.num_vars) :
    swap_adjacent_inplace (swap_adjacent_inplace t i) i = t := by
  have hwf1 := swap_adjacent_inplace_wf hwf i
  have hwf2 := swap_adjacent_inplace_wf hwf1 i
  have hnv1 : (swap_adjacent_inplace t i).num_vars = t.num_vars := swap_adjacent_inplace_num_vars t i
  have hlen1 : (swap_adjacent_inplace t i).bits.length = t.bits.length :=
    swap_adjacent_inplace_length t i
  apply tableBit_ext (by rw [swap_adjacent_inplace_num_vars, hnv1])
    (by rw [swap_adjacent_inplace_length, hlen1]) hwf2.2 hwf.2
  intro x hx
  rw [swap_adjacent_inplace_length, hlen1] at hx
  have hx1 : x < 64 * (swap_adjacent_inplace t i).bits.length := by rw [hlen1]; exact hx
  rw [swap_adjacent_inplace_tableBit hwf1 (by rw [hnv1]; exact hi) hx1,
    swap_adjacent_inplace_tableBit hwf hi
      (swapBitsIdx_lt_storage hwf (by omega) hi hx),
    swapBits_invol]

/-! ### Claims -/

/-- Claim C1: for every well-formed truth table and all valid distinct variable
indices i, j, swapping variables i and j twice restores the table, and likewise
swapping adjacent variables i, i+1 twice restores it; this covers all
bit-shuffling regimes of swap_inplace and swap_adjacent_inplace, which are
selected inside those definitions by the sizes of num_vars, i and j. -/
theorem claim_C1 {t : TruthTable} (hwf : t.wf) :
    (∀ i j, i < t.num_vars → j < t.num_vars → i ≠ j →
      swap (swap t i j) i j = t) ∧
    (∀ i, i + 1 < t.num_vars → swap_adjacent (swap_adjacent t i) i = t) := by
  constructor
  · intro i j hi hj _
    exact swap_invol hwf hi hj
  · intro i hi
    exact swap_adjacent_invol hwf hi

theorem claim_C1_witness :
    (⟨2, [6]⟩ : TruthTable).wf ∧
    swap (swap ⟨2, [6]⟩ 0 1) 0 1 = (⟨2, [6]⟩ : TruthTable) ∧
    swap_adjacent (swap_adjacent ⟨2, [6]⟩ 0) 0 = (⟨2, [6]⟩ : TruthTable) :=
  ⟨by decide, (claim_C1 (by decide)).1 0 1 (by decide) (by decide) (by decide),
    (claim_C1 (by decide)).2 0 (by decide)⟩

/-- Claim C5: for every well-formed truth table and valid variable index i,
flipping variable i twice restores the original table, in all three storage
regimes of flip_inplace (single word, word-internal with several words, and
whole-block swaps). -/
theorem claim_C5 {t : TruthTable} (hwf : t.wf) :
    ∀ i, i < t.num_vars → flip (flip t i) i = t := by
  intro i hi
  exact flip_invol hwf hi

theorem claim_C5_witness :
    (⟨1, [2]⟩ : TruthTable).wf ∧ flip (flip ⟨1, [2]⟩ 0) 0 = (⟨1, [2]⟩ : TruthTable) :=
  ⟨by decide, claim_C5 (by decide) 0 (by decide)⟩

/-- Claim C10: calling swap_inplace with two equal variable indices leaves the
table unchanged (the source returns immediately on the equality test before
touching the storage), and likewise for the single-word static overload. -/
theorem claim_C10 (t : TruthTable) (b i : Nat) :
    swap_inplace t i i = t ∧ swap_inplace_static b i i = b := by
  constructor
  · unfold swap_inplace
    rw [if_pos rfl]
  · unfold swap_inplace_static
    rw [if_pos rfl]

/-! ### min_base / expand telescoping -/

theorem expand_append (t : TruthTable) (sup : List Nat) (i : Nat) :
    expand_inplace t (sup ++ [i]) =
      expand_inplace (swap_inplace t sup.length i) sup := by
  unfold expand_inplace
  have hL : (sup ++ [i]).length = sup.length + 1 := by simp
  rw [hL, List.range_succ, List.reverse_append]
  simp only [List.reverse_singleton, List.singleton_append, List.foldl_cons]
  have hg : (sup ++ [i]).getD sup.length 0 = i := by
    rw [List.getD_eq_getElem?_getD, List.getElem?_append_right (le_refl _)]
    simp
  rw [hg]
  apply List.foldl_ext
  intro acc m hm
  have hm' : m < sup.length := by
    rw [List.mem_reverse, List.mem_range] at hm
    exact hm
  rw [List.getD_eq_getElem?_getD, List.getD_eq_getElem?_getD,
    List.getElem?_append_left hm']

theorem min_base_aux (t0 : TruthTable) (hwf : t0.wf) :
    ∀ m, m ≤ t0.num_vars →
      ((List.range m).foldl min_base_step (t0, 0, [])).1.wf ∧
      ((List.range m).foldl min_base_step (t0, 0, [])).1.num_vars = t0.num_vars ∧
      ((List.range m).foldl min_base_step (t0, 0, [])).2.1 =
        ((List.range m).foldl min_base_step (t0, 0, [])).2.2.length ∧
      ((List.range m).foldl min_base_step (t0, 0, [])).2.1 ≤ m ∧
      expand_inplace ((List.range m).foldl min_base_step (t0, 0, [])).1
        ((List.range m).foldl min_base_step (t0, 0, [])).2.2 = t0 := by
  intro m
  induction m with
  | zero =>
    intro _
    refine ⟨hwf, rfl, rfl, le_refl 0, ?_⟩
    unfold expand_inplace
    rfl
  | succ m ih =>
    intro hm
    obtain ⟨hwf1, hnv1, hk1, hkm1, hexp1⟩ := ih (by omega)
    rw [List.range_succ, List.foldl_append, List.foldl_cons, List.foldl_nil]
    set s := (List.range m).foldl min_base_step (t0, 0, []) with hs
    unfold min_base_step
    by_cases hv : has_var s.1 m = true
    · rw [if_pos hv]
      by_cases hki : s.2.1 < m
      · rw [if_pos hki]
        refine ⟨swap_inplace_wf hwf1 _ _,
          by rw [swap_inplace_num_vars]; exact hnv1,
          by simp [hk1], by dsimp only; omega, ?_⟩
        rw [expand_append, ← hk1,
          swap_invol hwf1 (by rw [hnv1]; omega) (by rw [hnv1]; omega)]
        exact hexp1
      · rw [if_neg hki]
        have hk : s.2.1 = m := by omega
        refine ⟨hwf1, hnv1, by simp [hk1],
          by dsimp only; omega, ?_⟩
        rw [expand_append, ← hk1, hk]
        have hswap : swap_inplace s.1 m m = s.1 := by
          unfold swap_inplace
          rw [if_pos rfl]
        rw [hswap]
        exact hexp1
    · rw [if_neg hv]
      exact ⟨hwf1, hnv1, hk1, by omega, hexp1⟩

/-- Claim C3: for every well-formed truth table, including tables whose
functional support is non-contiguous, running min_base_inplace and then
expand_inplace with the support list that min_base_inplace returned restores
the original table exactly. -/
theorem claim_C3 {t : TruthTable} (hwf : t.wf) :
    expand_inplace (min_base_inplace t).1 (min_base_inplace t).2 = t := by
  have h := min_base_aux t hwf t.num_vars (le_refl _)
  exact h.2.2.2.2

theorem claim_C3_witness :
    (⟨3, [90]⟩ : TruthTable).wf ∧
    expand_inplace (min_base_inplace ⟨3, [90]⟩).1 (min_base_inplace ⟨3, [90]⟩).2 =
      (⟨3, [90]⟩ : TruthTable) :=
  ⟨by decide, claim_C3 (by decide)⟩

/-! ### has_var characterization -/

theorem any_getD {l : List Nat} {f : Nat → Bool} :
    l.any f = true ↔ ∃ k, k < l.length ∧ f (l.getD k 0) = true := by
  rw [List.any_eq_true]
  constructor
  · rintro ⟨w, hw, hfw⟩
    obtain ⟨k, hk, hkw⟩ := List.getElem_of_mem hw
    exact ⟨k, hk, by rw [getD_eq_getElem hk, hkw]; exact hfw⟩
  · rintro ⟨k, hk, hfk⟩
    exact ⟨l.getD k 0, by rw [getD_eq_getElem hk]; exact List.getElem_mem hk, hfk⟩

theorem exists_testBit_lt {a b n : Nat} (ha : a < 2 ^ n) (hb : b < 2 ^ n)
    (hne : a ≠ b) : ∃ p, p < n ∧ a.testBit p ≠ b.testBit p := by
  by_contra hn
  push_neg at hn
  apply hne
  apply Nat.eq_of_testBit_eq
  intro p
  by_cases hp : p < n
  · exact hn p hp
  · rw [testBit_high_of_lt ha (by omega), testBit_high_of_lt hb (by omega)]

theorem hasvar_word_iff {i : Nat} (hi : i < 6) (w : Nat) :
    ((((w >>> (1 <<< i)) &&& projections_neg i) != (w &&& projections_neg i)) = true) ↔
      ∃ p, p < 64 ∧ p.testBit i = false ∧ w.testBit (p + 2 ^ i) ≠ w.testBit p := by
  rw [bne_iff_ne]
  constructor
  · intro hne
    by_contra hn
    push_neg at hn
    apply hne
    apply Nat.eq_of_testBit_eq
    intro p
    rw [Nat.testBit_and, Nat.testBit_and, Nat.testBit_shiftRight, one_shiftLeft_eq,
      testBit_projections_neg]
    by_cases hp64 : p < 64
    · by_cases hpi : p.testBit i = true
      · simp [hpi]
      · have hb : p.testBit i = false := by simpa using hpi
        have h1 := hn p hp64 hb
        rw [show 2 ^ i + p = p + 2 ^ i from Nat.add_comm _ _, h1]
    · simp [hp64]
  · rintro ⟨p, hp64, hpi, hne⟩
    intro heq
    apply hne
    have h1 := congrArg (fun z => z.testBit p) heq
    simp only [Nat.testBit_and, Nat.testBit_shiftRight, one_shiftLeft_eq,
      testBit_projections_neg] at h1
    rw [hpi] at h1
    simp [hp64] at h1
    rw [Nat.add_comm p (2 ^ i)]
    exact h1

/-- has_var t i is the semantic test: some index x in storage with bit i clear
whose function value differs from its partner with bit i set. -/
theorem has_var_iff {t : TruthTable} (hwf : t.wf) {i : Nat} (hi : i < t.num_vars) :
    has_var t i = true ↔
      ∃ x, x < 64 * t.bits.length ∧ x.testBit i = false ∧
        tableBit t x ≠ tableBit t (x ^^^ 2 ^ i) := by
  unfold has_var
  by_cases hcond : t.num_vars ≤ 6 ∨ i < 6
  · have hi6 : i < 6 := by rcases hcond with h | h <;> omega
    have h2i : (2:Nat) ^ i < 64 := by
      calc (2:Nat) ^ i < 2 ^ 6 := Nat.pow_lt_pow_right (by norm_num) hi6
      _ = 64 := by norm_num
    rw [if_pos hcond, any_getD]
    constructor
    · rintro ⟨k, hk, hfk⟩
      obtain ⟨p, hp64, hpi, hne⟩ := (hasvar_word_iff hi6 _).mp hfk
      have hd : (64 * k + p) / 64 = k := by omega
      have hm : (64 * k + p) % 64 = p := by omega
      refine ⟨64 * k + p, ?_, ?_, ?_⟩
      · have h3 : 64 * (k + 1) ≤ 64 * t.bits.length := Nat.mul_le_mul_left 64 hk
        omega
      · rw [← testBit_mod64 _ hi6, hm]
        exact hpi
      · unfold tableBit
        have hdx : ((64 * k + p) ^^^ 2 ^ i) / 64 = k := by rw [xor_low_div _ h2i, hd]
        have hmx : ((64 * k + p) ^^^ 2 ^ i) % 64 = p + 2 ^ i := by
          rw [xor_low_mod _ h2i, hm, xor_two_pow_of_testBit_false hpi]
        rw [hd, hm, hdx, hmx]
        exact fun h => hne h.symm
    · rintro ⟨x, hx, hxi, hne⟩
      refine ⟨x / 64, div64_lt hx, ?_⟩
      apply (hasvar_word_iff hi6 _).mpr
      have hmi : (x % 64).testBit i = false := by
        rw [testBit_mod64 _ hi6]
        exact hxi
      refine ⟨x % 64, mod64_lt x, hmi, ?_⟩
      unfold tableBit at hne
      have hdx : (x ^^^ 2 ^ i) / 64 = x / 64 := xor_low_div _ h2i
      have hmx : (x ^^^ 2 ^ i) % 64 = x % 64 + 2 ^ i := by
        rw [xor_low_mod _ h2i, xor_two_pow_of_testBit_false hmi]
      rw [hdx, hmx] at hne
      exact fun h => hne h.symm
  · push_neg at hcond
    obtain ⟨hnv6, hi6'⟩ := hcond
    have hnv : 6 < t.num_vars := by omega
    have hi6 : 6 ≤ i := by omega
    have hlen : t.bits.length = 2 ^ (t.num_vars - 6) := by
      rw [hwf.1, num_blocks_gt_six hnv]
    have hdvd : 2 ^ (i - 6 + 1) ∣ t.bits.length := by
      rw [hlen]
      exact pow_dvd_pow 2 (by omega)
    rw [if_neg (by omega)]
    dsimp only
    rw [List.any_eq_true]
    constructor
    · rintro ⟨⟨a, b⟩, hmem, hab⟩
      rw [bne_iff_ne] at hab
      obtain ⟨hbeq, ha, hb, hav, hbv⟩ := pairsDouble_endpoints hdvd hmem
      obtain ⟨p, hp64, hpne⟩ :=
        exists_testBit_lt (getD_lt_W hwf.2 a) (getD_lt_W hwf.2 b) hab
      have hd : (64 * a + p) / 64 = a := by omega
      have hm : (64 * a + p) % 64 = p := by omega
      refine ⟨64 * a + p, ?_, ?_, ?_⟩
      · have h3 : 64 * (a + 1) ≤ 64 * t.bits.length := Nat.mul_le_mul_left 64 ha
        omega
      · rw [testBit_eq_div64 _ hi6, hd]
        exact hav
      · unfold tableBit
        have hxor := xor_high_div (64 * a + p) hi6
        rw [hd, hm, hxor.1, hxor.2, hd, hm, xor_two_pow_of_testBit_false hav, ← hbeq]
        exact hpne
    · rintro ⟨x, hx, hxi, hne⟩
      have hk := div64_lt hx
      have hkv : (x / 64).testBit (i - 6) = false := by
        rw [← testBit_eq_div64 _ hi6]
        exact hxi
      refine ⟨(x / 64, x / 64 + 2 ^ (i - 6)), pairsDouble_mem_low hdvd hk hkv, ?_⟩
      rw [bne_iff_ne]
      intro heq
      apply hne
      unfold tableBit
      have hxor := xor_high_div x hi6
      rw [hxor.1, hxor.2, xor_two_pow_of_testBit_false hkv, heq]

/-! ### clearBit / setBit bridges -/

theorem clearBit_of_false {x i : Nat} (h : x.testBit i = false) : clearBit x i = x := by
  unfold clearBit
  rw [if_neg (by simp [h])]

theorem clearBit_of_true {x i : Nat} (h : x.testBit i = true) :
    clearBit x i = x ^^^ 2 ^ i := by
  unfold clearBit
  rw [if_pos h]

theorem setBit_of_false {x i : Nat} (h : x.testBit i = false) :
    setBit x i = x ^^^ 2 ^ i := by
  unfold setBit
  rw [if_neg (by simp [h])]

theorem setBit_of_true {x i : Nat} (h : x.testBit i = true) : setBit x i = x := by
  unfold setBit
  rw [if_pos h]

theorem setBit_eq_clearBit_xor (x i : Nat) : setBit x i = clearBit x i ^^^ 2 ^ i := by
  by_cases h : x.testBit i = true
  · rw [setBit_of_true h, clearBit_of_true h, Nat.xor_assoc, Nat.xor_self, Nat.xor_zero]
  · have h' : x.testBit i = false := by simpa using h
    rw [setBit_of_false h', clearBit_of_false h']

/-- Claim C6: has_var t i returns true exactly when the materialized cofactors
cofactor0 t i and cofactor1 t i differ; the word-internal and block-pair
comparisons performed by has_var itself are therefore equivalent to building
both cofactor tables and comparing them. -/
theorem claim_C6 {t : TruthTable} (hwf : t.wf) {i : Nat} (hi : i < t.num_vars) :
    (has_var t i = true ↔ cofactor0 t i ≠ cofactor1 t i) := by
  rw [has_var_iff hwf hi]
  unfold cofactor0 cofactor1
  constructor
  · rintro ⟨x, hx, hxi, hne⟩ heq
    apply hne
    have h0 := cofactor0_inplace_tableBit hwf hi hx
    have h1 := cofactor1_inplace_tableBit hwf hi hx
    rw [clearBit_of_false hxi] at h0
    rw [setBit_of_false hxi] at h1
    rw [← h0, ← h1, heq]
  · intro hne
    by_contra hn
    push_neg at hn
    apply hne
    apply tableBit_ext
    · rw [cofactor0_inplace_num_vars, cofactor1_inplace_num_vars]
    · rw [cofactor0_inplace_length, cofactor1_inplace_length]
    · exact (cofactor0_inplace_wf hwf i).2
    · exact (cofactor1_inplace_wf hwf i).2
    · intro x hx
      rw [cofactor0_inplace_length] at hx
      have hx0 : x < 64 * (cofactor0_inplace t i).bits.length := by
        rw [cofactor0_inplace_length]
        exact hx
      have hx1 : x < 64 * (cofactor1_inplace t i).bits.length := by
        rw [cofactor1_inplace_length]
        exact hx
      rw [cofactor0_inplace_tableBit hwf hi hx, cofactor1_inplace_tableBit hwf hi hx,
        setBit_eq_clearBit_xor]
      apply hn
      · exact clearBitIdx_lt_storage hwf i hx
      · rw [testBit_clearBit]
        simp

/-- Claim C7: if has_var t i reports that the table does not depend on
variable i, then both materialized cofactors cofactor0 t i and cofactor1 t i
equal the original table. -/
theorem claim_C7 {t : TruthTable} (hwf : t.wf) {i : Nat} (hi : i < t.num_vars)
    (h : has_var t i = false) : cofactor0 t i = t ∧ cofactor1 t i = t := by
  have hno : ∀ x, x < 64 * t.bits.length → x.testBit i = false →
      tableBit t x = tableBit t (x ^^^ 2 ^ i) := by
    intro x hx hxi
    by_contra hne
    have h2 := (has_var_iff hwf hi).mpr ⟨x, hx, hxi, hne⟩
    rw [h] at h2
    exact Bool.false_ne_true h2
  constructor
  · unfold cofactor0
    apply tableBit_ext (cofactor0_inplace_num_vars t i) (cofactor0_inplace_length t i)
      (cofactor0_inplace_wf hwf i).2 hwf.2
    intro x hx
    rw [cofactor0_inplace_length] at hx
    have hx0 : x < 64 * (cofactor0_inplace t i).bits.length := by
      rw [cofactor0_inplace_length]
      exact hx
    rw [cofactor0_inplace_tableBit hwf hi hx]
    by_cases hb : x.testBit i = true
    · rw [clearBit_of_true hb]
      have hy : (x ^^^ 2 ^ i).testBit i = false := by
        rw [testBit_xor_two_pow, if_pos rfl, hb]
        rfl
      have h2 := hno (x ^^^ 2 ^ i) (xorIdx_lt_storage hwf hi hx) hy
      rw [Nat.xor_assoc, Nat.xor_self, Nat.xor_zero] at h2
      exact h2
    · rw [clearBit_of_false (by simpa using hb)]
  · unfold cofactor1
    apply tableBit_ext (cofactor1_inplace_num_vars t i) (cofactor1_inplace_length t i)
      (cofactor1_inplace_wf hwf i).2 hwf.2
    intro x hx
    rw [cofactor1_inplace_length] at hx
    rw [cofactor1_inplace_tableBit hwf hi hx]
    by_cases hb : x.testBit i = true
    · rw [setBit_of_true hb]
    · have hb' : x.testBit i = false := by simpa using hb
      rw [setBit_of_false hb']
      exact (hno x hx hb').symm

theorem claim_C6_witness :
    (⟨2, [6]⟩ : TruthTable).wf ∧ 0 < (⟨2, [6]⟩ : TruthTable).num_vars ∧
    (has_var ⟨2, [6]⟩ 0 = true ↔ cofactor0 ⟨2, [6]⟩ 0 ≠ cofactor1 ⟨2, [6]⟩ 0) :=
  ⟨by decide, by decide, claim_C6 (by decide) (by decide)⟩

theorem claim_C7_witness :
    (⟨2, [12]⟩ : TruthTable).wf ∧ has_var ⟨2, [12]⟩ 0 = false ∧
    (cofactor0 ⟨2, [12]⟩ 0 = (⟨2, [12]⟩ : TruthTable) ∧
     cofactor1 ⟨2, [12]⟩ 0 = (⟨2, [12]⟩ : TruthTable)) :=
  ⟨by decide, by decide, claim_C7 (by decide) (by decide) (by decide)⟩

/-! ### next_inplace: big-integer increment semantics -/

theorem and_two_pow_sub_one (a n : Nat) : a &&& (2 ^ n - 1) = a % 2 ^ n := by
  apply Nat.eq_of_testBit_eq
  intro k
  rw [Nat.testBit_and, Nat.testBit_mod_two_pow, Nat.testBit_two_pow_sub_one]
  cases a.testBit k <;> simp

theorem incWords_length (l : List Nat) : (incWords l).length = l.length := by
  induction l with
  | nil => rfl
  | cons w ws ih =>
    unfold incWords
    dsimp only
    split_ifs <;> simp [ih]

theorem incWords_lt {l : List Nat} (hl : ∀ w ∈ l, w < W) : ∀ w ∈ incWords l, w < W := by
  induction l with
  | nil =>
    intro w hw
    simp [incWords] at hw
  | cons a as ih =>
    unfold incWords
    dsimp only
    split_ifs with h0
    · intro w hw
      rcases List.mem_cons.mp hw with rfl | hmem
      · exact Nat.mod_lt _ (Nat.two_pow_pos 64)
      · exact ih (fun w hw => hl w (List.mem_cons_of_mem a hw)) w hmem
    · intro w hw
      rcases List.mem_cons.mp hw with rfl | hmem
      · exact Nat.mod_lt _ (Nat.two_pow_pos 64)
      · exact hl w (List.mem_cons_of_mem a hmem)

theorem pow_cons_split (a : Nat) (as : List Nat) :
    (2:Nat) ^ (64 * (a :: as).length) = W * 2 ^ (64 * as.length) := by
  rw [List.length_cons, show 64 * (as.length + 1) = 64 + 64 * as.length by ring, pow_add]
  rfl

theorem wordsVal_lt {l : List Nat} (hl : ∀ w ∈ l, w < W) :
    wordsVal l < 2 ^ (64 * l.length) := by
  induction l with
  | nil => simp [wordsVal]
  | cons a as ih =>
    have ha : a < W := hl a (List.mem_cons_self a as)
    have hv : wordsVal as < 2 ^ (64 * as.length) :=
      ih (fun w hw => hl w (List.mem_cons_of_mem a hw))
    simp only [wordsVal]
    rw [pow_cons_split]
    calc a + W * wordsVal as < W + W * wordsVal as := by omega
    _ = W * (wordsVal as + 1) := by ring
    _ ≤ W * 2 ^ (64 * as.length) := Nat.mul_le_mul_left W hv

theorem incWords_val {l : List Nat} (hl : ∀ w ∈ l, w < W) :
    wordsVal (incWords l) = (wordsVal l + 1) % 2 ^ (64 * l.length) := by
  induction l with
  | nil => rfl
  | cons a as ih =>
    have ha : a < W := hl a (List.mem_cons_self a as)
    have has : ∀ w ∈ as, w < W := fun w hw => hl w (List.mem_cons_of_mem a hw)
    unfold incWords
    dsimp only
    split_ifs with h0
    · have haw : a + 1 = W := by
        rcases Nat.lt_or_ge (a + 1) W with h | h
        · rw [Nat.mod_eq_of_lt h] at h0
          omega
        · omega
      simp only [wordsVal]
      rw [h0, ih has, pow_cons_split,
        show a + W * wordsVal as + 1 = W * (wordsVal as + 1) by rw [← haw]; ring,
        Nat.mul_mod_mul_left]
      omega
    · have haw : a + 1 < W := by
        rcases Nat.lt_or_ge (a + 1) W with h | h
        · exact h
        · exfalso
          have h2 : a + 1 = W := by omega
          rw [h2] at h0
          exact h0 (Nat.mod_self W)
      rw [Nat.mod_eq_of_lt haw]
      simp only [wordsVal]
      rw [pow_cons_split]
      have hv := wordsVal_lt has
      have hb : a + 1 + W * wordsVal as < W * 2 ^ (64 * as.length) := by
        have h2 : W * (wordsVal as + 1) ≤ W * 2 ^ (64 * as.length) :=
          Nat.mul_le_mul_left W hv
        have h3 : W * (wordsVal as + 1) = W * wordsVal as + W := by ring
        omega
      rw [show a + W * wordsVal as + 1 = a + 1 + W * wordsVal as by omega,
        Nat.mod_eq_of_lt hb]

theorem mask_bits_length (t : TruthTable) : (mask_bits t).bits.length = t.bits.length := by
  unfold mask_bits
  split_ifs <;> simp

theorem mask_bits_num_vars (t : TruthTable) : (mask_bits t).num_vars = t.num_vars := by
  unfold mask_bits
  split_ifs <;> rfl

theorem next_inplace_num_vars (t : TruthTable) :
    (next_inplace t).num_vars = t.num_vars := by
  unfold next_inplace
  split_ifs
  · rw [mask_bits_num_vars]
  · rfl

theorem next_inplace_length (t : TruthTable) :
    (next_inplace t).bits.length = t.bits.length := by
  unfold next_inplace
  split_ifs
  · rw [mask_bits_length]
    simp
  · exact incWords_length t.bits

theorem next_inplace_wf {t : TruthTable} (hwf : t.wf) : (next_inplace t).wf := by
  refine ⟨?_, ?_⟩
  · rw [next_inplace_length, next_inplace_num_vars]
    exact hwf.1
  · unfold next_inplace
    split_ifs
    · unfold mask_bits
      split_ifs
      · intro w hw
        rcases List.mem_or_eq_of_mem_set hw with h | h
        · rcases List.mem_or_eq_of_mem_set h with h2 | h2
          · exact hwf.2 _ h2
          · rw [h2]
            exact Nat.mod_lt _ (Nat.two_pow_pos 64)
        · rw [h]
          exact lt_of_le_of_lt Nat.and_le_left
            (getD_lt_W (by
              intro w2 hw2
              rcases List.mem_or_eq_of_mem_set hw2 with h3 | h3
              · exact hwf.2 _ h3
              · rw [h3]
                exact Nat.mod_lt _ (Nat.two_pow_pos 64)) 0)
      · intro w hw
        rcases List.mem_or_eq_of_mem_set hw with h | h
        · exact hwf.2 _ h
        · rw [h]
          exact Nat.mod_lt _ (Nat.two_pow_pos 64)
    · exact incWords_lt hwf.2

theorem next_inplace_val {t : TruthTable} (hwf : t.wf) :
    wordsVal (next_inplace t).bits = (wordsVal t.bits + 1) % 2 ^ num_bits t.num_vars := by
  unfold num_bits
  rcases le_or_lt t.num_vars 6 with h6 | h6
  · obtain ⟨w, hw⟩ := List.length_eq_one.mp (by rw [hwf.1, num_blocks_le_six h6])
    have h2nv : (2:Nat) ^ t.num_vars ≤ 64 := by
      calc (2:Nat) ^ t.num_vars ≤ 2 ^ 6 := Nat.pow_le_pow_right (by norm_num) h6
      _ = 64 := by norm_num
    unfold next_inplace
    rw [if_pos h6, hw]
    simp only [List.getD_cons_zero, List.set_cons_zero]
    unfold mask_bits
    by_cases hlt : t.num_vars < 6
    · rw [if_pos hlt]
      simp only [List.getD_cons_zero, List.set_cons_zero]
      simp only [wordsVal, Nat.mul_zero, Nat.add_zero]
      rw [and_two_pow_sub_one]
      have hW : W = 2 ^ 64 := rfl
      rw [hW, Nat.mod_mod_of_dvd _ (pow_dvd_pow 2 (by omega))]
    · rw [if_neg hlt]
      have h66 : t.num_vars = 6 := by omega
      simp only [wordsVal, Nat.mul_zero, Nat.add_zero]
      rw [h66]
      rfl
  · unfold next_inplace
    rw [if_neg (by omega)]
    have hs : 64 * t.bits.length = 2 ^ t.num_vars := storage_bits_eq hwf h6
    rw [incWords_val hwf.2, hs]

theorem getD_zero_eq_wordsVal {l : List Nat} (h : l.length = 1) :
    l.getD 0 0 = wordsVal l := by
  obtain ⟨a, rfl⟩ := List.length_eq_one.mp h
  simp [wordsVal]

theorem masked_of_single_word {t : TruthTable} (hlen : t.bits.length = 1)
    (hword : t.bits.getD 0 0 < 2 ^ 2 ^ t.num_vars) : masked t := by
  intro x hx hge
  unfold tableBit
  have hx64 : x < 64 := by
    rw [hlen] at hx
    omega
  rw [Nat.div_eq_of_lt hx64, Nat.mod_eq_of_lt hx64]
  exact testBit_high_of_lt hword hge

theorem next_inplace_masked {t : TruthTable} (hwf : t.wf) : masked (next_inplace t) := by
  rcases le_or_lt t.num_vars 6 with h6 | h6
  · have hlen : (next_inplace t).bits.length = 1 := by
      rw [next_inplace_length, hwf.1, num_blocks_le_six h6]
    apply masked_of_single_word hlen
    rw [getD_zero_eq_wordsVal hlen, next_inplace_val hwf, next_inplace_num_vars]
    unfold num_bits
    exact Nat.mod_lt _ (Nat.two_pow_pos _)
  · intro x hx hge
    exfalso
    rw [next_inplace_length] at hx
    rw [next_inplace_num_vars] at hge
    have hs : 64 * t.bits.length = 2 ^ t.num_vars := storage_bits_eq hwf h6
    omega

theorem all_zero_of_wordsVal_zero {l : List Nat} (h : wordsVal l = 0) :
    (l.all fun w => w == 0) = true := by
  induction l with
  | nil => rfl
  | cons a as ih =>
    simp only [wordsVal] at h
    have ha : a = 0 := by omega
    have has : wordsVal as = 0 := by
      have hW : 0 < W := Nat.two_pow_pos 64
      rcases Nat.eq_zero_or_pos (wordsVal as) with h2 | h2
      · exact h2
      · exfalso
        have h3 : W ≤ W * wordsVal as := Nat.le_mul_of_pos_right W h2
        omega
    simp [ha, ih has]

/-- Claim C8: next_inplace increments the table, viewed as one large unsigned
integer in base 2^64, by 1 modulo 2^(2^num_vars); it keeps the table well
formed and masked, and in particular the all-ones table (value
2^(2^num_vars) - 1) wraps to the all-zero table. -/
theorem claim_C8 {t : TruthTable} (hwf : t.wf) :
    wordsVal (next_inplace t).bits = (wordsVal t.bits + 1) % 2 ^ num_bits t.num_vars ∧
    (next_inplace t).wf ∧ masked (next_inplace t) ∧
    (wordsVal t.bits = 2 ^ num_bits t.num_vars - 1 →
      is_const0 (next_inplace t) = true) := by
  refine ⟨next_inplace_val hwf, next_inplace_wf hwf, next_inplace_masked hwf, ?_⟩
  intro hv
  have h0 : wordsVal (next_inplace t).bits = 0 := by
    rw [next_inplace_val hwf, hv,
      Nat.sub_add_cancel (Nat.one_le_two_pow), Nat.mod_self]
  unfold is_const0
  exact all_zero_of_wordsVal_zero h0

theorem claim_C8_witness :
    (⟨1, [3]⟩ : TruthTable).wf ∧
    (wordsVal (next_inplace ⟨1, [3]⟩).bits =
        (wordsVal (⟨1, [3]⟩ : TruthTable).bits + 1) % 2 ^ num_bits 1 ∧
      (next_inplace ⟨1, [3]⟩).wf ∧ masked (next_inplace ⟨1, [3]⟩) ∧
      is_const0 (next_inplace ⟨1, [3]⟩) = true) :=
  ⟨by decide,
    (claim_C8 (by decide)).1,
    (claim_C8 (by decide)).2.1,
    (claim_C8 (by decide)).2.2.1,
    (claim_C8 (by decide)).2.2.2 (by decide)⟩

/-! ### Unateness -/

theorem get_bit_eq (t : TruthTable) (x : Nat) :
    get_bit t x = if tableBit t x then 1 else 0 := by
  unfold get_bit tableBit
  rw [Nat.and_one_is_mod, Nat.shiftRight_eq_div_pow, Nat.testBit_to_div_mod]
  rcases Nat.mod_two_eq_zero_or_one (t.bits.getD (x / 64) 0 / 2 ^ (x % 64)) with h | h <;>
    rw [h] <;> simp

/-- Claim C9: for a well-formed table with at least one variable and a valid
index i, is_positive_unate_in_i holds exactly when the function is monotone
non-decreasing in variable i pointwise over all assignments of the other
variables, and is_negative_unate_in_i exactly when it is monotone
non-increasing in variable i. -/
theorem claim_C9 {t : TruthTable} (hwf : t.wf) (h1 : 1 ≤ t.num_vars) {i : Nat}
    (hi : i < t.num_vars) :
    (is_positive_unate_in_i t i = true ↔
      ∀ x, x < 2 ^ t.num_vars → x.testBit i = false →
        tableBit t x = true → tableBit t (x ^^^ 2 ^ i) = true) ∧
    (is_negative_unate_in_i t i = true ↔
      ∀ x, x < 2 ^ t.num_vars → x.testBit i = false →
        tableBit t (x ^^^ 2 ^ i) = true → tableBit t x = true) := by
  have hrange : 2 <<< (t.num_vars - 1) = 2 ^ t.num_vars := by
    rw [Nat.shiftLeft_eq, Nat.mul_comm, ← pow_succ,
      show t.num_vars - 1 + 1 = t.num_vars by omega]
  have hstore : 2 ^ t.num_vars ≤ 64 * t.bits.length := by
    rw [storage_eq_pow hwf]
    exact Nat.pow_le_pow_right (by norm_num) (le_max_right 6 _)
  have hbit : ∀ x, x < 2 ^ t.num_vars →
      get_bit (cofactor0 t i) x = (if tableBit t (clearBit x i) then 1 else 0) ∧
      get_bit (cofactor1 t i) x = (if tableBit t (setBit x i) then 1 else 0) := by
    intro x hx
    have hx' : x < 64 * t.bits.length := lt_of_lt_of_le hx hstore
    constructor
    · rw [get_bit_eq, show cofactor0 t i = cofactor0_inplace t i from rfl,
        cofactor0_inplace_tableBit hwf hi hx']
    · rw [get_bit_eq, show cofactor1 t i = cofactor1_inplace t i from rfl,
        cofactor1_inplace_tableBit hwf hi hx']
  constructor
  · constructor
    · intro hall x hx hxi htx
      unfold is_positive_unate_in_i at hall
      dsimp only at hall
      rw [List.all_eq_true] at hall
      have h := hall x (List.mem_range.mpr (by rw [hrange]; exact hx))
      rw [decide_eq_true_eq, (hbit x hx).1, (hbit x hx).2,
        clearBit_of_false hxi, setBit_of_false hxi] at h
      cases hb : tableBit t (x ^^^ 2 ^ i) with
      | true => rfl
      | false =>
        rw [htx, hb] at h
        simp at h
    · intro hmono
      unfold is_positive_unate_in_i
      dsimp only
      rw [List.all_eq_true]
      intro b hb
      rw [List.mem_range, hrange] at hb
      rw [decide_eq_true_eq, (hbit b hb).1, (hbit b hb).2, setBit_eq_clearBit_xor]
      by_cases hty : tableBit t (clearBit b i) = true
      · rw [hty, hmono (clearBit b i) (clearBit_lt i hb)
          (by rw [testBit_clearBit]; simp) hty]
      · have hty' : tableBit t (clearBit b i) = false := by simpa using hty
        rw [hty']
        simp
  · constructor
    · intro hall x hx hxi htx
      unfold is_negative_unate_in_i at hall
      dsimp only at hall
      rw [List.all_eq_true] at hall
      have h := hall x (List.mem_range.mpr (by rw [hrange]; exact hx))
      rw [decide_eq_true_eq, (hbit x hx).1, (hbit x hx).2,
        clearBit_of_false hxi, setBit_of_false hxi] at h
      cases hb : tableBit t x with
      | true => rfl
      | false =>
        rw [htx, hb] at h
        simp at h
    · intro hmono
      unfold is_negative_unate_in_i
      dsimp only
      rw [List.all_eq_true]
      intro b hb
      rw [List.mem_range, hrange] at hb
      rw [decide_eq_true_eq, (hbit b hb).1, (hbit b hb).2, setBit_eq_clearBit_xor]
      by_cases hty : tableBit t (clearBit b i ^^^ 2 ^ i) = true
      · rw [hty, hmono (clearBit b i) (clearBit_lt i hb)
          (by rw [testBit_clearBit]; simp) hty]
      · have hty' : tableBit t (clearBit b i ^^^ 2 ^ i) = false := by simpa using hty
        rw [hty']
        simp

theorem claim_C9_witness :
    (⟨2, [8]⟩ : TruthTable).wf ∧ 1 ≤ (⟨2, [8]⟩ : TruthTable).num_vars ∧
    0 < (⟨2, [8]⟩ : TruthTable).num_vars ∧
    ((is_positive_unate_in_i ⟨2, [8]⟩ 0 = true ↔
        ∀ x, x < 2 ^ (⟨2, [8]⟩ : TruthTable).num_vars → x.testBit 0 = false →
          tableBit ⟨2, [8]⟩ x = true → tableBit ⟨2, [8]⟩ (x ^^^ 2 ^ 0) = true) ∧
      (is_negative_unate_in_i ⟨2, [8]⟩ 0 = true ↔
        ∀ x, x < 2 ^ (⟨2, [8]⟩ : TruthTable).num_vars → x.testBit 0 = false →
          tableBit ⟨2, [8]⟩ (x ^^^ 2 ^ 0) = true → tableBit ⟨2, [8]⟩ x = true)) :=
  ⟨by decide, by decide, by decide, claim_C9 (by decide) (by decide) (by decide)⟩

/-! ### shift_left by at least the full width -/

theorem is_const0_clear (t : TruthTable) : is_const0 (clear t) = true := by
  unfold is_const0 clear
  rw [List.all_eq_true]
  intro w hw
  rw [List.eq_of_mem_replicate hw]
  rfl

/-- Claim C4, corrected: the original claim (every shift at least 2^num_vars
clears the table) fails for a single-word table with shift at least 64, where
the C++ shift is undefined behavior and on the modelled targets leaves bits
set (see claim_C4_cex); clearing does hold whenever the shift stays in the
defined range of the single-word branch (shift < 64) or the table is
multi-word (num_vars > 6, explicit clear branch). -/
theorem claim_C4 {t : TruthTable} (hwf : t.wf) {s : Nat} (hs : 2 ^ t.num_vars ≤ s)
    (hd : 6 < t.num_vars ∨ s < 64) :
    shift_left t s = clear t ∧ is_const0 (shift_left t s) = true := by
  have hmain : shift_left t s = clear t := by
    unfold shift_left shift_left_inplace clear
    rcases le_or_lt t.num_vars 6 with h6 | h6
    · rw [if_pos h6]
      have hs64 : s < 64 := by
        rcases hd with h | h
        · omega
        · exact h
      have hmod : s % 64 = s := Nat.mod_eq_of_lt hs64
      have hlt : t.num_vars < 6 := by
        by_contra hc
        have h66 : t.num_vars = 6 := by omega
        rw [h66] at hs
        norm_num at hs
        omega
      obtain ⟨w, hw⟩ := List.length_eq_one.mp (by rw [hwf.1, num_blocks_le_six h6])
      have h2nv64 : 2 ^ t.num_vars ≤ 64 := by
        calc (2:Nat) ^ t.num_vars ≤ 2 ^ 6 := Nat.pow_le_pow_right (by norm_num) h6
        _ = 64 := by norm_num
      have hz : ((w <<< (s % 64)) % W) % 2 ^ 2 ^ t.num_vars = 0 := by
        rw [hmod, show W = 2 ^ 64 from rfl, Nat.mod_mod_of_dvd _ (pow_dvd_pow 2 h2nv64),
          Nat.shiftLeft_eq]
        exact Nat.mod_eq_zero_of_dvd (dvd_mul_of_dvd_right (pow_dvd_pow 2 hs) w)
      rw [hw]
      simp only [List.getD_cons_zero, List.set_cons_zero, List.length_cons,
        List.length_nil]
      unfold mask_bits
      rw [if_pos hlt]
      simp only [List.getD_cons_zero, List.set_cons_zero]
      rw [and_two_pow_sub_one, hz]
      rfl
    · rw [if_neg (by omega), if_pos (show s ≥ num_bits t.num_vars from hs)]
  exact ⟨hmain, by rw [hmain]; exact is_const0_clear t⟩

/-- Counterexample to the original claim C4: the 6-variable single-word table
with word 1, shifted by 64 = 2^num_vars, is not cleared — the modelled shift
count 64 % 64 = 0 leaves the word at 1, and mask_bits is a no-op at
num_vars = 6 — so the shifted table is neither equal to the cleared table nor
constant zero. -/
theorem claim_C4_cex :
    (⟨6, [1]⟩ : TruthTable).wf ∧ 2 ^ (⟨6, [1]⟩ : TruthTable).num_vars ≤ 64 ∧
    shift_left ⟨6, [1]⟩ 64 ≠ clear ⟨6, [1]⟩ ∧
    is_const0 (shift_left ⟨6, [1]⟩ 64) = false := by
  refine ⟨by decide, by decide, ?_, by decide⟩
  intro h
  have h2 : is_const0 (shift_left ⟨6, [1]⟩ 64) = true := by
    rw [h]
    exact is_const0_clear _
  rw [show is_const0 (shift_left ⟨6, [1]⟩ 64) = false by decide] at h2
  exact Bool.false_ne_true h2

theorem claim_C4_witness :
    (⟨1, [1]⟩ : TruthTable).wf ∧ 2 ^ (⟨1, [1]⟩ : TruthTable).num_vars ≤ 2 ∧
    (6 < (⟨1, [1]⟩ : TruthTable).num_vars ∨ 2 < 64) ∧
    (shift_left ⟨1, [1]⟩ 2 = clear ⟨1, [1]⟩ ∧ is_const0 (shift_left ⟨1, [1]⟩ 2) = true) :=
  ⟨by decide, by decide, by decide, claim_C4 (by decide) (by decide) (by decide)⟩

/-! ### Masking preservation -/

theorem exists_high_bit {x n : Nat} (hx : 2 ^ n ≤ x) :
    ∃ k, n ≤ k ∧ x.testBit k = true := by
  by_contra h
  push_neg at h
  have h2 : x < 2 ^ n := lt_two_pow_of_high_bits (fun j hj => by simpa using h j hj)
  omega

theorem ge_pow_xor {x n i : Nat} (hi : i < n) (hx : 2 ^ n ≤ x) :
    2 ^ n ≤ x ^^^ 2 ^ i := by
  obtain ⟨k, hk, hbit⟩ := exists_high_bit hx
  have h2 : (x ^^^ 2 ^ i).testBit k = true := by
    rw [testBit_xor_two_pow, if_neg (by omega)]
    exact hbit
  calc 2 ^ n ≤ 2 ^ k := Nat.pow_le_pow_right (by norm_num) hk
  _ ≤ x ^^^ 2 ^ i := ge_of_testBit_true h2

theorem ge_pow_swapBits {x n i j : Nat} (hi : i < n) (hj : j < n) (hx : 2 ^ n ≤ x) :
    2 ^ n ≤ swapBits x i j := by
  obtain ⟨k, hk, hbit⟩ := exists_high_bit hx
  have h2 : (swapBits x i j).testBit k = true := by
    rw [swapBits_high (by omega) (by omega)]
    exact hbit
  calc 2 ^ n ≤ 2 ^ k := Nat.pow_le_pow_right (by norm_num) hk
  _ ≤ swapBits x i j := ge_of_testBit_true h2

theorem ge_pow_clearBit {x n i : Nat} (hi : i < n) (hx : 2 ^ n ≤ x) :
    2 ^ n ≤ clearBit x i := by
  unfold clearBit
  split_ifs
  · exact ge_pow_xor hi hx
  · exact hx

theorem ge_pow_setBit {x n i : Nat} (hi : i < n) (hx : 2 ^ n ≤ x) :
    2 ^ n ≤ setBit x i := by
  unfold setBit
  split_ifs
  · exact hx
  · exact ge_pow_xor hi hx

theorem flip_masked {t : TruthTable} (hwf : t.wf) {i : Nat} (hi : i < t.num_vars)
    (hm : masked t) : masked (flip_inplace t i) := by
  intro x hx hge
  rw [flip_inplace_length] at hx
  rw [flip_inplace_num_vars] at hge
  rw [flip_inplace_tableBit hwf hi hx]
  exact hm _ (xorIdx_lt_storage hwf hi hx) (ge_pow_xor hi hge)

theorem cofactor0_masked {t : TruthTable} (hwf : t.wf) {i : Nat} (hi : i < t.num_vars)
    (hm : masked t) : masked (cofactor0_inplace t i) := by
  intro x hx hge
  rw [cofactor0_inplace_length] at hx
  rw [cofactor0_inplace_num_vars] at hge
  rw [cofactor0_inplace_tableBit hwf hi hx]
  exact hm _ (clearBitIdx_lt_storage hwf i hx) (ge_pow_clearBit hi hge)

theorem cofactor1_masked {t : TruthTable} (hwf : t.wf) {i : Nat} (hi : i < t.num_vars)
    (hm : masked t) : masked (cofactor1_inplace t i) := by
  intro x hx hge
  rw [cofactor1_inplace_length] at hx
  rw [cofactor1_inplace_num_vars] at hge
  rw [cofactor1_inplace_tableBit hwf hi hx]
  exact hm _ (setBitIdx_lt_storage hwf hi hx) (ge_pow_setBit hi hge)

theorem swap_masked {t : TruthTable} (hwf : t.wf) {i j : Nat} (hi : i < t.num_vars)
    (hj : j < t.num_vars) (hm : masked t) : masked (swap_inplace t i j) := by
  intro x hx hge
  rw [swap_inplace_length] at hx
  rw [swap_inplace_num_vars] at hge
  rw [swap_inplace_tableBit hwf hi hj hx]
  exact hm _ (swapBitsIdx_lt_storage hwf hi hj hx) (ge_pow_swapBits hi hj hge)

theorem swap_adjacent_masked {t : TruthTable} (hwf : t.wf) {i : Nat}
    (hi : i + 1 < t.num_vars) (hm : masked t) : masked (swap_adjacent_inplace t i) := by
  intro x hx hge
  rw [swap_adjacent_inplace_length] at hx
  rw [swap_adjacent_inplace_num_vars] at hge
  rw [swap_adjacent_inplace_tableBit hwf hi hx]
  exact hm _ (swapBitsIdx_lt_storage hwf (by omega) hi hx)
    (ge_pow_swapBits (by omega) hi hge)

theorem foldl_set_length (l : List Nat) (xs : List Nat) (f : List Nat → Nat → List Nat)
    (hf : ∀ acc b, (f acc b).length = acc.length) :
    (xs.foldl f l).length = l.length := by
  induction xs generalizing l with
  | nil => rfl
  | cons a as ih => rw [List.foldl_cons, ih, hf]

theorem shift_left_inplace_num_vars (t : TruthTable) (s : Nat) :
    (shift_left_inplace t s).num_vars = t.num_vars := by
  unfold shift_left_inplace
  split_ifs
  · rw [mask_bits_num_vars]
  · rfl
  · rfl
  · rfl

theorem shift_left_inplace_length (t : TruthTable) (s : Nat) :
    (shift_left_inplace t s).bits.length = t.bits.length := by
  unfold shift_left_inplace
  split_ifs with h1 h2 h3
  · rw [mask_bits_length]
    simp
  · simp [clear]
  · dsimp only
    rw [foldl_set_length _ _ _ (fun acc b => List.length_set acc b 0)]
    split_ifs with hrem
    · rw [List.length_set,
        foldl_set_length _ _ _ (fun acc b => List.length_set acc _ _)]
    · rw [List.length_set,
        foldl_set_length _ _ _ (fun acc b => List.length_set acc _ _)]
  · rfl

theorem shift_left_masked {t : TruthTable} (hwf : t.wf) (s : Nat) :
    masked (shift_left_inplace t s) := by
  rcases le_or_lt t.num_vars 6 with h6 | h6
  · by_cases hlt : t.num_vars < 6
    · obtain ⟨w, hw⟩ := List.length_eq_one.mp (by rw [hwf.1, num_blocks_le_six h6])
      unfold shift_left_inplace
      rw [if_pos h6, hw]
      simp only [List.getD_cons_zero, List.set_cons_zero]
      unfold mask_bits
      rw [if_pos hlt]
      simp only [List.getD_cons_zero, List.set_cons_zero]
      refine masked_of_single_word ?_ ?_
      · rfl
      · simp only [List.getD_cons_zero]
        rw [and_two_pow_sub_one]
        exact Nat.mod_lt _ (Nat.two_pow_pos _)
    · intro x hx hge
      exfalso
      rw [shift_left_inplace_length, hwf.1, num_blocks_le_six h6] at hx
      rw [shift_left_inplace_num_vars] at hge
      have h66 : t.num_vars = 6 := by omega
      rw [h66] at hge
      norm_num at hx hge
      omega
  · intro x hx hge
    exfalso
    rw [shift_left_inplace_length] at hx
    rw [shift_left_inplace_num_vars] at hge
    have hs2 := storage_bits_eq hwf h6
    omega

theorem word_lt_of_masked {t : TruthTable} (hwf : t.wf) (hm : masked t)
    (h6 : t.num_vars ≤ 6) : t.bits.getD 0 0 < 2 ^ 2 ^ t.num_vars := by
  apply lt_two_pow_of_high_bits
  intro j hj
  by_cases hj64 : j < 64
  · have h2 := hm j (by rw [hwf.1, num_blocks_le_six h6]; omega) hj
    unfold tableBit at h2
    rwa [Nat.div_eq_of_lt hj64, Nat.mod_eq_of_lt hj64] at h2
  · exact testBit_high_of_lt (getD_lt_W hwf.2 0) (by omega)

theorem ext_fold_bound :
    ∀ (count start m : Nat), m < 2 ^ 2 ^ start →
      (List.range' start count).foldl
        (fun m i => m ||| ((m <<< (1 <<< i)) % W)) m < 2 ^ 2 ^ (start + count) := by
  intro count
  induction count with
  | zero =>
    intro start m hm
    simpa using hm
  | succ n ih =>
    intro start m hm
    rw [List.range'_succ, List.foldl_cons]
    have hstep : m ||| ((m <<< (1 <<< start)) % W) < 2 ^ 2 ^ (start + 1) := by
      have h1 : m <<< (1 <<< start) < 2 ^ 2 ^ (start + 1) := by
        rw [Nat.shiftLeft_eq, one_shiftLeft_eq, ← two_mul_pow, two_mul,
          pow_add]
        exact Nat.mul_lt_mul_of_pos_right hm (Nat.two_pow_pos _)
      have h2 : (m <<< (1 <<< start)) % W ≤ m <<< (1 <<< start) := Nat.mod_le _ _
      have h3 : m < 2 ^ 2 ^ (start + 1) := by
        calc m < 2 ^ 2 ^ start := hm
        _ ≤ 2 ^ 2 ^ (start + 1) :=
          Nat.pow_le_pow_right (by norm_num) (Nat.pow_le_pow_right (by norm_num) (by omega))
      exact lor_lt_two_pow h3 (lt_of_le_of_lt h2 h1)
    have h4 := ih (start + 1) _ hstep
    rw [show start + 1 + n = start + (n + 1) by omega] at h4
    exact h4

theorem length_flatten_replicate (n : Nat) (l : List Nat) :
    ((List.replicate n l).flatten).length = n * l.length := by
  induction n with
  | zero => simp
  | succ k ih =>
    rw [List.replicate_succ, List.flatten_cons, List.length_append, ih]
    ring

theorem extend_to_masked {t : TruthTable} (hwf : t.wf) (hm : masked t)
    {nv : Nat} (hnv : t.num_vars ≤ nv) : masked (extend_to nv t) := by
  rcases le_or_lt 6 nv with h6 | h6
  · intro x hx hge
    exfalso
    unfold extend_to at hx hge
    split_ifs at hx hge with hlt
    · simp only [List.length_replicate] at hx
      have h2 : 64 * num_blocks nv = 2 ^ nv := by
        rcases Nat.eq_or_lt_of_le h6 with h | h
        · rw [num_blocks_le_six (by omega), ← h]
          norm_num
        · rw [num_blocks_gt_six h, ← pow_splitated h6]
      dsimp only at hge
      omega
    · simp only [length_flatten_replicate] at hx
      have h2 : 64 * num_blocks nv = 2 ^ nv := by
        rcases Nat.eq_or_lt_of_le h6 with h | h
        · rw [num_blocks_le_six (by omega), ← h]
          norm_num
        · rw [num_blocks_gt_six h, ← pow_splitated h6]
      have hlen : 64 * t.bits.length = 2 ^ t.num_vars := by
        rcases Nat.lt_or_ge 6 t.num_vars with h | h
        · exact storage_bits_eq hwf h
        · have h66 : t.num_vars = 6 := by omega
          rw [hwf.1, num_blocks_le_six (by omega), h66]
          norm_num
      have hdvd : t.bits.length ∣ num_blocks nv := by
        have hd2 : 64 * t.bits.length ∣ 64 * num_blocks nv := by
          rw [hlen, h2]
          exact pow_dvd_pow 2 hnv
        exact (Nat.mul_dvd_mul_iff_left (by norm_num : (0:Nat) < 64)).mp hd2
      rw [Nat.div_mul_cancel hdvd] at hx
      dsimp only at hge
      omega
  · have hlt : t.num_vars < 6 := by omega
    unfold extend_to
    rw [if_pos hlt]
    have hnb : num_blocks nv = 1 := num_blocks_le_six (by omega)
    rw [hnb]
    refine masked_of_single_word ?_ ?_
    · rfl
    · simp only [List.replicate_one, List.getD_cons_zero]
      have hmin : min 6 nv = nv := by omega
      rw [hmin]
      have hstart := word_lt_of_masked hwf hm (by omega)
      have h3 := ext_fold_bound (nv - t.num_vars) t.num_vars _ hstart
      rw [show t.num_vars + (nv - t.num_vars) = nv by omega] at h3
      exact h3

theorem min_base_masked_aux (t0 : TruthTable) (hwf : t0.wf) (hm : masked t0) :
    ∀ m, m ≤ t0.num_vars →
      masked ((List.range m).foldl min_base_step (t0, 0, [])).1 := by
  intro m
  induction m with
  | zero =>
    intro _
    exact hm
  | succ m ih =>
    intro hmle
    have hmask := ih (by omega)
    obtain ⟨hwf1, hnv1, hk1, hkm1, _⟩ := min_base_aux t0 hwf m (by omega)
    rw [List.range_succ, List.foldl_append, List.foldl_cons, List.foldl_nil]
    set s := (List.range m).foldl min_base_step (t0, 0, []) with hs
    unfold min_base_step
    split_ifs with hv hki
    · exact swap_masked hwf1 (by rw [hnv1]; omega) (by rw [hnv1]; omega) hmask
    · exact hmask
    · exact hmask

theorem expand_fold_masked (sup : List Nat) :
    ∀ (L : List Nat) (t : TruthTable), t.wf → masked t →
      (∀ i ∈ L, i < t.num_vars) → (∀ i ∈ L, sup.getD i 0 < t.num_vars) →
      masked (L.foldl (fun acc i => swap_inplace acc i (sup.getD i 0)) t) := by
  intro L
  induction L with
  | nil =>
    intro t _ hm _ _
    exact hm
  | cons a as ih =>
    intro t hwf hm hL hG
    rw [List.foldl_cons]
    have ha : a < t.num_vars := hL a (List.mem_cons_self a as)
    have hga : sup.getD a 0 < t.num_vars := hG a (List.mem_cons_self a as)
    apply ih _ (swap_inplace_wf hwf _ _) (swap_masked hwf ha hga hm)
    · intro i hi
      rw [swap_inplace_num_vars]
      exact hL i (List.mem_cons_of_mem a hi)
    · intro i hi
      rw [swap_inplace_num_vars]
      exact hG i (List.mem_cons_of_mem a hi)

/-- Claim C2: every operation preserves the masking invariant I1. Starting
from a well-formed masked table, the cofactors, flip, swap, swap_adjacent,
min_base_inplace, expand_inplace with a valid support, extend_to to at least
as many variables, shift_left with any shift, and next all produce tables
whose bit positions at or above 2^num_vars (within the allocated storage)
are zero. -/
theorem claim_C2 {t : TruthTable} (hwf : t.wf) (hm : masked t) :
    (∀ i, i < t.num_vars →
      masked (cofactor0 t i) ∧ masked (cofactor1 t i) ∧ masked (flip t i)) ∧
    (∀ i j, i < t.num_vars → j < t.num_vars → masked (swap t i j)) ∧
    (∀ i, i + 1 < t.num_vars → masked (swap_adjacent t i)) ∧
    masked (min_base_inplace t).1 ∧
    (∀ support : List Nat, (∀ v ∈ support, v < t.num_vars) →
      support.length ≤ t.num_vars → masked (expand_inplace t support)) ∧
    (∀ nv, t.num_vars ≤ nv → masked (extend_to nv t)) ∧
    (∀ s, masked (shift_left t s)) ∧
    masked (next t) := by
  refine ⟨?_, ?_, ?_, ?_, ?_, ?_, ?_, ?_⟩
  · intro i hi
    exact ⟨cofactor0_masked hwf hi hm, cofactor1_masked hwf hi hm, flip_masked hwf hi hm⟩
  · intro i j hi hj
    exact swap_masked hwf hi hj hm
  · intro i hi
    exact swap_adjacent_masked hwf hi hm
  · exact min_base_masked_aux t hwf hm t.num_vars (le_refl _)
  · intro support hsup hslen
    unfold expand_inplace
    apply expand_fold_masked support _ t hwf hm
    · intro i hi
      rw [List.mem_reverse, List.mem_range] at hi
      omega
    · intro i hi
      rw [List.mem_reverse, List.mem_range] at hi
      rw [getD_eq_getElem hi]
      exact hsup _ (List.getElem_mem hi)
  · intro nv hnv
    exact extend_to_masked hwf hm hnv
  · intro s
    exact shift_left_masked hwf s
  · exact next_inplace_masked hwf

theorem claim_C2_witness :
    (⟨2, [9]⟩ : TruthTable).wf ∧ masked (⟨2, [9]⟩ : TruthTable) ∧
    (masked (cofactor0 ⟨2, [9]⟩ 1) ∧ masked (flip ⟨2, [9]⟩ 0) ∧
      masked (swap ⟨2, [9]⟩ 0 1) ∧ masked (swap_adjacent ⟨2, [9]⟩ 0) ∧
      masked (min_base_inplace ⟨2, [9]⟩).1 ∧ masked (expand_inplace ⟨2, [9]⟩ [1]) ∧
      masked (extend_to 3 ⟨2, [9]⟩) ∧ masked (shift_left ⟨2, [9]⟩ 1) ∧
      masked (next ⟨2, [9]⟩)) :=
  ⟨by decide, by decide,
    ((claim_C2 (by decide) (by decide)).1 1 (by decide)).1,
    ((claim_C2 (by decide) (by decide)).1 0 (by decide)).2.2,
    (claim_C2 (by decide) (by decide)).2.1 0 1 (by decide) (by decide),
    (claim_C2 (by decide) (by decide)).2.2.1 0 (by decide),
    (claim_C2 (by decide) (by decide)).2.2.2.1,
    (claim_C2 (by decide) (by decide)).2.2.2.2.1 [1] (by decide) (by decide),
    (claim_C2 (by decide) (by decide)).2.2.2.2.2.1 3 (by decide),
    (claim_C2 (by decide) (by decide)).2.2.2.2.2.2.1 1,
    (claim_C2 (by decide) (by decide)).2.2.2.2.2.2.2⟩

end Kitty
